import Mathlib

/-! # Classical cipher mechanisms: a shallow embedding of `CYS-PROJECT-OPTIMIZED.cpp`

A C++ `std::string` is embedded as a list of byte codes (`List Nat`, each code in `0..255`).
C++ `int` / `long long` values are embedded as `Int`; the C++ operators `/` and `%` truncate
towards zero and are embedded as `Int.tdiv` and `Int.tmod`.
Functions that throw are embedded with `Except`, reads outside an array with `Option`.
The functions of the original program `CYS-PROJECT.cpp` and of `performance_benchmark.cpp` that
the optimized ones are compared with are embedded in a section of their own.
-/

namespace CipherMechanisms

/-! ## Characters -/

/-- Byte codes of an ASCII string literal. -/
def bytes (s : String) : List Nat := s.toList.map Char.toNat

/-- The `int` a `char` holding byte code `b` promotes to (`char` is a signed 8-bit type). -/
def charToInt (b : Nat) : Int := if b < 128 then (b : Int) else (b : Int) - 256

/-- The byte code stored when an `int` is converted to `char` (low eight bits). -/
def intToChar (x : Int) : Nat := (x % 256).toNat

/-- `isalpha` in the "C" locale: the ASCII letters. -/
def isalpha (b : Nat) : Bool := (65 ≤ b && b ≤ 90) || (97 ≤ b && b ≤ 122)

/-- `islower` in the "C" locale. -/
def islower (b : Nat) : Bool := 97 ≤ b && b ≤ 122

/-- `toupper` in the "C" locale. -/
def toupper (b : Nat) : Nat := if islower b then b - 32 else b

/-! ## Caesar cipher -/

/-- Body of the `for (char ch : text)` loop of `caesarEncryptOptimized`, for the normalised
shift. -/
def caesarChar (shift : Int) (ch : Nat) : Nat :=
  if isalpha ch then
    let base : Nat := if islower ch then 97 else 65
    intToChar (Int.tmod (charToInt ch - charToInt base + shift) 26 + charToInt base)
  else ch

/-- Embedding of `caesarEncryptOptimized(text, shift)`. -/
def caesarEncryptOptimized (text : List Nat) (shift : Int) : List Nat :=
  if text.isEmpty then text
  else
    let shift := Int.tmod (Int.tmod shift 26 + 26) 26
    text.map (caesarChar shift)

/-- Embedding of `caesarDecryptOptimized(text, shift)`. -/
def caesarDecryptOptimized (text : List Nat) (shift : Int) : List Nat :=
  caesarEncryptOptimized text (26 - Int.tmod shift 26)

/-! ## Vigenère cipher -/

/-- Embedding of `generateKeyOptimized(plaintext, key)`: the key cycled to the text length. -/
def generateKeyOptimized (plaintext key : List Nat) : List Nat :=
  if key.isEmpty || plaintext.isEmpty then key
  else (List.range plaintext.length).map (fun i => key.getD (i % key.length) 0)

/-- The `char shift` computed from a running-key character. -/
def vigenereShift (k : Nat) : Int :=
  charToInt (intToChar (if islower k then charToInt k - 97 else charToInt k - 65))

/-- Body of the encryption loop of `vigenereEncryptOptimized` at one index. -/
def vigenereEncChar (p k : Nat) : Nat :=
  if isalpha p then
    let base : Nat := if islower p then 97 else 65
    intToChar (Int.tmod (charToInt p - charToInt base + vigenereShift k) 26 + charToInt base)
  else p

/-- Body of the decryption loop of `vigenereDecryptOptimized` at one index. -/
def vigenereDecChar (c k : Nat) : Nat :=
  if isalpha c then
    let base : Nat := if islower c then 97 else 65
    intToChar (Int.tmod (charToInt c - charToInt base - vigenereShift k + 26) 26 + charToInt base)
  else c

/-- Embedding of `vigenereEncryptOptimized(plaintext, key)`. -/
def vigenereEncryptOptimized (plaintext key : List Nat) : List Nat :=
  if plaintext.isEmpty || key.isEmpty then plaintext
  else
    let fullKey := generateKeyOptimized plaintext key
    (List.range plaintext.length).map
      (fun i => vigenereEncChar (plaintext.getD i 0) (fullKey.getD i 0))

/-- Embedding of `vigenereDecryptOptimized(ciphertext, key)`. -/
def vigenereDecryptOptimized (ciphertext key : List Nat) : List Nat :=
  if ciphertext.isEmpty || key.isEmpty then ciphertext
  else
    let fullKey := generateKeyOptimized ciphertext key
    (List.range ciphertext.length).map
      (fun i => vigenereDecChar (ciphertext.getD i 0) (fullKey.getD i 0))

/-! ## One-time pad -/

/-- Embedding of `otpEncryptOptimized(plaintext, key)`; the `invalid_argument` exception is the
`Except.error` result. `^` acts bit by bit, so the byte stored for `plaintext[i] ^ key[i]` is the
exclusive-or of the two byte codes. -/
def otpEncryptOptimized (plaintext key : List Nat) : Except String (List Nat) :=
  if plaintext.length ≠ key.length then
    Except.error "Key length must equal plaintext length for OTP"
  else
    Except.ok ((List.range plaintext.length).map
      (fun i => plaintext.getD i 0 ^^^ key.getD i 0))

/-- Embedding of `otpDecryptOptimized(ciphertext, key)`. -/
def otpDecryptOptimized (ciphertext key : List Nat) : Except String (List Nat) :=
  otpEncryptOptimized ciphertext key

/-! ## Rail fence cipher -/

/-- The direction after `row += direction; if (row == 0 || row == key - 1) direction = -direction;`
where `row` is the already advanced row. -/
def railTurn (key row direction : Int) : Int :=
  if row = 0 ∨ row = key - 1 then -direction else direction

/-- The `for (char ch : plaintext)` loop of `railfenceEncryptOptimized`: `rail[row].push_back(ch)`
followed by the zigzag step. -/
def railfenceEncLoop (key : Int) : List Nat → List (List Nat) → Int → Int → List (List Nat)
  | [], rail, _, _ => rail
  | ch :: rest, rail, row, direction =>
    let rail := rail.set row.toNat (rail.getD row.toNat [] ++ [ch])
    let row := row + direction
    railfenceEncLoop key rest rail row (railTurn key row direction)

/-- Embedding of `railfenceEncryptOptimized(plaintext, key)`. -/
def railfenceEncryptOptimized (plaintext : List Nat) (key : Int) : List Nat :=
  if key ≤ 1 then plaintext
  else if plaintext.isEmpty then plaintext
  else (railfenceEncLoop key plaintext (List.replicate key.toNat []) 0 1).flatten

/-- First loop of `railfenceDecryptOptimized`: `railLengths[row]++` along the zigzag, once per
ciphertext position. -/
def railLengthsLoop (key : Int) : Nat → List Nat → Int → Int → List Nat
  | 0, railLengths, _, _ => railLengths
  | n + 1, railLengths, row, direction =>
    let railLengths := railLengths.set row.toNat (railLengths.getD row.toNat 0 + 1)
    let row := row + direction
    railLengthsLoop key n railLengths row (railTurn key row direction)

/-- Second loop of `railfenceDecryptOptimized`: rail `i` receives
`ciphertext.substr(index, railLengths[i])` when that slice lies inside the ciphertext, and stays
empty otherwise. -/
def railFill (ciphertext : List Nat) : List Nat → Nat → List (List Nat)
  | [], _ => []
  | len :: railLengths, index =>
    if index + len ≤ ciphertext.length then
      ((ciphertext.drop index).take len) :: railFill ciphertext railLengths (index + len)
    else [] :: railFill ciphertext railLengths index

/-- Third loop of `railfenceDecryptOptimized`: along the zigzag, the next unread character of the
current rail is appended to the plaintext when the rail still has one. -/
def railReadLoop (key : Int) (rail : List (List Nat)) :
    Nat → List Nat → Int → Int → List Nat → List Nat
  | 0, _, _, _, plaintext => plaintext
  | n + 1, railPos, row, direction, plaintext =>
    let pos := railPos.getD row.toNat 0
    let cur := rail.getD row.toNat []
    let plaintext := if pos < cur.length then plaintext ++ [cur.getD pos 0] else plaintext
    let railPos := if pos < cur.length then railPos.set row.toNat (pos + 1) else railPos
    let row := row + direction
    railReadLoop key rail n railPos row (railTurn key row direction) plaintext

/-- Embedding of `railfenceDecryptOptimized(ciphertext, key)`. -/
def railfenceDecryptOptimized (ciphertext : List Nat) (key : Int) : List Nat :=
  if key ≤ 1 then ciphertext
  else if ciphertext.isEmpty then ciphertext
  else
    let railLengths := railLengthsLoop key ciphertext.length (List.replicate key.toNat 0) 0 1
    let rail := railFill ciphertext railLengths 0
    railReadLoop key rail ciphertext.length (List.replicate key.toNat 0) 0 1 []

/-! ## Modular arithmetic -/

/-- Reduction of an exact product to the signed 64-bit range of `long long`. -/
def wrap64 (x : Int) : Int := (x + 2 ^ 63) % 2 ^ 64 - 2 ^ 63

/-- The `while (exp > 0)` loop of `fastModularExponentiation`; `exp & 1` is the parity of the
positive `exp` and `exp >>= 1` halves it. The loop halves `exp`, so `exp` iterations are never
exceeded and the fuel only makes the recursion structural. -/
def fastModExpLoop : Nat → Int → Int → Int → Int → Int
  | 0, result, _, _, _ => result
  | fuel + 1, result, base, exp, mod =>
    if exp > 0 then
      let result := if exp % 2 = 1 then Int.tmod (wrap64 (result * base)) mod else result
      let base := Int.tmod (wrap64 (base * base)) mod
      fastModExpLoop fuel result base (exp / 2) mod
    else result

/-- Embedding of `fastModularExponentiation(base, exp, mod)`. -/
def fastModularExponentiation (base exp mod : Int) : Int :=
  fastModExpLoop exp.toNat 1 (Int.tmod base mod) exp mod

/-- Embedding of `rsaEncryptOptimized(message, e, n)`. -/
def rsaEncryptOptimized (message e n : Int) : Int :=
  fastModularExponentiation message e n

/-- Embedding of `rsaDecryptOptimized(cipher, d, n)`. -/
def rsaDecryptOptimized (cipher d n : Int) : Int :=
  fastModularExponentiation cipher d n

/-- The recursion of `extendedGCD(a, b, x, y)`, returning `(gcd, x, y)`. The first argument
shrinks in absolute value at every call, so fuel above `|a|` is never used up. -/
def extendedGCDFuel : Nat → Int → Int → Int × Int × Int
  | 0, _, b => (b, 0, 1)
  | fuel + 1, a, b =>
    if a = 0 then (b, 0, 1)
    else
      let r := extendedGCDFuel fuel (Int.tmod b a) a
      (r.1, r.2.2 - Int.tdiv b a * r.2.1, r.2.1)

/-- Embedding of `extendedGCD(a, b, x, y)` with the results `(gcd, x, y)`; arithmetic is exact
(operands are taken small enough that no 64-bit overflow occurs). -/
def extendedGCD (a b : Int) : Int × Int × Int :=
  extendedGCDFuel (a.natAbs + 1) a b

/-- Embedding of `modInverseOptimized(a, m)`; `-1` is the no-inverse signal. -/
def modInverseOptimized (a m : Int) : Int :=
  let r := extendedGCD a m
  if r.1 ≠ 1 then -1 else Int.tmod (Int.tmod r.2.1 m + m) m

/-- The loop `while (((a | b) & 1) == 0) { a >>= 1; b >>= 1; shift++; }` of `gcdOptimized`;
the low bit of `a | b` is clear exactly when both are even. -/
def gcdShiftLoop : Nat → Int → Int → Nat → Int × Int × Nat
  | 0, a, b, shift => (a, b, shift)
  | fuel + 1, a, b, shift =>
    if a % 2 = 0 ∧ b % 2 = 0 then gcdShiftLoop fuel (a / 2) (b / 2) (shift + 1)
    else (a, b, shift)

/-- The loop `while ((a & 1) == 0) a >>= 1;` of `gcdOptimized`. -/
def gcdStripLoop : Nat → Int → Int
  | 0, a => a
  | fuel + 1, a => if a % 2 = 0 then gcdStripLoop fuel (a / 2) else a

/-- The `do { ... } while (b != 0)` loop of `gcdOptimized`. -/
def gcdSubLoop : Nat → Int → Int → Int
  | 0, a, _ => a
  | fuel + 1, a, b =>
    let b := gcdStripLoop b.natAbs b
    let a' := if a > b then b else a
    let b' := if a > b then a else b
    let b'' := b' - a'
    if b'' ≠ 0 then gcdSubLoop fuel a' b'' else a'

/-- Embedding of `gcdOptimized(a, b)` (binary GCD); arithmetic is exact. Every loop strictly
shrinks a positive operand, so the fuel given to each loop is never used up on positive
operands. -/
def gcdOptimized (a b : Int) : Int :=
  if a = 0 then b
  else if b = 0 then a
  else
    let s := gcdShiftLoop a.natAbs a b 0
    let a := gcdStripLoop s.1.natAbs s.1
    let a := gcdSubLoop (a.natAbs + s.2.1.natAbs) a s.2.1
    a * 2 ^ s.2.2

/-- Embedding of `generateRSAKeysOptimized(n, e, d, p, q)`: the outputs are `(n, e, d)` and the
`runtime_error` exception is the `Except.error` result; arithmetic is exact. -/
def generateRSAKeysOptimized (p q : Int) : Except String (Int × Int × Int) :=
  let n := p * q
  let phi_n := (p - 1) * (q - 1)
  let e : Int := if gcdOptimized 17 phi_n ≠ 1 then 65537 else 17
  let d := modInverseOptimized e phi_n
  if d = -1 then Except.error "Cannot generate valid RSA keys with given primes"
  else Except.ok (n, e, d)

/-- Embedding of `stringToIntVectorOptimized(message)`: each `char` is converted to
`unsigned char` (its value modulo 256) and then to `long long`. -/
def stringToIntVectorOptimized (message : List Nat) : List Int :=
  message.map (fun c => charToInt c % 256)

/-- Embedding of `intVectorToStringOptimized(intVector)`: the units in `0..255` are pushed as
characters, the others are skipped. -/
def intVectorToStringOptimized (intVector : List Int) : List Nat :=
  intVector.filterMap (fun i => if 0 ≤ i ∧ i ≤ 255 then some (intToChar i) else none)

/-- Embedding of `xorEncryptOptimized(data, key)`; `^` acts bit by bit, so the byte stored for
`data[i] ^ key` is the exclusive-or of the two byte codes. -/
def xorEncryptOptimized (data : List Nat) (key : Nat) : List Nat :=
  data.map (fun c => c ^^^ key)

/-- Embedding of `generateKeys()`: the public key `(e, n)` of the hybrid mode. -/
def generateKeys : Int × Int :=
  let p : Int := 61
  let q : Int := 53
  (17, p * q)

/-- The key path of the hybrid branch of `main`: the `char symmetricKey` is promoted to
`long long`, wrapped by `rsaEncryptOptimized` with the public key of `generateKeys`, unwrapped
by `rsaDecryptOptimized` with `d = 2753`, and converted back to `char`. -/
def hybridRecoveredKey (symmetricKey : Nat) : Nat :=
  let e := generateKeys.1
  let n := generateKeys.2
  let d : Int := 2753
  let encryptedSymmetricKey := rsaEncryptOptimized (charToInt symmetricKey) e n
  intToChar (rsaDecryptOptimized encryptedSymmetricKey d n)

/-- The recursion of `gcd(a, b)` of `CYS-PROJECT.cpp` (Euclid's algorithm):
`if (b == 0) return a; return gcd(b, a % b);`. The second argument shrinks in absolute value at
every call, so fuel above `|b|` is never used up. -/
def gcdFuel : Nat → Int → Int → Int
  | 0, a, _ => a
  | fuel + 1, a, b => if b = 0 then a else gcdFuel fuel b (Int.tmod a b)

/-- Embedding of `gcd(a, b)` of `CYS-PROJECT.cpp`. -/
def gcd (a b : Int) : Int :=
  gcdFuel (b.natAbs + 1) a b

/-! ## Playfair cipher

The array `char keyMatrix[5][5]` is embedded as the list of its 25 cells in memory (row-major)
order: `keyMatrix[r][c]` is cell `5 * r + c`. -/

/-- The variables of `generateKeyMatrixOptimized`. -/
structure KeyMatrixState where
  /-- The 25 cells of `keyMatrix`, row by row. -/
  keyMatrix : List Nat
  /-- The flags `used[0..25]`. -/
  used : List Bool
  /-- Row of the next cell to write. -/
  row : Nat
  /-- Column of the next cell to write. -/
  col : Nat
deriving DecidableEq, Repr

/-- The statements `keyMatrix[row][col] = c; used[c - 'A'] = true; if (++col == 5) { col = 0;
row++; }`. -/
def keyMatrixPut (st : KeyMatrixState) (c : Nat) : KeyMatrixState :=
  let keyMatrix := st.keyMatrix.set (5 * st.row + st.col) c
  let used := st.used.set (c - 65) true
  if st.col + 1 = 5 then ⟨keyMatrix, used, st.row + 1, 0⟩
  else ⟨keyMatrix, used, st.row, st.col + 1⟩

/-- Body of the `for (char c : key)` loop of `generateKeyMatrixOptimized`. -/
def keyMatrixKeyStep (st : KeyMatrixState) (c : Nat) : KeyMatrixState :=
  let c := toupper c
  if isalpha c && !st.used.getD (c - 65) false then keyMatrixPut st c else st

/-- The loop `for (char c = 'A'; c <= 'Z' && row < 5; ++c)` of `generateKeyMatrixOptimized`,
over the letters still to visit. -/
def keyMatrixFill : List Nat → KeyMatrixState → KeyMatrixState
  | [], st => st
  | c :: cs, st =>
    if st.row < 5 then
      keyMatrixFill cs (if !st.used.getD (c - 65) false then keyMatrixPut st c else st)
    else st

/-- The codes of `'A'` to `'Z'`. -/
def upperLetters : List Nat := (List.range 26).map (· + 65)

/-- Embedding of `generateKeyMatrixOptimized(key, keyMatrix)`: the contents of `keyMatrix` after
the call. The caller's array starts with unspecified contents, taken to be zero. -/
def generateKeyMatrixOptimized (key : List Nat) : List Nat :=
  let init : KeyMatrixState :=
    ⟨List.replicate 25 0, (List.replicate 26 false).set (74 - 65) true, 0, 0⟩
  (keyMatrixFill upperLetters (key.foldl keyMatrixKeyStep init)).keyMatrix

/-- First loop of `prepareTextOptimized`: letters are kept, in upper case, with `J` as `I`. -/
def prepareLetters (text : List Nat) : List Nat :=
  text.filterMap (fun c =>
    if isalpha c then
      let c := toupper c
      some (if c = 74 then 73 else c)
    else none)

/-- The loop `for (size_t i = 0; i < prepared.length() - 1; i += 2)` of `prepareTextOptimized`.
The bound `prepared.length() - 1` is computed in the 64-bit unsigned type `size_t`: the length
of a string is below `2 ^ 64`, so the subtraction wraps only for the empty string, to
`2 ^ 64 - 1`. A read outside the string (only possible through that wrapped bound) has no
defined result and gives `none`, as does running out of fuel. -/
def prepareDupLoop : Nat → Nat → List Nat → Option (List Nat)
  | 0, _, _ => none
  | fuel + 1, i, prepared =>
    if i < (if prepared.length = 0 then 18446744073709551615 else prepared.length - 1) then
      match prepared.get? i, prepared.get? (i + 1) with
      | some a, some b =>
        prepareDupLoop fuel (i + 2)
          (if a = b then prepared.take (i + 1) ++ 88 :: prepared.drop (i + 1) else prepared)
      | _, _ => none
    else some prepared

/-- Embedding of `prepareTextOptimized(text)`. Each iteration of the duplicate scan brings `i`
at least one step closer to the length, so `length + 1` iterations are never exceeded. -/
def prepareTextOptimized (text : List Nat) : Option (List Nat) :=
  let prepared := prepareLetters text
  match prepareDupLoop (prepared.length + 1) 0 prepared with
  | some prepared => some (if prepared.length % 2 ≠ 0 then prepared ++ [88] else prepared)
  | none => none

/-- Embedding of `initializePositionLookup(keyMatrix, positions)`: the table `positions[26][2]`
as a list of 26 `(row, column)` pairs. -/
def initializePositionLookup (keyMatrix : List Nat) : List (Int × Int) :=
  (List.range 5).foldl (fun positions i =>
    (List.range 5).foldl (fun positions j =>
      let c := keyMatrix.getD (5 * i + j) 0
      if 65 ≤ c ∧ c ≤ 90 then positions.set (c - 65) ((i : Int), (j : Int)) else positions)
      positions)
    (List.replicate 26 (-1, -1))

/-- The read `keyMatrix[r][c]`; `none` outside the 5×5 array. -/
def matAt (keyMatrix : List Nat) (r c : Int) : Option Nat :=
  if 0 ≤ r ∧ r < 5 ∧ 0 ≤ c ∧ c < 5 then keyMatrix.get? (5 * r + c).toNat else none

/-- The read `positions[ch - 'A']`; `none` outside the 26 entries. -/
def posAt (positions : List (Int × Int)) (ch : Nat) : Option (Int × Int) :=
  let k := charToInt ch - 65
  if 0 ≤ k ∧ k < 26 then positions.get? k.toNat else none

/-- Body of the pair loop of `playfairEncryptOptimized` (`step = 1`) and of
`playfairDecryptOptimized` (`step = 4`): the two characters pushed for the pair
`(first, second)`. -/
def playfairPair (step : Int) (keyMatrix : List Nat) (positions : List (Int × Int))
    (first second : Nat) : Option (List Nat) :=
  match posAt positions first, posAt positions second with
  | some (r1, c1), some (r2, c2) =>
    if r1 = r2 then
      match matAt keyMatrix r1 (Int.tmod (c1 + step) 5),
          matAt keyMatrix r2 (Int.tmod (c2 + step) 5) with
      | some x, some y => some [x, y]
      | _, _ => none
    else if c1 = c2 then
      match matAt keyMatrix (Int.tmod (r1 + step) 5) c1,
          matAt keyMatrix (Int.tmod (r2 + step) 5) c2 with
      | some x, some y => some [x, y]
      | _, _ => none
    else
      match matAt keyMatrix r1 c2, matAt keyMatrix r2 c1 with
      | some x, some y => some [x, y]
      | _, _ => none
  | _, _ => none

/-- The loop `for (size_t i = 0; i < text.length(); i += 2)` shared by `playfairEncryptOptimized`
and `playfairDecryptOptimized`. With an odd length the last `text[i + 1]` is the terminating
`'\0'`, whose table index `'\0' - 'A'` lies outside `positions`. -/
def playfairLoop (step : Int) (keyMatrix : List Nat) (positions : List (Int × Int)) :
    List Nat → Option (List Nat)
  | [] => some []
  | [_] => none
  | first :: second :: rest =>
    match playfairPair step keyMatrix positions first second,
        playfairLoop step keyMatrix positions rest with
    | some pair, some tail => some (pair ++ tail)
    | _, _ => none

/-- Embedding of `playfairEncryptOptimized(plaintext, keyMatrix)`. -/
def playfairEncryptOptimized (plaintext keyMatrix : List Nat) : Option (List Nat) :=
  match prepareTextOptimized plaintext with
  | some prepared => playfairLoop 1 keyMatrix (initializePositionLookup keyMatrix) prepared
  | none => none

/-- Embedding of `playfairDecryptOptimized(ciphertext, keyMatrix)`. -/
def playfairDecryptOptimized (ciphertext keyMatrix : List Nat) : Option (List Nat) :=
  playfairLoop 4 keyMatrix (initializePositionLookup keyMatrix) ciphertext

/-! ## The string-to-integer codec -/

/-- Embedding of `stringToIntOptimized(str)`. `static_cast<unsigned char>(c)` is the byte code
of `c`; the value of `result * 256 + byte` is reduced to the range of `long long`. -/
def stringToIntOptimized (str : List Nat) : Int :=
  if str.isEmpty then 0
  else
    let MAX_SAFE : Int := 9223372036854775807 / 256
    str.foldl (fun result c =>
      if result > MAX_SAFE then Int.tmod (wrap64 (result * 256 + (c : Int))) 1000000007
      else wrap64 (result * 256 + (c : Int))) 0

/-! ## The original implementations (`CYS-PROJECT.cpp`) and the benchmark

The original program computes with `int`; a result of `int` arithmetic is reduced to the signed
32-bit range. -/

/-- Reduction of an exact value to the signed 32-bit range of `int`. -/
def wrap32 (x : Int) : Int := (x + 2 ^ 31) % 2 ^ 32 - 2 ^ 31

/-- The loop `for (long long i = 0; i < exp; i++) result = (result * base) % mod;` of
`naiveModularExponentiation` (`performance_benchmark.cpp`), by the number of iterations left. -/
def naiveModExpLoop : Nat → Int → Int → Int → Int
  | 0, result, _, _ => result
  | n + 1, result, base, mod =>
    naiveModExpLoop n (Int.tmod (wrap64 (result * base)) mod) base mod

/-- Embedding of `naiveModularExponentiation(base, exp, mod)` of `performance_benchmark.cpp`.
The `fastModularExponentiation` of that file is, statement by statement, the one of
`CYS-PROJECT-OPTIMIZED.cpp`. -/
def naiveModularExponentiation (base exp mod : Int) : Int :=
  naiveModExpLoop exp.toNat 1 base mod

/-- The loop `for (int i = 0; i < e; i++) result = (result * message) % n;` shared by the
original `rsaEncrypt` and `rsaDecrypt`, by the number of iterations left. -/
def rsaLoop : Nat → Int → Int → Int → Int
  | 0, result, _, _ => result
  | i + 1, result, message, n =>
    rsaLoop i (Int.tmod (wrap32 (result * message)) n) message n

/-- Embedding of the original `rsaEncrypt(message, e, n)`. -/
def rsaEncrypt (message e n : Int) : Int :=
  rsaLoop e.toNat 1 message n

/-- Embedding of the original `rsaDecrypt(cipher, d, n)`. -/
def rsaDecrypt (cipher d n : Int) : Int :=
  rsaLoop d.toNat 1 cipher n

/-- The loop `for (int x = 1; x < m; x++) if ((a * x) % m == 1) return x;` of the original
`modInverse`, followed by `return -1;`. The loop ends after at most `m - 1` iterations, so the
fuel `m` given by the caller is never used up. -/
def modInverseLoop (a m : Int) : Nat → Int → Int
  | 0, _ => -1
  | fuel + 1, x =>
    if x < m then
      if Int.tmod (wrap32 (a * x)) m = 1 then x else modInverseLoop a m fuel (x + 1)
    else -1

/-- Embedding of the original `modInverse(a, m)`. -/
def modInverse (a m : Int) : Int :=
  let a := Int.tmod a m
  modInverseLoop a m m.toNat 1

/-- Body of the `for (char ch : text)` loop of the original `caesar_encrypt`: the shift is used
as given. -/
def caesarEncryptChar (shift : Int) (ch : Nat) : Nat :=
  if isalpha ch then
    let base : Nat := if islower ch then 97 else 65
    intToChar (Int.tmod (wrap32 (charToInt ch - charToInt base + shift)) 26 + charToInt base)
  else ch

/-- Embedding of the original `caesar_encrypt(text, shift)`. -/
def caesar_encrypt (text : List Nat) (shift : Int) : List Nat :=
  text.map (caesarEncryptChar shift)

/-- Embedding of the original `caesar_decrypt(text, shift)`. -/
def caesar_decrypt (text : List Nat) (shift : Int) : List Nat :=
  caesar_encrypt text (26 - Int.tmod shift 26)

/-- Embedding of the original `prepareText(text)`; its two loops and the final padding are the
statements of `prepareTextOptimized`. -/
def prepareText (text : List Nat) : Option (List Nat) :=
  let prepared := prepareLetters text
  match prepareDupLoop (prepared.length + 1) 0 prepared with
  | some prepared => some (if prepared.length % 2 ≠ 0 then prepared ++ [88] else prepared)
  | none => none

/-- Embedding of the original `findPosition(keyMatrix, c, row, col)`: the first cell, row by
row, that holds `c`. When no cell holds `c` the function leaves `row` and `col` as they were,
which in the callers is uninitialised; this is the result `none`. -/
def findPosition (keyMatrix : List Nat) (c : Nat) : Option (Int × Int) :=
  (List.range 5).findSome? (fun i =>
    (List.range 5).findSome? (fun j =>
      if keyMatrix.getD (5 * i + j) 0 = c then some ((i : Int), (j : Int)) else none))

/-- Body of the pair loop of the original Playfair `encrypt` (`step = 1`) and `decrypt`
(`step = 4`): the two characters appended for the pair `(first, second)`. -/
def playfairSearchPair (step : Int) (keyMatrix : List Nat) (first second : Nat) :
    Option (List Nat) :=
  match findPosition keyMatrix first, findPosition keyMatrix second with
  | some (r1, c1), some (r2, c2) =>
    if r1 = r2 then
      match matAt keyMatrix r1 (Int.tmod (c1 + step) 5),
          matAt keyMatrix r2 (Int.tmod (c2 + step) 5) with
      | some x, some y => some [x, y]
      | _, _ => none
    else if c1 = c2 then
      match matAt keyMatrix (Int.tmod (r1 + step) 5) c1,
          matAt keyMatrix (Int.tmod (r2 + step) 5) c2 with
      | some x, some y => some [x, y]
      | _, _ => none
    else
      match matAt keyMatrix r1 c2, matAt keyMatrix r2 c1 with
      | some x, some y => some [x, y]
      | _, _ => none
  | _, _ => none

/-- The loop `for (size_t i = 0; i < text.length(); i += 2)` shared by the original Playfair
`encrypt` and `decrypt`. With an odd length the last `text[i + 1]` is the terminating `'\0'`,
which no cell of a key matrix of letters holds. -/
def playfairSearchLoop (step : Int) (keyMatrix : List Nat) : List Nat → Option (List Nat)
  | [] => some []
  | [_] => none
  | first :: second :: rest =>
    match playfairSearchPair step keyMatrix first second,
        playfairSearchLoop step keyMatrix rest with
    | some pair, some tail => some (pair ++ tail)
    | _, _ => none

/-- Embedding of the original Playfair overload `encrypt(plaintext, keyMatrix)`. -/
def playfairEncrypt (plaintext keyMatrix : List Nat) : Option (List Nat) :=
  match prepareText plaintext with
  | some prepared => playfairSearchLoop 1 keyMatrix prepared
  | none => none

/-- Embedding of the original Playfair overload `decrypt(ciphertext, keyMatrix)`. -/
def playfairDecrypt (ciphertext keyMatrix : List Nat) : Option (List Nat) :=
  playfairSearchLoop 4 keyMatrix ciphertext

/-! ## Auxiliary definitions for the statements -/

/-- The public exponent `generateRSAKeysOptimized` settles on for the totient `φ`: 17 when it is
coprime to `φ`, and 65537 otherwise. -/
def chosenExponent (φ : Nat) : Nat := if Nat.gcd 17 φ = 1 then 17 else 65537

/-- The states the zigzag walk of the rail fence cipher can be in for `key ≥ 2`: the row lies
on a rail, and the direction points inwards at the top and bottom rails. -/
def RailInv (key row direction : Int) : Prop :=
  0 ≤ row ∧ row ≤ key - 1 ∧ (direction = 1 ∨ direction = -1) ∧
    (row = 0 → direction = 1) ∧ (row = key - 1 → direction = -1)

/-- The characters of `text` that the zigzag walk started in state `(row, direction)` places on
rail `i`, in order. -/
def railShare (key : Int) : List Nat → Int → Int → Nat → List Nat
  | [], _, _, _ => []
  | ch :: rest, row, direction, i =>
    (if row.toNat = i then [ch] else []) ++
      railShare key rest (row + direction) (railTurn key (row + direction) direction) i

/-- A Playfair letter: an upper-case ASCII letter other than `J`. -/
def IsGridLetter (c : Nat) : Prop := 65 ≤ c ∧ c ≤ 90 ∧ c ≠ 74

/-- The key-matrix invariant: 25 cells holding pairwise different upper-case letters other than
`J`. -/
def ValidKeyMatrix (keyMatrix : List Nat) : Prop :=
  keyMatrix.length = 25 ∧ keyMatrix.Nodup ∧ ∀ c ∈ keyMatrix, IsGridLetter c

/-- The cells of `keyMatrix` written so far by `generateKeyMatrixOptimized`. -/
def KeyMatrixState.cells (st : KeyMatrixState) : List Nat :=
  st.keyMatrix.take (5 * st.row + st.col)

/-- Loop invariant of `generateKeyMatrixOptimized`: the cells written so far are pairwise
different Playfair letters, and `used` flags exactly `J` and the letters written. -/
def KeyMatrixInv (st : KeyMatrixState) : Prop :=
  st.col < 5 ∧ st.keyMatrix.length = 25 ∧ st.used.length = 26 ∧ 5 * st.row + st.col ≤ 25 ∧
    st.cells.Nodup ∧ (∀ c ∈ st.cells, IsGridLetter c) ∧
    ∀ x, x < 26 → (st.used.getD x false = true ↔ (x = 9 ∨ (x + 65) ∈ st.cells))

/-- The cells (as positions `5 * row + column`) read out for a pair of letters standing at cells
`i1` and `i2`, with `step = 1` for encryption and `step = 4` for decryption. -/
def playfairCells (step i1 i2 : Nat) : Nat × Nat :=
  if i1 / 5 = i2 / 5 then
    (5 * (i1 / 5) + (i1 % 5 + step) % 5, 5 * (i2 / 5) + (i2 % 5 + step) % 5)
  else if i1 % 5 = i2 % 5 then
    (5 * ((i1 / 5 + step) % 5) + i1 % 5, 5 * ((i2 / 5 + step) % 5) + i2 % 5)
  else (5 * (i1 / 5) + i2 % 5, 5 * (i2 / 5) + i1 % 5)

/-- The letters of a seed key as the specification reads them: upper-cased, non-letters
dropped, `J` mapped to `I`. -/
def keyLetters (key : List Nat) : List Nat :=
  ((key.map toupper).filter isalpha).map (fun c => if c = 74 then 73 else c)

/-- The elements of a list in order of first occurrence, duplicates skipped. -/
def firstOccurrences (l : List Nat) : List Nat :=
  l.foldl (fun acc c => if c ∈ acc then acc else acc ++ [c]) []

/-- The key matrix as the specification describes it: the key's letters in order of first
occurrence, followed by the letters of `A`-`Z` without `J` not yet used, in alphabetical
order. -/
def keyMatrixReference (key : List Nat) : List Nat :=
  firstOccurrences (keyLetters key) ++
    upperLetters.filter
      (fun c => decide (c ≠ 74) && decide (c ∉ firstOccurrences (keyLetters key)))

/-- The letters of a seed key that `generateKeyMatrixOptimized` can place: upper-cased,
non-letters dropped, and `J` dropped as well (its flag is set from the start). -/
def keyLettersPlaced (key : List Nat) : List Nat :=
  (key.map toupper).filter (fun c => isalpha c && decide (c ≠ 74))

/-- Row of text position `i` in the zigzag over `key` rails, in the closed form of the
specification: `j` if `j < key` and `2 * (key - 1) - j` otherwise, with
`j = i mod 2 * (key - 1)`. -/
def railRow (key i : Nat) : Nat :=
  if i % (2 * (key - 1)) < key then i % (2 * (key - 1))
  else 2 * (key - 1) - i % (2 * (key - 1))

/-- Direction of the zigzag after text position `i`: down (`1`) before the bottom rail is
reached, up (`-1`) from there to the top rail. -/
def railDirection (key i : Nat) : Int :=
  if i % (2 * (key - 1)) < key - 1 then 1 else -1

/-- The characters of `text` whose row is `r`, in increasing position, when `text` starts at
position `offset` of the zigzag. -/
def railRowChars (key offset : Nat) (text : List Nat) (r : Nat) : List Nat :=
  (List.range text.length).filterMap
    (fun i => if railRow key (offset + i) = r then text.get? i else none)

/-- The rail fence ciphertext as the specification describes it: for `r = 0, 1, ..., key - 1`
the characters `text[i]` whose row is `r`, in increasing `i`, concatenated. -/
def railfenceReference (text : List Nat) (key : Nat) : List Nat :=
  ((List.range key).map (fun r => railRowChars key 0 text r)).flatten

/-- Alphabet index of a letter, without regard to its case. -/
def letterIndex (c : Nat) : Nat := if islower c then c - 97 else c - 65

/-- `isupper` in the "C" locale. -/
def isupper (b : Nat) : Bool := 65 ≤ b && b ≤ 90

/-! ### Runs with the iteration budget made visible

The loops above are given enough fuel by their callers. The definitions below repeat them with
the result `none` when the fuel runs out before the loop condition ends the loop (and, for the
exponentiation, when a product leaves the range of `long long`), so that termination within the
budget and the absence of overflow can be stated. -/

/-- Whether an exact value lies in the range of the signed 64-bit type `long long`. -/
def fitsInt64 (x : Int) : Bool := decide (-9223372036854775808 ≤ x) && decide (x ≤ 9223372036854775807)

/-- The loop of `fastModularExponentiation` with every product checked against the range of
`long long`: `none` when a product overflows or the fuel runs out. -/
def fastModExpChecked : Nat → Int → Int → Int → Int → Option Int
  | 0, _, _, _, _ => none
  | fuel + 1, result, base, exp, mod =>
    if exp > 0 then
      if fitsInt64 (result * base) && fitsInt64 (base * base) then
        fastModExpChecked fuel
          (if exp % 2 = 1 then Int.tmod (result * base) mod else result)
          (Int.tmod (base * base) mod) (exp / 2) mod
      else none
    else some result

/-- `fastModularExponentiation` with overflow and fuel checks. -/
def fastModularExponentiationChecked (base exp mod : Int) : Option Int :=
  fastModExpChecked (exp.toNat + 1) 1 (Int.tmod base mod) exp mod

/-- The recursion of `extendedGCD`, with `none` when more than `fuel` calls are needed. -/
def extendedGCDWithin : Nat → Int → Int → Option (Int × Int × Int)
  | 0, _, _ => none
  | fuel + 1, a, b =>
    if a = 0 then some (b, 0, 1)
    else
      match extendedGCDWithin fuel (Int.tmod b a) a with
      | some r => some (r.1, r.2.2 - Int.tdiv b a * r.2.1, r.2.1)
      | none => none

/-- The recursion of the Euclidean `gcd`, with `none` when more than `fuel` calls are needed. -/
def gcdWithin : Nat → Int → Int → Option Int
  | 0, _, _ => none
  | fuel + 1, a, b => if b = 0 then some a else gcdWithin fuel b (Int.tmod a b)

/-- The common-factor loop of `gcdOptimized`, with `none` when the fuel runs out. -/
def gcdShiftWithin : Nat → Int → Int → Nat → Option (Int × Int × Nat)
  | 0, _, _, _ => none
  | fuel + 1, a, b, shift =>
    if a % 2 = 0 ∧ b % 2 = 0 then gcdShiftWithin fuel (a / 2) (b / 2) (shift + 1)
    else some (a, b, shift)

/-- The strip loop of `gcdOptimized`, with `none` when the fuel runs out. -/
def gcdStripWithin : Nat → Int → Option Int
  | 0, _ => none
  | fuel + 1, a => if a % 2 = 0 then gcdStripWithin fuel (a / 2) else some a

/-- The `do ... while` loop of `gcdOptimized`, with `none` when the fuel of the loop or of its
inner strip loop runs out. -/
def gcdSubWithin : Nat → Int → Int → Option Int
  | 0, _, _ => none
  | fuel + 1, a, b =>
    match gcdStripWithin (b.natAbs + 1) b with
    | some b =>
      let a' := if a > b then b else a
      let b' := if a > b then a else b
      let b'' := b' - a'
      if b'' ≠ 0 then gcdSubWithin fuel a' b'' else some a'
    | none => none

/-- `gcdOptimized` with `none` when one of its loops does not finish within a number of
iterations bounded by the size of the operands. -/
def gcdOptimizedWithin (a b : Int) : Option Int :=
  if a = 0 then some b
  else if b = 0 then some a
  else
    match gcdShiftWithin (a.natAbs + 1) a b 0 with
    | some s =>
      match gcdStripWithin (s.1.natAbs + 1) s.1 with
      | some a =>
        match gcdSubWithin (a.natAbs + s.2.1.natAbs + 1) a s.2.1 with
        | some a => some (a * 2 ^ s.2.2)
        | none => none
      | none => none
    | none => none

/-- `stringToIntOptimized` with every value of `result * 256` and of `result * 256 + byte`
checked against the range of `long long`: `none` when one of them overflows. -/
def stringToIntChecked (str : List Nat) : Option Int :=
  str.foldl (fun acc c =>
    match acc with
    | some result =>
      if fitsInt64 (result * 256) && fitsInt64 (result * 256 + (c : Int)) then
        some (if result > 9223372036854775807 / 256 then
          Int.tmod (result * 256 + (c : Int)) 1000000007
        else result * 256 + (c : Int))
      else none
    | none => none) (some 0)

/-- The second loop of `railfenceDecryptOptimized` with `none` when the bound check
`index + railLengths[i] <= ciphertext.length()` fails for a rail. -/
def railFillChecked (ciphertext : List Nat) : List Nat → Nat → Option (List (List Nat))
  | [], _ => some []
  | len :: railLengths, index =>
    if index + len ≤ ciphertext.length then
      match railFillChecked ciphertext railLengths (index + len) with
      | some rest => some (((ciphertext.drop index).take len) :: rest)
      | none => none
    else none

/-- The third loop of `railfenceDecryptOptimized` with `none` when the bound check
`railPos[row] < rail[row].length()` fails at a position, that is, when a position of the zigzag
receives no character. -/
def railReadChecked (key : Int) (rail : List (List Nat)) :
    Nat → List Nat → Int → Int → List Nat → Option (List Nat)
  | 0, _, _, _, plaintext => some plaintext
  | n + 1, railPos, row, direction, plaintext =>
    let pos := railPos.getD row.toNat 0
    let cur := rail.getD row.toNat []
    if pos < cur.length then
      railReadChecked key rail n (railPos.set row.toNat (pos + 1)) (row + direction)
        (railTurn key (row + direction) direction) (plaintext ++ [cur.getD pos 0])
    else none

/-- `railfenceDecryptOptimized` with `none` when one of its two bound checks fails. -/
def railfenceDecryptChecked (ciphertext : List Nat) (key : Int) : Option (List Nat) :=
  if key ≤ 1 then some ciphertext
  else if ciphertext.isEmpty then some ciphertext
  else
    let railLengths := railLengthsLoop key ciphertext.length (List.replicate key.toNat 0) 0 1
    match railFillChecked ciphertext railLengths 0 with
    | some rail =>
      railReadChecked key rail ciphertext.length (List.replicate key.toNat 0) 0 1 []
    | none => none

/-- A text read in pairs from its start: the first letter of every pair, and a last letter left
without a partner, satisfies `P`, and a pair of two equal letters is the pair `XX`. -/
def FillerPairs (P : Nat → Prop) : List Nat → Prop
  | a :: b :: rest => P a ∧ (a = b → a = 88) ∧ FillerPairs P rest
  | [a] => P a
  | [] => True

/-! # Theorems -/

/-! ## Truncating division and remainder -/

/-- C remainder by a natural-number divisor, by sign of the dividend. -/
theorem tmod_cases (a : Int) (n : Nat) :
    Int.tmod a n = if 0 ≤ a then a % n else -((-a) % n) := by
  cases a with
  | ofNat m =>
    have h : (0 : Int) ≤ Int.ofNat m := Int.ofNat_nonneg m
    rw [if_pos h]
    exact Int.tmod_eq_emod h (Int.ofNat_nonneg n)
  | negSucc m =>
    have h : ¬ (0 : Int) ≤ Int.negSucc m := by simp
    rw [if_neg h]
    show -Int.ofNat (m.succ % n) = _
    rw [Int.neg_negSucc]
    rfl

/-- Remainder by 26 as used by the letter rotations. -/
theorem tmod26 (a : Int) : Int.tmod a 26 = if 0 ≤ a then a % 26 else -((-a) % 26) :=
  tmod_cases a 26

/-- The shift normalisation `((shift % 26) + 26) % 26` is the least non-negative residue. -/
theorem caesar_normalise (s : Int) : Int.tmod (Int.tmod s 26 + 26) 26 = s % 26 := by
  have h1 := tmod26 s
  have h2 := tmod26 (Int.tmod s 26 + 26)
  split_ifs at h1 h2 <;> omega

/-- Rotation of one character by a non-negative shift, spelled out. -/
theorem caesarChar_eq (s : Int) (hs : 0 ≤ s) (ch : Nat) :
    caesarChar s ch =
      if 65 ≤ ch ∧ ch ≤ 90 then 65 + (ch - 65 + s.toNat) % 26
      else if 97 ≤ ch ∧ ch ≤ 122 then 97 + (ch - 97 + s.toNat) % 26
      else ch := by
  obtain ⟨n, rfl⟩ := Int.eq_ofNat_of_zero_le hs
  simp only [Int.toNat_ofNat, caesarChar, isalpha, islower, Bool.or_eq_true, Bool.and_eq_true,
    decide_eq_true_eq, charToInt, intToChar, tmod26]
  split_ifs <;> omega

/-- Rotating by `s` and then by `t` restores the character when `s + t` is a multiple of 26. -/
theorem caesarChar_inverse (s t : Int) (hs : 0 ≤ s) (ht : 0 ≤ t)
    (hst : (s + t) % 26 = 0) (ch : Nat) : caesarChar t (caesarChar s ch) = ch := by
  rw [caesarChar_eq s hs ch]
  obtain ⟨n, rfl⟩ := Int.eq_ofNat_of_zero_le hs
  obtain ⟨m, rfl⟩ := Int.eq_ofNat_of_zero_le ht
  simp only [Int.toNat_ofNat]
  split_ifs with h1 h2
  · rw [caesarChar_eq _ ht]; simp only [Int.toNat_ofNat]; split_ifs <;> omega
  · rw [caesarChar_eq _ ht]; simp only [Int.toNat_ofNat]; split_ifs <;> omega
  · rw [caesarChar_eq _ ht]; simp only [Int.toNat_ofNat]; split_ifs
    all_goals omega

/-- Round trip of the Caesar cipher on every text and shift. -/
theorem caesar_decrypt_encrypt (t : List Nat) (s : Int) :
    caesarDecryptOptimized (caesarEncryptOptimized t s) s = t := by
  unfold caesarDecryptOptimized caesarEncryptOptimized
  cases t with
  | nil => rfl
  | cons a l =>
    simp only [List.isEmpty_cons, Bool.false_eq_true, if_false, List.map_cons, List.map_map]
    rw [caesar_normalise, caesar_normalise]
    have key : ∀ ch, caesarChar ((26 - Int.tmod s 26) % 26) (caesarChar (s % 26) ch) = ch := by
      intro ch
      apply caesarChar_inverse
      · omega
      · omega
      · have := tmod26 s
        split_ifs at this <;> omega
    rw [key a]
    congr 1
    conv_rhs => rw [← List.map_id l]
    apply List.map_congr_left
    intro ch _
    exact key ch

/-- C1: Caesar round trip. For every text `t` (any list of byte codes, letters being the ASCII
letters) and every integer shift `s` (negative shifts and shifts above 26 included, so in
particular every 32-bit shift), `caesarDecryptOptimized (caesarEncryptOptimized t s) s = t`;
and `"HELLO"` with shift 3 encrypts to `"KHOOR"`, which decrypts back to `"HELLO"`. -/
theorem caesar_roundtrip :
    (∀ (t : List Nat) (s : Int), caesarDecryptOptimized (caesarEncryptOptimized t s) s = t) ∧
      caesarEncryptOptimized (bytes "HELLO") 3 = bytes "KHOOR" ∧
      caesarDecryptOptimized (bytes "KHOOR") 3 = bytes "HELLO" :=
  ⟨caesar_decrypt_encrypt, by decide, by decide⟩

/-! ## Vigenère cipher -/

/-- The shift of a letter key character is its alphabet index. -/
theorem vigenereShift_letter (k : Nat) (hk : isalpha k = true) :
    0 ≤ vigenereShift k ∧ vigenereShift k < 26 := by
  simp only [isalpha, Bool.or_eq_true, Bool.and_eq_true, decide_eq_true_eq] at hk
  simp only [vigenereShift, islower, Bool.and_eq_true, decide_eq_true_eq, charToInt, intToChar]
  split_ifs <;> omega

/-- Encrypting one character is a rotation by the key character's shift. -/
theorem vigenereEncChar_eq (p k : Nat) :
    vigenereEncChar p k = caesarChar (vigenereShift k) p := rfl

/-- Decrypting one character is a rotation by 26 minus the key character's shift. -/
theorem vigenereDecChar_eq (c k : Nat) :
    vigenereDecChar c k = caesarChar (26 - vigenereShift k) c := by
  unfold vigenereDecChar caesarChar
  have h : ∀ x b : Int, x - b - vigenereShift k + 26 = x - b + (26 - vigenereShift k) := by
    intro x b; ring
  simp only [h]

/-- Decrypting with a letter key character restores the character. -/
theorem vigenereChar_inverse (p k : Nat) (hk : isalpha k = true) :
    vigenereDecChar (vigenereEncChar p k) k = p := by
  obtain ⟨h0, h26⟩ := vigenereShift_letter k hk
  rw [vigenereEncChar_eq, vigenereDecChar_eq]
  apply caesarChar_inverse
  · exact h0
  · omega
  · omega

/-- The running key has the length of the text when both are non-empty. -/
theorem generateKeyOptimized_length (t k : List Nat) (ht : t ≠ []) (hk : k ≠ []) :
    (generateKeyOptimized t k).length = t.length := by
  unfold generateKeyOptimized
  cases t with
  | nil => exact absurd rfl ht
  | cons a l =>
    cases k with
    | nil => exact absurd rfl hk
    | cons b m => simp

/-- Element `i` of the running key is `key[i mod |key|]`. -/
theorem generateKeyOptimized_getD (t k : List Nat) (ht : t ≠ []) (hk : k ≠ []) (i : Nat)
    (hi : i < t.length) :
    (generateKeyOptimized t k).getD i 0 = k.getD (i % k.length) 0 := by
  unfold generateKeyOptimized
  cases t with
  | nil => exact absurd rfl ht
  | cons a l =>
    cases k with
    | nil => exact absurd rfl hk
    | cons b m =>
      simp only [List.isEmpty_cons, Bool.or_self, Bool.false_eq_true, if_false]
      rw [List.getD_eq_getElem?_getD, List.getElem?_map, List.getElem?_range hi]
      rfl

/-- Every element of the running key of a letter key is a letter. -/
theorem generateKeyOptimized_letter (t k : List Nat) (ht : t ≠ []) (hk : k ≠ [])
    (hl : ∀ c ∈ k, isalpha c = true) (i : Nat) (hi : i < t.length) :
    isalpha ((generateKeyOptimized t k).getD i 0) = true := by
  rw [generateKeyOptimized_getD t k ht hk i hi]
  have hpos : 0 < k.length := List.length_pos.mpr hk
  have hlt : i % k.length < k.length := Nat.mod_lt _ hpos
  rw [List.getD_eq_getElem?_getD, List.getElem?_eq_getElem hlt]
  exact hl _ (List.getElem_mem _)

/-- Round trip of the Vigenère cipher for keys made of letters. -/
theorem vigenere_decrypt_encrypt (k t : List Nat) (hk : k ≠ [])
    (hl : ∀ c ∈ k, isalpha c = true) :
    vigenereDecryptOptimized (vigenereEncryptOptimized t k) k = t := by
  by_cases ht : t = []
  · subst ht; rfl
  · have hke : k.isEmpty = false := by cases k <;> simp_all
    have hte : t.isEmpty = false := by cases t <;> simp_all
    have henc : vigenereEncryptOptimized t k = (List.range t.length).map
        (fun i => vigenereEncChar (t.getD i 0) ((generateKeyOptimized t k).getD i 0)) := by
      simp [vigenereEncryptOptimized, hke, hte]
    have hlen : (vigenereEncryptOptimized t k).length = t.length := by
      rw [henc]; simp
    have hne : vigenereEncryptOptimized t k ≠ [] := by
      intro h; rw [h] at hlen; exact ht (List.length_eq_zero.mp hlen.symm)
    have hce : (vigenereEncryptOptimized t k).isEmpty = false := by
      cases h : vigenereEncryptOptimized t k <;> simp_all
    have hdec : vigenereDecryptOptimized (vigenereEncryptOptimized t k) k =
        (List.range (vigenereEncryptOptimized t k).length).map
          (fun i => vigenereDecChar ((vigenereEncryptOptimized t k).getD i 0)
            ((generateKeyOptimized (vigenereEncryptOptimized t k) k).getD i 0)) := by
      simp [vigenereDecryptOptimized, hke, hce]
    rw [hdec, hlen]
    apply List.ext_getElem
    · simp
    · intro i h1 h2
      have hi : i < t.length := h2
      rw [List.getElem_map, List.getElem_range]
      rw [generateKeyOptimized_getD _ k hne hk i (by rw [hlen]; exact hi)]
      rw [← generateKeyOptimized_getD t k ht hk i hi]
      have hci : (vigenereEncryptOptimized t k).getD i 0 =
          vigenereEncChar (t.getD i 0) ((generateKeyOptimized t k).getD i 0) := by
        rw [henc, List.getD_eq_getElem?_getD, List.getElem?_map, List.getElem?_range hi]
        rfl
      rw [hci, vigenereChar_inverse _ _ (generateKeyOptimized_letter t k ht hk hl i hi)]
      rw [List.getD_eq_getElem?_getD, List.getElem?_eq_getElem hi]
      rfl

/-- C2 (as stated) fails: with the one-character key `"@"` (not a letter) the text `"A"`
encrypts to `"@"`, which decrypts to `"@"`, not to `"A"`. -/
theorem vigenere_roundtrip_nonletter_key_fails :
    bytes "@" ≠ [] ∧
      vigenereEncryptOptimized (bytes "A") (bytes "@") = bytes "@" ∧
      vigenereDecryptOptimized (vigenereEncryptOptimized (bytes "A") (bytes "@")) (bytes "@")
        ≠ bytes "A" := by
  decide

/-- C2 (amended): for every non-empty key `k` consisting of ASCII letters and every text `t`,
`vigenereDecryptOptimized (vigenereEncryptOptimized t k) k = t`. -/
theorem vigenere_roundtrip_letter_key (k t : List Nat) (hk : k ≠ [])
    (hl : ∀ c ∈ k, isalpha c = true) :
    vigenereDecryptOptimized (vigenereEncryptOptimized t k) k = t :=
  vigenere_decrypt_encrypt k t hk hl

/-- C2 (amended), instance: key `"KEY"` and text `"HELLO"`. -/
theorem vigenere_roundtrip_letter_key_witness :
    bytes "KEY" ≠ [] ∧ (∀ c ∈ bytes "KEY", isalpha c = true) ∧
      vigenereDecryptOptimized (vigenereEncryptOptimized (bytes "HELLO") (bytes "KEY"))
        (bytes "KEY") = bytes "HELLO" :=
  ⟨by decide, by decide,
    vigenere_roundtrip_letter_key (bytes "KEY") (bytes "HELLO") (by decide) (by decide)⟩

/-! ## One-time pad -/

/-- With equal lengths `otpEncryptOptimized` returns the byte-wise exclusive-or. -/
theorem otpEncryptOptimized_ok (p k : List Nat) (h : k.length = p.length) :
    otpEncryptOptimized p k =
      Except.ok ((List.range p.length).map (fun i => p.getD i 0 ^^^ k.getD i 0)) := by
  unfold otpEncryptOptimized
  rw [if_neg (by simp [h])]

/-- With different lengths `otpEncryptOptimized` throws. -/
theorem otpEncryptOptimized_error (p k : List Nat) (h : k.length ≠ p.length) :
    otpEncryptOptimized p k = Except.error "Key length must equal plaintext length for OTP" := by
  unfold otpEncryptOptimized
  rw [if_pos (fun e => h e.symm)]

/-- C5: one-time pad round trip. For every plaintext `p` and key `k` with `|k| = |p|`,
`otpEncryptOptimized p k` succeeds with some ciphertext `c`, and `otpDecryptOptimized c k`
(which is `otpEncryptOptimized c k`, the same exclusive-or) succeeds and returns `p`. -/
theorem otp_roundtrip (p k : List Nat) (h : k.length = p.length) :
    ∃ c, otpEncryptOptimized p k = Except.ok c ∧ otpDecryptOptimized c k = Except.ok p ∧
      otpDecryptOptimized c k = otpEncryptOptimized c k := by
  refine ⟨_, otpEncryptOptimized_ok p k h, ?_, rfl⟩
  unfold otpDecryptOptimized
  rw [otpEncryptOptimized_ok _ k (by simp [h])]
  congr 1
  apply List.ext_getElem
  · simp
  · intro i h1 h2
    have hi : i < p.length := h2
    have hk : i < k.length := by omega
    simp only [List.length_map, List.length_range, List.getElem_map, List.getElem_range,
      List.getD_eq_getElem?_getD, List.getElem?_map, List.getElem?_range hi, Option.map_some',
      List.getElem?_eq_getElem hi, List.getElem?_eq_getElem hk, Option.getD_some]
    rw [Nat.xor_assoc, Nat.xor_self, Nat.xor_zero]

/-- C5, instance: plaintext `"AB"` with key `"XY"`. -/
theorem otp_roundtrip_witness :
    (bytes "XY").length = (bytes "AB").length ∧
      ∃ c, otpEncryptOptimized (bytes "AB") (bytes "XY") = Except.ok c ∧
        otpDecryptOptimized c (bytes "XY") = Except.ok (bytes "AB") ∧
        otpDecryptOptimized c (bytes "XY") = otpEncryptOptimized c (bytes "XY") :=
  ⟨by decide, otp_roundtrip (bytes "AB") (bytes "XY") (by decide)⟩

/-- C7: one-time pad length check. For every plaintext `p` and key `k`,
`otpEncryptOptimized p k` fails with the key-length error if and only if `|k| ≠ |p|` (key
shorter or longer), and so does `otpDecryptOptimized`; in particular
`otpEncryptOptimized "AB" "XYZ"` fails. -/
theorem otp_length_check :
    (∀ p k : List Nat,
        (otpEncryptOptimized p k =
            Except.error "Key length must equal plaintext length for OTP" ↔
          k.length ≠ p.length) ∧
        (otpDecryptOptimized p k =
            Except.error "Key length must equal plaintext length for OTP" ↔
          k.length ≠ p.length)) ∧
      otpEncryptOptimized (bytes "AB") (bytes "XYZ") =
        Except.error "Key length must equal plaintext length for OTP" := by
  have h : ∀ p k : List Nat,
      (otpEncryptOptimized p k =
          Except.error "Key length must equal plaintext length for OTP" ↔
        k.length ≠ p.length) := by
    intro p k
    constructor
    · intro he hlen
      rw [otpEncryptOptimized_ok p k hlen] at he
      cases he
    · exact otpEncryptOptimized_error p k
  exact ⟨fun p k => ⟨h p k, h p k⟩, rfl⟩

/-! ## Extended Euclid and the modular inverse -/

/-- C quotient by a natural-number divisor, by sign of the dividend. -/
theorem tdiv_cases (a : Int) (n : Nat) :
    Int.tdiv a n = if 0 ≤ a then a / n else -((-a) / n) := by
  cases a with
  | ofNat m =>
    have h : (0 : Int) ≤ Int.ofNat m := Int.ofNat_nonneg m
    rw [if_pos h]
    exact Int.tdiv_eq_ediv h (Int.ofNat_nonneg n)
  | negSucc m =>
    have h : ¬ (0 : Int) ≤ Int.negSucc m := by simp
    rw [if_neg h, Int.neg_negSucc]
    cases n <;> rfl

/-- For a positive modulus, `(x % m + m) % m` in C arithmetic is the least non-negative
residue of `x`. -/
theorem tmod_normalise (x m : Int) (hm : 0 < m) :
    Int.tmod (Int.tmod x m + m) m = x % m := by
  obtain ⟨n, rfl⟩ := Int.eq_ofNat_of_zero_le hm.le
  have hlt : ∀ y : Int, y % (n : Int) < n := fun y => Int.emod_lt_of_pos y hm
  have hge : ∀ y : Int, 0 ≤ y % (n : Int) := fun y => Int.emod_nonneg y hm.ne'
  have h1 : 0 ≤ Int.tmod x n + n := by
    rw [tmod_cases]
    split_ifs
    · have := hge x; omega
    · have := hlt (-x); omega
  rw [Int.tmod_eq_emod h1 hm.le, Int.tmod_def, Int.add_emod_self]
  rw [Int.sub_eq_add_neg, ← Int.mul_neg, Int.add_mul_emod_self_left]

/-- Extended Euclid on non-negative operands returns the greatest common divisor with Bézout
coefficients, whenever the fuel exceeds the first operand. -/
theorem extendedGCDFuel_spec (f : Nat) : ∀ (m n : Nat), m < f →
    (extendedGCDFuel f m n).1 = (Nat.gcd m n : Int) ∧
      (m : Int) * (extendedGCDFuel f m n).2.1 + (n : Int) * (extendedGCDFuel f m n).2.2 =
        (extendedGCDFuel f m n).1 := by
  induction f with
  | zero => intro m n h; omega
  | succ f ih =>
    intro m n h
    unfold extendedGCDFuel
    by_cases hm : (m : Int) = 0
    · have : m = 0 := by exact_mod_cast hm
      subst this
      simp
    · rw [if_neg hm]
      have hm0 : 0 < m := Nat.pos_of_ne_zero (fun h0 => hm (by simp [h0]))
      have hlt : n % m < f := by
        have := Nat.mod_lt n hm0
        omega
      have hmod : Int.tmod (n : Int) (m : Int) = ((n % m : Nat) : Int) :=
        (Int.ofNat_tmod n m).symm
      obtain ⟨h1, h2⟩ := ih (n % m) m hlt
      rw [hmod]
      refine ⟨?_, ?_⟩
      · rw [h1, Nat.gcd_rec m n]
      · simp only
        have hdiv : Int.tdiv (n : Int) (m : Int) = ((n / m : Nat) : Int) := by
          rw [Int.tdiv_eq_ediv (Int.ofNat_nonneg n) (Int.ofNat_nonneg m)]
          rfl
        rw [hdiv, ← h2]
        have hdm : (n : Int) = ((n % m : Nat) : Int) + (m : Int) * ((n / m : Nat) : Int) := by
          exact_mod_cast (Nat.mod_add_div n m).symm
        generalize (extendedGCDFuel f ((n % m : Nat) : Int) (m : Int)).2.1 = x1
        generalize (extendedGCDFuel f ((n % m : Nat) : Int) (m : Int)).2.2 = y1
        conv_lhs => rw [hdm]
        ring

/-- `extendedGCD` on non-negative operands: the gcd and the Bézout identity. -/
theorem extendedGCD_spec (m n : Nat) :
    (extendedGCD m n).1 = (Nat.gcd m n : Int) ∧
      (m : Int) * (extendedGCD m n).2.1 + (n : Int) * (extendedGCD m n).2.2 =
        (extendedGCD m n).1 := by
  unfold extendedGCD
  exact extendedGCDFuel_spec _ m n (by simp)

/-- Absolute value of the C remainder. -/
theorem natAbs_tmod (b a : Int) : (Int.tmod b a).natAbs = b.natAbs % a.natAbs := by
  cases b with
  | ofNat m =>
    cases a with
    | ofNat n => rfl
    | negSucc n => rfl
  | negSucc m =>
    cases a with
    | ofNat n =>
      show (-Int.ofNat (m.succ % n)).natAbs = _
      rw [Int.natAbs_neg]; rfl
    | negSucc n =>
      show (-Int.ofNat (m.succ % n.succ)).natAbs = _
      rw [Int.natAbs_neg]; rfl

/-- More fuel than the first operand never changes the result of the recursion. -/
theorem extendedGCDFuel_stable (f : Nat) : ∀ (g : Nat) (a b : Int), a.natAbs < f → a.natAbs < g →
    extendedGCDFuel f a b = extendedGCDFuel g a b := by
  induction f with
  | zero => intro g a b h; omega
  | succ f ih =>
    intro g a b hf hg
    cases g with
    | zero => omega
    | succ g =>
      unfold extendedGCDFuel
      by_cases ha : a = 0
      · simp [ha]
      · simp only [ha, if_false]
        have hlt : (Int.tmod b a).natAbs < a.natAbs := by
          rw [natAbs_tmod]
          exact Nat.mod_lt _ (Int.natAbs_pos.mpr ha)
        rw [ih g (Int.tmod b a) a (by omega) (by omega)]

/-- The value returned by `modInverseOptimized` on a non-negative `a` and a positive modulus. -/
theorem modInverseOptimized_eq (a m : Nat) (hm : 0 < m) :
    modInverseOptimized a m =
      if Nat.gcd a m ≠ 1 then -1 else (extendedGCD a m).2.1 % (m : Int) := by
  unfold modInverseOptimized
  obtain ⟨h1, _⟩ := extendedGCD_spec a m
  simp only [h1]
  have : ((Nat.gcd a m : Int) ≠ 1) ↔ Nat.gcd a m ≠ 1 := by
    constructor
    · intro h h'; exact h (by exact_mod_cast h')
    · intro h h'; exact h (by exact_mod_cast h')
  by_cases hg : Nat.gcd a m ≠ 1
  · rw [if_pos (this.mpr hg), if_pos hg]
  · rw [if_neg (fun h => hg (this.mp h)), if_neg hg]
    exact tmod_normalise _ _ (by exact_mod_cast hm)

/-- The modular inverse: range and defining congruence when the gcd is one, `-1` otherwise. -/
theorem modInverseOptimized_spec (a m : Nat) (hm : 0 < m) :
    (modInverseOptimized a m = -1 ↔ Nat.gcd a m ≠ 1) ∧
      (Nat.gcd a m = 1 → 0 ≤ modInverseOptimized a m ∧ modInverseOptimized a m < m ∧
        (a : Int) * modInverseOptimized a m ≡ 1 [ZMOD m]) := by
  have hmz : (0 : Int) < m := by exact_mod_cast hm
  rw [modInverseOptimized_eq a m hm]
  obtain ⟨h1, h2⟩ := extendedGCD_spec a m
  by_cases hg : Nat.gcd a m = 1
  · simp only [hg, ne_eq, not_true_eq_false, if_false, iff_false, true_implies]
    have hnn := Int.emod_nonneg (extendedGCD a m).2.1 hmz.ne'
    refine ⟨by omega, hnn, Int.emod_lt_of_pos _ hmz, ?_⟩
    rw [h1, hg] at h2
    have e1 : (a : Int) * ((extendedGCD a m).2.1 % (m : Int)) ≡
        (a : Int) * (extendedGCD a m).2.1 [ZMOD m] :=
      Int.ModEq.mul_left _ (Int.mod_modEq _ _)
    refine e1.trans ?_
    have e2 : (a : Int) * (extendedGCD a m).2.1 = 1 - (m : Int) * (extendedGCD a m).2.2 := by
      have := h2
      push_cast at this
      linarith
    rw [e2]
    unfold Int.ModEq
    rw [Int.sub_eq_add_neg, ← Int.mul_neg, Int.add_mul_emod_self_left]
  · simp [hg]

/-! ## Binary GCD -/

/-- The common-factor loop divides both operands by the same power of two and stops with at
least one of them odd. -/
theorem gcdShiftLoop_spec (f : Nat) : ∀ (a b s : Nat), 0 < a → a ≤ f → 0 < b →
    ∃ a' b' k : Nat, gcdShiftLoop f a b s = ((a' : Int), (b' : Int), s + k) ∧
      a = a' * 2 ^ k ∧ b = b' * 2 ^ k ∧ 0 < a' ∧ 0 < b' ∧ (a' % 2 = 1 ∨ b' % 2 = 1) := by
  induction f with
  | zero => intro a b s h1 h2; omega
  | succ f ih =>
    intro a b s ha hf hb
    unfold gcdShiftLoop
    by_cases hc : (a : Int) % 2 = 0 ∧ (b : Int) % 2 = 0
    · rw [if_pos hc]
      have ha2 : a % 2 = 0 := by omega
      have hb2 : b % 2 = 0 := by omega
      have e1 : (a : Int) / 2 = ((a / 2 : Nat) : Int) := by norm_cast
      have e2 : (b : Int) / 2 = ((b / 2 : Nat) : Int) := by norm_cast
      rw [e1, e2]
      obtain ⟨a', b', k, h1, h2, h3, h4, h5, h6⟩ :=
        ih (a / 2) (b / 2) (s + 1) (by omega) (by omega) (by omega)
      refine ⟨a', b', k + 1, ?_, ?_, ?_, h4, h5, h6⟩
      · rw [h1]; congr 2; omega
      · rw [pow_succ, ← mul_assoc, ← h2]; omega
      · rw [pow_succ, ← mul_assoc, ← h3]; omega
    · rw [if_neg hc]
      refine ⟨a, b, 0, by simp, by simp, by simp, ha, hb, ?_⟩
      omega

/-- The strip loop returns the odd part of a positive operand. -/
theorem gcdStripLoop_spec (f : Nat) : ∀ (a : Nat), 0 < a → a ≤ f →
    ∃ a' k : Nat, gcdStripLoop f a = (a' : Int) ∧ a = a' * 2 ^ k ∧ a' % 2 = 1 := by
  induction f with
  | zero => intro a h1 h2; omega
  | succ f ih =>
    intro a ha hf
    unfold gcdStripLoop
    by_cases hc : (a : Int) % 2 = 0
    · rw [if_pos hc]
      have e1 : (a : Int) / 2 = ((a / 2 : Nat) : Int) := by norm_cast
      rw [e1]
      obtain ⟨a', k, h1, h2, h3⟩ := ih (a / 2) (by omega) (by omega)
      refine ⟨a', k + 1, h1, ?_, h3⟩
      rw [pow_succ, ← mul_assoc, ← h2]; omega
    · rw [if_neg hc]
      exact ⟨a, 0, rfl, by simp, by omega⟩

/-- An odd number is coprime to every power of two. -/
theorem coprime_two_pow_of_odd (a k : Nat) (h : a % 2 = 1) : Nat.Coprime (2 ^ k) a := by
  apply Nat.Coprime.pow_left
  rw [Nat.coprime_comm, Nat.coprime_two_right]
  exact Nat.odd_iff.mpr h

/-- The subtraction loop computes the gcd of an odd `a` and a positive `b`. -/
theorem gcdSubLoop_spec (f : Nat) : ∀ (a b : Nat), a % 2 = 1 → 0 < b → a + b ≤ f →
    gcdSubLoop f a b = (Nat.gcd a b : Int) := by
  induction f with
  | zero => intro a b h1 h2 h3; omega
  | succ f ih =>
    intro a b ha hb hf
    unfold gcdSubLoop
    obtain ⟨b1, k, h1, h2, h3⟩ := gcdStripLoop_spec b b hb le_rfl
    have hnat : (b : Int).natAbs = b := Int.natAbs_ofNat b
    rw [hnat, h1]
    have hg : Nat.gcd a b = Nat.gcd a b1 := by
      rw [h2]
      exact Nat.Coprime.gcd_mul_right_cancel_right b1 (coprime_two_pow_of_odd a k ha)
    have hb1le : b1 ≤ b := by
      rw [h2]; exact Nat.le_mul_of_pos_right _ (by positivity)
    simp only
    by_cases hc : (a : Int) > (b1 : Int)
    · have hc' : b1 < a := by exact_mod_cast hc
      simp only [hc, if_true]
      have e : (a : Int) - (b1 : Int) = ((a - b1 : Nat) : Int) := by
        rw [Nat.cast_sub hc'.le]
      rw [e]
      have hne : ((a - b1 : Nat) : Int) ≠ 0 := by
        have : 0 < a - b1 := by omega
        exact_mod_cast this.ne'
      rw [if_pos hne, ih b1 (a - b1) h3 (by omega) (by omega), hg]
      rw [Nat.gcd_sub_self_right hc'.le, Nat.gcd_comm]
    · have hc' : a ≤ b1 := by
        have : ¬ (b1 < a) := fun h => hc (by exact_mod_cast h)
        omega
      simp only [hc, if_false]
      have e : (b1 : Int) - (a : Int) = ((b1 - a : Nat) : Int) := by
        rw [Nat.cast_sub hc']
      rw [e]
      by_cases hz : b1 - a = 0
      · have hab : a = b1 := by omega
        simp only [hz, Nat.cast_zero, ne_eq, not_true_eq_false, if_false]
        rw [hg, ← hab, Nat.gcd_self]
      · have hne : ((b1 - a : Nat) : Int) ≠ 0 := by exact_mod_cast hz
        rw [if_pos hne, ih a (b1 - a) ha (by omega) (by omega), hg]
        rw [Nat.gcd_sub_self_right hc']

/-- The binary GCD agrees with the greatest common divisor on non-negative operands. -/
theorem gcdOptimized_eq_gcd (a b : Nat) : gcdOptimized a b = (Nat.gcd a b : Int) := by
  unfold gcdOptimized
  by_cases ha : (a : Int) = 0
  · have : a = 0 := by exact_mod_cast ha
    subst this; simp
  · rw [if_neg ha]
    by_cases hb : (b : Int) = 0
    · have : b = 0 := by exact_mod_cast hb
      subst this; simp
    · rw [if_neg hb]
      have ha0 : 0 < a := Nat.pos_of_ne_zero (fun h => ha (by simp [h]))
      have hb0 : 0 < b := Nat.pos_of_ne_zero (fun h => hb (by simp [h]))
      obtain ⟨a', b', k, h1, h2, h3, h4, h5, h6⟩ :=
        gcdShiftLoop_spec a a b 0 ha0 le_rfl hb0
      rw [Int.natAbs_ofNat, h1]
      simp only [Int.natAbs_ofNat, Nat.zero_add]
      obtain ⟨a'', j, g1, g2, g3⟩ := gcdStripLoop_spec a' a' h4 le_rfl
      rw [g1, Int.natAbs_ofNat, gcdSubLoop_spec _ a'' b' g3 h5 le_rfl]
      have hgg : Nat.gcd a'' b' = Nat.gcd a' b' := by
        rcases h6 with h6 | h6
        · have hj : j = 0 := by
            by_contra hj
            obtain ⟨i, rfl⟩ := Nat.exists_eq_succ_of_ne_zero hj
            rw [g2, pow_succ, ← mul_assoc] at h6
            omega
          rw [g2, hj]; simp
        · rw [g2]
          exact (Nat.Coprime.gcd_mul_right_cancel a'' (coprime_two_pow_of_odd b' j h6)).symm
      rw [hgg]
      conv_rhs => rw [h2, h3, Nat.gcd_mul_right]
      push_cast
      ring

/-! ## Key generation -/

/-- For `p, q ≥ 2` the totient-like product `(p - 1) * (q - 1)` is a positive natural number. -/
theorem phi_pos (p q : Int) (hp : 2 ≤ p) (hq : 2 ≤ q) :
    ∃ φ : Nat, 0 < φ ∧ (p - 1) * (q - 1) = (φ : Int) := by
  obtain ⟨P, hP⟩ := Int.eq_ofNat_of_zero_le (show 0 ≤ p - 1 by omega)
  obtain ⟨Q, hQ⟩ := Int.eq_ofNat_of_zero_le (show 0 ≤ q - 1 by omega)
  refine ⟨P * Q, ?_, ?_⟩
  · have h1 : 0 < P := by omega
    have h2 : 0 < Q := by omega
    exact Nat.mul_pos h1 h2
  · rw [hP, hQ]; push_cast; rfl

/-- The result of `generateRSAKeysOptimized` in terms of the chosen exponent and its modular
inverse. -/
theorem generateRSAKeysOptimized_eq (p q : Int) (φ : Nat) (hφ : (p - 1) * (q - 1) = (φ : Int)) :
    generateRSAKeysOptimized p q =
      if modInverseOptimized (chosenExponent φ) φ = -1 then
        Except.error "Cannot generate valid RSA keys with given primes"
      else Except.ok (p * q, (chosenExponent φ : Int), modInverseOptimized (chosenExponent φ) φ) := by
  unfold generateRSAKeysOptimized
  simp only [hφ]
  have h17 : gcdOptimized 17 (φ : Int) = (Nat.gcd 17 φ : Int) := gcdOptimized_eq_gcd 17 φ
  have he : (if gcdOptimized 17 (φ : Int) ≠ 1 then (65537 : Int) else 17) =
      (chosenExponent φ : Int) := by
    rw [h17]
    unfold chosenExponent
    by_cases hg : Nat.gcd 17 φ = 1
    · simp [hg]
    · have : ((Nat.gcd 17 φ : Nat) : Int) ≠ 1 := fun h => hg (by exact_mod_cast h)
      simp [hg, this]
  rw [he]

/-- C8: modular inverse. For every `a ≥ 0` and modulus `m ≥ 1` (exact arithmetic, i.e. no
64-bit overflow), `modInverseOptimized a m` returns `-1` if and only if `gcd a m ≠ 1`;
otherwise it returns `r` with `0 ≤ r < m` and `a * r ≡ 1 (mod m)`. -/
theorem modInverse_contract (a m : Int) (ha : 0 ≤ a) (hm : 1 ≤ m) :
    (modInverseOptimized a m = -1 ↔ Int.gcd a m ≠ 1) ∧
      (Int.gcd a m = 1 → 0 ≤ modInverseOptimized a m ∧ modInverseOptimized a m < m ∧
        a * modInverseOptimized a m ≡ 1 [ZMOD m]) := by
  obtain ⟨A, rfl⟩ := Int.eq_ofNat_of_zero_le ha
  obtain ⟨M, rfl⟩ := Int.eq_ofNat_of_zero_le (show 0 ≤ m by omega)
  have hM : 0 < M := by omega
  have hg : Int.gcd (A : Int) (M : Int) = Nat.gcd A M := Int.gcd_natCast_natCast A M
  rw [hg]
  exact modInverseOptimized_spec A M hM

/-- C8, instance: the inverse of 17 modulo 3120. -/
theorem modInverse_contract_witness :
    (0 : Int) ≤ 17 ∧ (1 : Int) ≤ 3120 ∧
      ((modInverseOptimized 17 3120 = -1 ↔ Int.gcd 17 3120 ≠ 1) ∧
        (Int.gcd 17 3120 = 1 → 0 ≤ modInverseOptimized 17 3120 ∧
          modInverseOptimized 17 3120 < 3120 ∧
          17 * modInverseOptimized 17 3120 ≡ 1 [ZMOD 3120])) :=
  ⟨by decide, by decide, modInverse_contract 17 3120 (by decide) (by decide)⟩

/-- C9: key-pair invariant. For all integers `p, q ≥ 2` (exact arithmetic), whenever
`generateRSAKeysOptimized p q` succeeds with `(n, e, d)`, then `n = p * q`, `e = 17` if
`gcd 17 φ = 1` and `e = 65537` otherwise, `0 ≤ d < φ`, `d * e ≡ 1 (mod φ)` and `gcd e φ = 1`,
where `φ = (p - 1) * (q - 1)`. -/
theorem rsa_keypair_invariant (p q n e d : Int) (hp : 2 ≤ p) (hq : 2 ≤ q)
    (h : generateRSAKeysOptimized p q = Except.ok (n, e, d)) :
    n = p * q ∧ e = (if Int.gcd 17 ((p - 1) * (q - 1)) = 1 then 17 else 65537) ∧
      0 ≤ d ∧ d < (p - 1) * (q - 1) ∧ d * e ≡ 1 [ZMOD (p - 1) * (q - 1)] ∧
      Int.gcd e ((p - 1) * (q - 1)) = 1 := by
  obtain ⟨φ, hpos, hφ⟩ := phi_pos p q hp hq
  rw [generateRSAKeysOptimized_eq p q φ hφ] at h
  rw [hφ]
  by_cases hd : modInverseOptimized (chosenExponent φ) φ = -1
  · rw [if_pos hd] at h; cases h
  · rw [if_neg hd] at h
    injection h with h
    injection h with hn h
    injection h with he hd'
    obtain ⟨s1, s2⟩ := modInverseOptimized_spec (chosenExponent φ) φ hpos
    have hg : Nat.gcd (chosenExponent φ) φ = 1 := by
      by_contra hg
      exact hd (s1.mpr hg)
    obtain ⟨r1, r2, r3⟩ := s2 hg
    have h17 : Int.gcd 17 (φ : Int) = Nat.gcd 17 φ := Int.gcd_natCast_natCast 17 φ
    refine ⟨hn.symm, ?_, ?_, ?_, ?_, ?_⟩
    · rw [← he, h17]
      unfold chosenExponent
      split_ifs <;> rfl
    · rw [← hd']; exact r1
    · rw [← hd']; exact r2
    · rw [← hd', ← he, mul_comm]; exact r3
    · rw [← he, Int.gcd_natCast_natCast]; exact hg

/-- C9, instance: `p = 61`, `q = 53` gives `n = 3233`, `e = 17`, `d = 2753`. -/
theorem rsa_keypair_invariant_witness :
    (2 : Int) ≤ 61 ∧ (2 : Int) ≤ 53 ∧
      generateRSAKeysOptimized 61 53 = Except.ok (3233, 17, 2753) ∧
      ((3233 : Int) = 61 * 53 ∧
        (17 : Int) = (if Int.gcd 17 ((61 - 1) * (53 - 1)) = 1 then 17 else 65537) ∧
        (0 : Int) ≤ 2753 ∧ (2753 : Int) < (61 - 1) * (53 - 1) ∧
        (2753 : Int) * 17 ≡ 1 [ZMOD (61 - 1) * (53 - 1)] ∧
        Int.gcd 17 ((61 - 1) * (53 - 1)) = 1) :=
  ⟨by decide, by decide, rfl,
    rsa_keypair_invariant 61 53 3233 17 2753 (by decide) (by decide) rfl⟩

/-- C10: key generation failure. For all integers `p, q ≥ 2` (exact arithmetic), with
`φ = (p - 1) * (q - 1)`, `generateRSAKeysOptimized p q` throws the key-generation error if and
only if neither 17 nor 65537 is coprime to `φ`; in every other case it returns a key pair. -/
theorem rsa_keygen_failure (p q : Int) (hp : 2 ≤ p) (hq : 2 ≤ q) :
    (generateRSAKeysOptimized p q =
          Except.error "Cannot generate valid RSA keys with given primes" ↔
        (Int.gcd 17 ((p - 1) * (q - 1)) ≠ 1 ∧ Int.gcd 65537 ((p - 1) * (q - 1)) ≠ 1)) ∧
      (¬ (Int.gcd 17 ((p - 1) * (q - 1)) ≠ 1 ∧ Int.gcd 65537 ((p - 1) * (q - 1)) ≠ 1) →
        ∃ n e d, generateRSAKeysOptimized p q = Except.ok (n, e, d)) := by
  obtain ⟨φ, hpos, hφ⟩ := phi_pos p q hp hq
  rw [generateRSAKeysOptimized_eq p q φ hφ, hφ]
  have h17 : Int.gcd 17 (φ : Int) = Nat.gcd 17 φ := Int.gcd_natCast_natCast 17 φ
  have h65 : Int.gcd 65537 (φ : Int) = Nat.gcd 65537 φ := Int.gcd_natCast_natCast 65537 φ
  rw [h17, h65]
  obtain ⟨s1, _⟩ := modInverseOptimized_spec (chosenExponent φ) φ hpos
  have hiff : modInverseOptimized (chosenExponent φ) φ = -1 ↔
      (Nat.gcd 17 φ ≠ 1 ∧ Nat.gcd 65537 φ ≠ 1) := by
    rw [s1]
    unfold chosenExponent
    by_cases hg : Nat.gcd 17 φ = 1
    · simp [hg]
    · simp [hg]
  constructor
  · constructor
    · intro h
      by_cases hd : modInverseOptimized (chosenExponent φ) φ = -1
      · exact hiff.mp hd
      · rw [if_neg hd] at h; cases h
    · intro h
      rw [if_pos (hiff.mpr h)]
  · intro h
    have hd : ¬ modInverseOptimized (chosenExponent φ) φ = -1 := fun hd => h (hiff.mp hd)
    rw [if_neg hd]
    exact ⟨_, _, _, rfl⟩

/-- C10, instance: `p = 18`, `q = 65538`, where `φ = 17 * 65537` and key generation fails. -/
theorem rsa_keygen_failure_witness :
    (2 : Int) ≤ 18 ∧ (2 : Int) ≤ 65538 ∧
      ((generateRSAKeysOptimized 18 65538 =
            Except.error "Cannot generate valid RSA keys with given primes" ↔
          (Int.gcd 17 ((18 - 1) * (65538 - 1)) ≠ 1 ∧
            Int.gcd 65537 ((18 - 1) * (65538 - 1)) ≠ 1)) ∧
        (¬ (Int.gcd 17 ((18 - 1) * (65538 - 1)) ≠ 1 ∧
            Int.gcd 65537 ((18 - 1) * (65538 - 1)) ≠ 1) →
          ∃ n e d, generateRSAKeysOptimized 18 65538 = Except.ok (n, e, d))) :=
  ⟨by decide, by decide, rsa_keygen_failure 18 65538 (by decide) (by decide)⟩

/-! ## Fast modular exponentiation -/

/-- A product that fits the signed 64-bit range is not changed by the wrap-around. -/
theorem wrap64_eq (x : Int) (h0 : 0 ≤ x) (h1 : x < 2 ^ 63) : wrap64 x = x := by
  unfold wrap64
  omega

/-- A product of two residues of a modulus of at most `2 ^ 31`, computed as in the loop. -/
theorem mulmod_eq (r b m : Nat) (hr : r < m) (hb : b < m) (hm : m ≤ 2 ^ 31) :
    Int.tmod (wrap64 ((r : Int) * (b : Int))) (m : Int) = ((r * b % m : Nat) : Int) := by
  have h : r * b < 2 ^ 31 * 2 ^ 31 :=
    Nat.mul_lt_mul'' (lt_of_lt_of_le hr hm) (lt_of_lt_of_le hb hm)
  have h0 : (0 : Int) ≤ (r : Int) * (b : Int) := by positivity
  have h1 : (r : Int) * (b : Int) < 2 ^ 63 := by
    have : ((r * b : Nat) : Int) < ((2 ^ 31 * 2 ^ 31 : Nat) : Int) := by exact_mod_cast h
    push_cast at this
    omega
  rw [wrap64_eq _ h0 h1, Int.tmod_eq_emod h0 (Int.ofNat_nonneg m), Int.natCast_mod,
    Nat.cast_mul]

/-- The square-and-multiply loop returns `result * base ^ exp mod m` on residues. -/
theorem fastModExpLoop_spec (f : Nat) : ∀ (r b e m : Nat), e ≤ f → r < m → b < m → m ≤ 2 ^ 31 →
    fastModExpLoop f r b e m = ((r * b ^ e % m : Nat) : Int) := by
  induction f with
  | zero =>
    intro r b e m he hr hb hm
    have : e = 0 := by omega
    subst this
    unfold fastModExpLoop
    simp [Nat.mod_eq_of_lt hr]
  | succ f ih =>
    intro r b e m he hr hb hm
    unfold fastModExpLoop
    have hmpos : 0 < m := by omega
    by_cases hpos : (e : Int) > 0
    · rw [if_pos hpos]
      have e2 : (e : Int) / 2 = ((e / 2 : Nat) : Int) := by norm_cast
      simp only [mulmod_eq b b m hb hb hm, e2]
      have hb' : b * b % m < m := Nat.mod_lt _ hmpos
      have hsq : (b * b % m) ^ (e / 2) ≡ (b * b) ^ (e / 2) [MOD m] :=
        Nat.ModEq.pow _ (Nat.mod_modEq _ _)
      by_cases hodd : (e : Int) % 2 = 1
      · rw [if_pos hodd, mulmod_eq r b m hr hb hm]
        rw [ih _ _ _ _ (by omega) (Nat.mod_lt _ hmpos) hb' hm]
        congr 1
        have hexp : b ^ e = b * (b * b) ^ (e / 2) := by
          have : e = 1 + 2 * (e / 2) := by omega
          conv_lhs => rw [this]
          rw [pow_add, pow_mul, pow_one, pow_two]
        rw [hexp]
        have h1 : r * b % m * (b * b % m) ^ (e / 2) ≡ r * b * (b * b) ^ (e / 2) [MOD m] :=
          Nat.ModEq.mul (Nat.mod_modEq _ _) hsq
        rw [← mul_assoc]
        exact h1
      · rw [if_neg hodd]
        rw [ih _ _ _ _ (by omega) hr hb' hm]
        congr 1
        have hexp : b ^ e = (b * b) ^ (e / 2) := by
          have : e = 2 * (e / 2) := by omega
          conv_lhs => rw [this]
          rw [pow_mul, pow_two]
        rw [hexp]
        exact Nat.ModEq.mul_left r hsq
    · rw [if_neg hpos]
      have : e = 0 := by omega
      subst this
      simp [Nat.mod_eq_of_lt hr]

/-- `fastModularExponentiation` computes `base ^ exp mod m` for non-negative operands and a
modulus between 2 and `2 ^ 31`. -/
theorem fastModularExponentiation_eq (b e m : Nat) (h2 : 2 ≤ m) (hm : m ≤ 2 ^ 31) :
    fastModularExponentiation b e m = ((b ^ e % m : Nat) : Int) := by
  unfold fastModularExponentiation
  have hmpos : 0 < m := by omega
  have hb : Int.tmod (b : Int) (m : Int) = ((b % m : Nat) : Int) := (Int.ofNat_tmod b m).symm
  rw [hb, Int.toNat_ofNat]
  have := fastModExpLoop_spec e 1 (b % m) e m le_rfl (by omega) (Nat.mod_lt _ hmpos) hm
  rw [show ((1 : Nat) : Int) = 1 from rfl] at this
  rw [this, one_mul, ← Nat.pow_mod]

/-! ## The asymmetric round trip -/

/-- Fermat: a power whose exponent is one more than a multiple of `p - 1` fixes residues modulo
the prime `p`. -/
theorem pow_succ_mul_pred_modEq (p : Nat) (hp : p.Prime) (m k : Nat) :
    m ^ (1 + (p - 1) * k) ≡ m [MOD p] := by
  haveI : Fact p.Prime := ⟨hp⟩
  rw [← ZMod.natCast_eq_natCast_iff]
  push_cast
  by_cases hz : (m : ZMod p) = 0
  · rw [hz, zero_pow (by omega)]
  · rw [pow_add, pow_one, pow_mul, ZMod.pow_card_sub_one_eq_one hz, one_pow, mul_one]

/-- The textbook identity behind the scheme: for distinct primes `p`, `q` and exponents with
`e * d ≡ 1` modulo `(p - 1) * (q - 1)`, raising to the power `e * d` fixes every residue
modulo `p * q`. -/
theorem pow_mul_inverse_mod (p q : Nat) (hp : p.Prime) (hq : q.Prime) (hpq : p ≠ q)
    (e d : Nat) (hed : e * d % ((p - 1) * (q - 1)) = 1) (m : Nat) (hm : m < p * q) :
    m ^ (e * d) % (p * q) = m := by
  have hcop : Nat.Coprime p q := (Nat.coprime_primes hp hq).mpr hpq
  have hdecomp : e * d = 1 + (p - 1) * (q - 1) * (e * d / ((p - 1) * (q - 1))) := by
    have := Nat.mod_add_div (e * d) ((p - 1) * (q - 1))
    omega
  have h1 : m ^ (e * d) ≡ m [MOD p] := by
    rw [hdecomp, mul_assoc]
    exact pow_succ_mul_pred_modEq p hp m _
  have h2 : m ^ (e * d) ≡ m [MOD q] := by
    rw [hdecomp, mul_comm (p - 1) (q - 1), mul_assoc]
    exact pow_succ_mul_pred_modEq q hq m _
  have h := (Nat.modEq_and_modEq_iff_modEq_mul hcop).mp ⟨h1, h2⟩
  unfold Nat.ModEq at h
  rw [h, Nat.mod_eq_of_lt hm]

/-- Encrypting and then decrypting one unit is raising it to the power `e * d`. -/
theorem rsa_decrypt_encrypt_eq (m e d n : Nat) (h2 : 2 ≤ n) (hn : n ≤ 2 ^ 31) :
    rsaDecryptOptimized (rsaEncryptOptimized m e n) d n = ((m ^ (e * d) % n : Nat) : Int) := by
  unfold rsaDecryptOptimized rsaEncryptOptimized
  rw [fastModularExponentiation_eq m e n h2 hn, fastModularExponentiation_eq _ d n h2 hn]
  rw [← Nat.pow_mod, pow_mul]

/-- C6: asymmetric round trip. For all distinct primes `p` and `q` with `n = p * q < 2 ^ 31` for
which `generateRSAKeysOptimized p q` succeeds with `(n, e, d)`, and every unit `m` with
`0 ≤ m < n`, `rsaDecryptOptimized (rsaEncryptOptimized m e n) d n = m`. -/
theorem rsa_roundtrip (p q : Nat) (hp : p.Prime) (hq : q.Prime) (hpq : p ≠ q)
    (hlt : p * q < 2 ^ 31) (n e d m : Int)
    (hk : generateRSAKeysOptimized p q = Except.ok (n, e, d)) (hm0 : 0 ≤ m) (hmn : m < n) :
    rsaDecryptOptimized (rsaEncryptOptimized m e n) d n = m := by
  have hp2 := hp.two_le
  have hq2 := hq.two_le
  have hφ : ((p : Int) - 1) * ((q : Int) - 1) = (((p - 1) * (q - 1) : Nat) : Int) := by
    rw [Nat.cast_mul, Nat.cast_sub (by omega), Nat.cast_sub (by omega)]
    rfl
  have hφ2 : 2 ≤ (p - 1) * (q - 1) := by
    rcases Nat.lt_or_ge p 3 with h | h
    · have hq3 : 3 ≤ q := by omega
      calc 2 = 1 * 2 := rfl
        _ ≤ (p - 1) * (q - 1) := Nat.mul_le_mul (by omega) (by omega)
    · calc 2 = 2 * 1 := rfl
        _ ≤ (p - 1) * (q - 1) := Nat.mul_le_mul (by omega) (by omega)
  rw [generateRSAKeysOptimized_eq p q _ hφ] at hk
  obtain ⟨s1, s2⟩ := modInverseOptimized_spec (chosenExponent ((p - 1) * (q - 1)))
    ((p - 1) * (q - 1)) (by omega)
  by_cases hd : modInverseOptimized (chosenExponent ((p - 1) * (q - 1)))
      (((p - 1) * (q - 1) : Nat) : Int) = -1
  · rw [if_pos hd] at hk; cases hk
  · rw [if_neg hd] at hk
    injection hk with hk
    injection hk with hn hk
    injection hk with he hd'
    have hg : Nat.gcd (chosenExponent ((p - 1) * (q - 1))) ((p - 1) * (q - 1)) = 1 := by
      by_contra hg
      exact hd (s1.mpr hg)
    obtain ⟨r1, _, r3⟩ := s2 hg
    rw [hd'] at r1 r3
    obtain ⟨D, rfl⟩ := Int.eq_ofNat_of_zero_le r1
    obtain ⟨M, rfl⟩ := Int.eq_ofNat_of_zero_le hm0
    have hMN : M < p * q := by
      rw [← hn] at hmn
      exact_mod_cast hmn
    have hed : chosenExponent ((p - 1) * (q - 1)) * D % ((p - 1) * (q - 1)) = 1 := by
      have h1 : chosenExponent ((p - 1) * (q - 1)) * D ≡ 1 [MOD (p - 1) * (q - 1)] := by
        rw [← Int.natCast_modEq_iff]
        push_cast
        exact_mod_cast r3
      unfold Nat.ModEq at h1
      rw [h1]
      exact Nat.mod_eq_of_lt (by omega)
    have hN2 : 2 ≤ p * q := by
      calc 2 ≤ 2 * 2 := by omega
        _ ≤ p * q := Nat.mul_le_mul hp2 hq2
    rw [← hn, ← he]
    rw [show (p : Int) * (q : Int) = ((p * q : Nat) : Int) by push_cast; rfl]
    rw [rsa_decrypt_encrypt_eq M _ D (p * q) hN2 hlt.le]
    rw [pow_mul_inverse_mod p q hp hq hpq _ D hed M hMN]

/-- C6, instance: `p = 61`, `q = 53` and `m = 65` give the ciphertext 2790, which decrypts
to 65. -/
theorem rsa_roundtrip_witness :
    Nat.Prime 61 ∧ Nat.Prime 53 ∧ 61 ≠ 53 ∧ 61 * 53 < 2 ^ 31 ∧
      generateRSAKeysOptimized 61 53 = Except.ok (3233, 17, 2753) ∧
      (0 : Int) ≤ 65 ∧ (65 : Int) < 3233 ∧
      rsaEncryptOptimized 65 17 3233 = 2790 ∧
      rsaDecryptOptimized (rsaEncryptOptimized 65 17 3233) 2753 3233 = 65 :=
  ⟨by norm_num, by norm_num, by decide, by decide, rfl, by decide, by decide, by decide,
    rsa_roundtrip 61 53 (by norm_num) (by norm_num) (by decide) (by decide) 3233 17 2753 65
      rfl (by decide) (by decide)⟩

/-! ## Rail fence cipher -/

/-- The zigzag step keeps the walk on the rails. -/
theorem railInv_step (key row direction : Int) (hk : 2 ≤ key) (h : RailInv key row direction) :
    RailInv key (row + direction) (railTurn key (row + direction) direction) := by
  unfold RailInv railTurn at *
  obtain ⟨h1, h2, h3, h4, h5⟩ := h
  split_ifs with hc
  · rcases h3 with h3 | h3 <;> subst h3 <;> omega
  · rcases h3 with h3 | h3 <;> subst h3 <;> omega

/-- The walk starts on the top rail, heading down. -/
theorem railInv_start (key : Int) (hk : 2 ≤ key) : RailInv key 0 1 := by
  unfold RailInv; omega

/-- The encryption loop keeps the number of rails. -/
theorem railfenceEncLoop_length (key : Int) (text : List Nat) :
    ∀ (rail : List (List Nat)) (row direction : Int),
      (railfenceEncLoop key text rail row direction).length = rail.length := by
  induction text with
  | nil => intro rail row direction; rfl
  | cons ch rest ih =>
    intro rail row direction
    unfold railfenceEncLoop
    simp only [ih, List.length_set]

/-- Reading an updated rail vector. -/
theorem getD_set_rail (rail : List (List Nat)) (r i : Nat) (v : List Nat) (hr : r < rail.length) :
    (rail.set r v).getD i [] = if r = i then v else rail.getD i [] := by
  simp only [List.getD_eq_getElem?_getD, List.getElem?_set]
  split_ifs <;> simp

/-- After the encryption loop, rail `i` holds its old contents followed by its share of the
text. -/
theorem railfenceEncLoop_getD (key : Int) (hk : 2 ≤ key) (text : List Nat) :
    ∀ (rail : List (List Nat)) (row direction : Int) (i : Nat),
      RailInv key row direction → rail.length = key.toNat →
      (railfenceEncLoop key text rail row direction).getD i [] =
        rail.getD i [] ++ railShare key text row direction i := by
  induction text with
  | nil => intro rail row direction i _ _; simp [railfenceEncLoop, railShare]
  | cons ch rest ih =>
    intro rail row direction i hinv hlen
    unfold railfenceEncLoop railShare
    have hr : row.toNat < rail.length := by
      unfold RailInv at hinv; omega
    simp only
    rw [ih _ _ _ i (railInv_step key row direction hk hinv) (by simp [hlen])]
    rw [getD_set_rail _ _ _ _ hr]
    split_ifs with h
    · subst h; simp
    · simp

/-- Appending one character to a rail lengthens the concatenation of the rails by one. -/
theorem flatten_length_set (rail : List (List Nat)) : ∀ (r : Nat) (ch : Nat), r < rail.length →
    (rail.set r (rail.getD r [] ++ [ch])).flatten.length = rail.flatten.length + 1 := by
  induction rail with
  | nil => intro r ch h; simp at h
  | cons a l ih =>
    intro r ch h
    cases r with
    | zero => simp; omega
    | succ r =>
      have h' : r < l.length := by simpa using h
      have := ih r ch h'
      simp only [List.set_cons_succ, List.flatten_cons, List.length_append, List.getD_cons_succ]
      omega

/-- The ciphertext has the length of the plaintext. -/
theorem railfenceEncLoop_flatten_length (key : Int) (hk : 2 ≤ key) (text : List Nat) :
    ∀ (rail : List (List Nat)) (row direction : Int),
      RailInv key row direction → rail.length = key.toNat →
      (railfenceEncLoop key text rail row direction).flatten.length =
        rail.flatten.length + text.length := by
  induction text with
  | nil => intro rail row direction _ _; simp [railfenceEncLoop]
  | cons ch rest ih =>
    intro rail row direction hinv hlen
    unfold railfenceEncLoop
    have hr : row.toNat < rail.length := by
      unfold RailInv at hinv; omega
    simp only
    rw [ih _ _ _ (railInv_step key row direction hk hinv) (by simp [hlen])]
    rw [flatten_length_set rail _ ch hr]
    simp only [List.length_cons]
    omega

/-- The counting loop of the decryptor computes the rail lengths of the encryptor. -/
theorem railLengthsLoop_eq (key : Int) (text : List Nat) :
    ∀ (rail : List (List Nat)) (row direction : Int),
      railLengthsLoop key text.length (rail.map List.length) row direction =
        (railfenceEncLoop key text rail row direction).map List.length := by
  induction text with
  | nil => intro rail row direction; rfl
  | cons ch rest ih =>
    intro rail row direction
    simp only [List.length_cons]
    unfold railLengthsLoop railfenceEncLoop
    simp only
    rw [← ih]
    congr 1
    rw [List.map_set]
    congr 1
    simp only [List.getD_eq_getElem?_getD, List.getElem?_map, List.length_append,
      List.length_singleton]
    cases rail[row.toNat]? <;> simp

/-- Slicing the concatenation of the rails by their lengths gives the rails back. -/
theorem railFill_flatten (rs : List (List Nat)) : ∀ (pre suf : List Nat),
    railFill (pre ++ rs.flatten ++ suf) (rs.map List.length) pre.length = rs := by
  induction rs with
  | nil => intro pre suf; rfl
  | cons r rs ih =>
    intro pre suf
    simp only [List.map_cons, railFill]
    have hle : pre.length + r.length ≤ (pre ++ (r :: rs).flatten ++ suf).length := by
      simp only [List.flatten_cons, List.length_append]; omega
    rw [if_pos hle]
    have h1 : List.take r.length (List.drop pre.length (pre ++ (r :: rs).flatten ++ suf)) = r := by
      simp only [List.flatten_cons, List.append_assoc, List.drop_left, List.take_left]
    rw [h1]
    congr 1
    have h2 : pre ++ (r :: rs).flatten ++ suf = (pre ++ r) ++ rs.flatten ++ suf := by
      simp only [List.flatten_cons, List.append_assoc]
    have h3 : pre.length + r.length = (pre ++ r).length := by simp
    rw [h2, h3]
    exact ih (pre ++ r) suf

/-- A list whose tail from position `n` starts with `a` has `a` at position `n`. -/
theorem drop_eq_cons (l : List Nat) (n a : Nat) (t : List Nat) (h : l.drop n = a :: t) :
    n < l.length ∧ l.getD n 0 = a ∧ l.drop (n + 1) = t := by
  have hn : n < l.length := by
    by_contra hc
    rw [List.drop_eq_nil_of_le (by omega)] at h
    cases h
  rw [List.drop_eq_getElem_cons hn] at h
  injection h with h1 h2
  refine ⟨hn, ?_, h2⟩
  rw [List.getD_eq_getElem?_getD, List.getElem?_eq_getElem hn]
  exact h1

/-- Reading an updated position vector. -/
theorem getD_set_pos (railPos : List Nat) (r i v : Nat) (hr : r < railPos.length) :
    (railPos.set r v).getD i 0 = if r = i then v else railPos.getD i 0 := by
  simp only [List.getD_eq_getElem?_getD, List.getElem?_set]
  split_ifs <;> simp

/-- The reading loop of the decryptor returns the text whose shares are the unread parts of the
rails. -/
theorem railReadLoop_eq (key : Int) (hk : 2 ≤ key) (rail : List (List Nat))
    (text : List Nat) :
    ∀ (railPos : List Nat) (row direction : Int) (acc : List Nat),
      RailInv key row direction → railPos.length = key.toNat →
      (∀ i, i < key.toNat →
        (rail.getD i []).drop (railPos.getD i 0) = railShare key text row direction i) →
      railReadLoop key rail text.length railPos row direction acc = acc ++ text := by
  induction text with
  | nil => intro railPos row direction acc _ _ _; simp [railReadLoop]
  | cons ch rest ih =>
    intro railPos row direction acc hinv hlen hshare
    have hr : row.toNat < key.toNat := by
      unfold RailInv at hinv; omega
    have h0 := hshare row.toNat hr
    unfold railShare at h0
    rw [if_pos rfl] at h0
    obtain ⟨g1, g2, g3⟩ := drop_eq_cons _ _ _ _ h0
    simp only [List.length_cons]
    unfold railReadLoop
    simp only [if_pos g1, g2]
    rw [ih _ _ _ _ (railInv_step key row direction hk hinv) (by simp [hlen])]
    · simp
    · intro i hi
      rw [getD_set_pos _ _ _ _ (by omega)]
      have hi' := hshare i hi
      unfold railShare at hi'
      split_ifs with h
      · subst h
        exact g3
      · rw [if_neg h] at hi'
        simpa using hi'

/-- Round trip of the rail fence cipher for `key ≥ 2`. -/
theorem railfence_decrypt_encrypt (t : List Nat) (key : Int) (hk : 2 ≤ key) :
    railfenceDecryptOptimized (railfenceEncryptOptimized t key) key = t := by
  by_cases ht : t = []
  · subst ht
    unfold railfenceEncryptOptimized railfenceDecryptOptimized
    simp [show ¬ key ≤ 1 by omega]
  · have hte : t.isEmpty = false := by cases t <;> simp_all
    have hk1 : ¬ key ≤ 1 := by omega
    have hinv := railInv_start key hk
    have hE : railfenceEncryptOptimized t key =
        (railfenceEncLoop key t (List.replicate key.toNat []) 0 1).flatten := by
      unfold railfenceEncryptOptimized
      simp [hk1, hte]
    generalize hEdef : railfenceEncLoop key t (List.replicate key.toNat []) 0 1 = E at hE
    have hElen : E.flatten.length = t.length := by
      rw [← hEdef, railfenceEncLoop_flatten_length key hk t _ _ _ hinv (by simp)]
      simp
    have hcne : E.flatten.isEmpty = false := by
      cases h : E.flatten with
      | nil => rw [h] at hElen; cases t <;> simp_all
      | cons a l => rfl
    rw [hE]
    unfold railfenceDecryptOptimized
    simp only [hk1, if_false, hcne, Bool.false_eq_true]
    rw [hElen]
    have hlens : railLengthsLoop key t.length (List.replicate key.toNat 0) 0 1 =
        E.map List.length := by
      have := railLengthsLoop_eq key t (List.replicate key.toNat []) 0 1
      rw [hEdef] at this
      rw [← this]
      simp
    rw [hlens]
    have hfill : railFill E.flatten (E.map List.length) 0 = E := by
      have := railFill_flatten E [] []
      simpa using this
    rw [hfill]
    have := railReadLoop_eq key hk E t (List.replicate key.toNat 0) 0 1 [] hinv (by simp)
      (by
        intro i hi
        rw [← hEdef, railfenceEncLoop_getD key hk t _ _ _ i hinv (by simp)]
        simp [List.getD_eq_getElem?_getD, hi])
    simpa using this

/-- C3: rail fence round trip. For every text `t` and integer `key`: if `key ≥ 2` then
`railfenceDecryptOptimized (railfenceEncryptOptimized t key) key = t` (also when `key` exceeds
the length of `t`), and if `key ≤ 1` both `railfenceEncryptOptimized` and
`railfenceDecryptOptimized` return their input unchanged. -/
theorem railfence_roundtrip (t : List Nat) (key : Int) :
    (2 ≤ key → railfenceDecryptOptimized (railfenceEncryptOptimized t key) key = t) ∧
      (key ≤ 1 → railfenceEncryptOptimized t key = t ∧ railfenceDecryptOptimized t key = t) := by
  refine ⟨railfence_decrypt_encrypt t key, ?_⟩
  intro h
  unfold railfenceEncryptOptimized railfenceDecryptOptimized
  simp [h]

/-- C3, instances: key 3 on `"WEAREDISCOVEREDFLEEATONCE"`, key 9 (longer than the text) on
`"HELLO"`, and keys 1 and -4 as identities. -/
theorem railfence_roundtrip_witness :
    ((2 : Int) ≤ 3 ∧
        railfenceDecryptOptimized
          (railfenceEncryptOptimized (bytes "WEAREDISCOVEREDFLEEATONCE") 3) 3 =
          bytes "WEAREDISCOVEREDFLEEATONCE") ∧
      ((2 : Int) ≤ 9 ∧
        railfenceDecryptOptimized (railfenceEncryptOptimized (bytes "HELLO") 9) 9 =
          bytes "HELLO") ∧
      ((1 : Int) ≤ 1 ∧ railfenceEncryptOptimized (bytes "HELLO") 1 = bytes "HELLO" ∧
        railfenceDecryptOptimized (bytes "HELLO") 1 = bytes "HELLO") ∧
      ((-4 : Int) ≤ 1 ∧ railfenceEncryptOptimized (bytes "HELLO") (-4) = bytes "HELLO" ∧
        railfenceDecryptOptimized (bytes "HELLO") (-4) = bytes "HELLO") :=
  ⟨⟨by decide, (railfence_roundtrip (bytes "WEAREDISCOVEREDFLEEATONCE") 3).1 (by decide)⟩,
    ⟨by decide, (railfence_roundtrip (bytes "HELLO") 9).1 (by decide)⟩,
    ⟨by decide, (railfence_roundtrip (bytes "HELLO") 1).2 (by decide)⟩,
    ⟨by decide, (railfence_roundtrip (bytes "HELLO") (-4)).2 (by decide)⟩⟩

/-! ## Playfair: the key matrix -/

/-- The 26 upper-case letters are pairwise different. -/
theorem upperLetters_nodup : upperLetters.Nodup := by decide

/-- Membership in the list of upper-case letters. -/
theorem mem_upperLetters (c : Nat) : c ∈ upperLetters ↔ 65 ≤ c ∧ c ≤ 90 := by
  unfold upperLetters
  simp only [List.mem_map, List.mem_range]
  constructor
  · rintro ⟨x, hx, rfl⟩; omega
  · intro h; exact ⟨c - 65, by omega, by omega⟩

/-- While a letter is still unused, fewer than 25 cells have been written. -/
theorem keyMatrix_room (st : KeyMatrixState) (hinv : KeyMatrixInv st) (c : Nat)
    (hc : 65 ≤ c ∧ c ≤ 90) (hu : st.used.getD (c - 65) false = false) :
    5 * st.row + st.col < 25 ∧ c ≠ 74 ∧ c ∉ st.cells := by
  obtain ⟨h1, h2, h3, h4, h5, h6, h7⟩ := hinv
  have hx := h7 (c - 65) (by omega)
  rw [hu] at hx
  have hc74 : c ≠ 74 := by
    intro h; subst h
    exact absurd (hx.mpr (Or.inl rfl)) (by simp)
  have hcn : c ∉ st.cells := by
    intro h
    have : c - 65 + 65 = c := by omega
    exact absurd (hx.mpr (Or.inr (by rw [this]; exact h))) (by simp)
  have h74 : 74 ∉ st.cells := fun h => (h6 74 h).2.2 rfl
  refine ⟨?_, hc74, hcn⟩
  have hnd : (c :: 74 :: st.cells).Nodup := by
    rw [List.nodup_cons, List.nodup_cons]
    refine ⟨?_, h74, h5⟩
    simp only [List.mem_cons, not_or]
    exact ⟨hc74, hcn⟩
  have hsub : (c :: 74 :: st.cells) ⊆ upperLetters := by
    intro x hx
    rw [mem_upperLetters]
    simp only [List.mem_cons] at hx
    rcases hx with rfl | rfl | hx
    · exact hc
    · omega
    · exact ⟨(h6 x hx).1, (h6 x hx).2.1⟩
  have hle := (List.subperm_of_subset hnd hsub).length_le
  have hlen : st.cells.length = 5 * st.row + st.col := by
    unfold KeyMatrixState.cells
    rw [List.length_take]; omega
  have h26 : upperLetters.length = 26 := by decide
  simp only [List.length_cons] at hle
  omega

/-- Overwriting cell `k` and reading the first `k + 1` cells. -/
theorem take_succ_set (l : List Nat) : ∀ (k c : Nat), k < l.length →
    (l.set k c).take (k + 1) = l.take k ++ [c] := by
  induction l with
  | nil => intro k c h; simp at h
  | cons a l ih =>
    intro k c h
    cases k with
    | zero => simp
    | succ k =>
      have h' : k < l.length := by simpa using h
      simp [ih k c h']

/-- Reading a flag vector after setting one flag. -/
theorem getD_set_flag (used : List Bool) (s x : Nat) (hs : s < used.length) :
    (used.set s true).getD x false = if s = x then true else used.getD x false := by
  simp only [List.getD_eq_getElem?_getD, List.getElem?_set]
  split_ifs <;> simp

/-- Writing an unused letter keeps the invariant and extends the written cells by that letter. -/
theorem keyMatrixPut_inv (st : KeyMatrixState) (hinv : KeyMatrixInv st) (c : Nat)
    (hc : 65 ≤ c ∧ c ≤ 90) (hu : st.used.getD (c - 65) false = false) :
    KeyMatrixInv (keyMatrixPut st c) ∧ (keyMatrixPut st c).cells = st.cells ++ [c] ∧
      (keyMatrixPut st c).used = st.used.set (c - 65) true := by
  obtain ⟨hroom, hc74, hcn⟩ := keyMatrix_room st hinv c hc hu
  obtain ⟨h1, h2, h3, h4, h5, h6, h7⟩ := hinv
  have hk : (keyMatrixPut st c).keyMatrix = st.keyMatrix.set (5 * st.row + st.col) c := by
    unfold keyMatrixPut; split_ifs <;> rfl
  have hus : (keyMatrixPut st c).used = st.used.set (c - 65) true := by
    unfold keyMatrixPut; split_ifs <;> rfl
  have hpos : 5 * (keyMatrixPut st c).row + (keyMatrixPut st c).col = 5 * st.row + st.col + 1 ∧
      (keyMatrixPut st c).col < 5 := by
    unfold keyMatrixPut; split_ifs <;> simp <;> omega
  have hcells : (keyMatrixPut st c).cells = st.cells ++ [c] := by
    unfold KeyMatrixState.cells
    rw [hk, hpos.1, take_succ_set _ _ _ (by omega)]
  refine ⟨⟨hpos.2, ?_, ?_, ?_, ?_, ?_, ?_⟩, hcells, hus⟩
  · rw [hk, List.length_set]; exact h2
  · rw [hus, List.length_set]; exact h3
  · omega
  · rw [hcells]
    exact List.Nodup.append h5 (List.nodup_singleton c) (by simpa using hcn)
  · rw [hcells]
    intro x hx
    rw [List.mem_append, List.mem_singleton] at hx
    rcases hx with hx | rfl
    · exact h6 x hx
    · exact ⟨hc.1, hc.2, hc74⟩
  · intro x hx
    rw [hus, getD_set_flag _ _ _ (by omega), hcells, List.mem_append, List.mem_singleton]
    split_ifs with h
    · simp only [true_iff]
      right; right; omega
    · rw [h7 x hx]
      constructor
      · rintro (h' | h')
        · exact Or.inl h'
        · exact Or.inr (Or.inl h')
      · rintro (h' | h' | h')
        · exact Or.inl h'
        · exact Or.inr h'
        · omega

/-- The initial state satisfies the invariant. -/
theorem keyMatrixInv_init :
    KeyMatrixInv ⟨List.replicate 25 0, (List.replicate 26 false).set (74 - 65) true, 0, 0⟩ := by
  refine ⟨by decide, by decide, by decide, by decide, ?_, ?_, ?_⟩
  · simp [KeyMatrixState.cells]
  · simp [KeyMatrixState.cells]
  · intro x hx
    simp only [KeyMatrixState.cells, Nat.mul_zero, Nat.add_zero, List.take_zero,
      List.not_mem_nil, or_false]
    rw [getD_set_flag _ _ _ (by decide)]
    split_ifs with h
    · simp; omega
    · simp only [List.getD_eq_getElem?_getD]
      have : (List.replicate 26 false)[x]?.getD false = false := by
        rw [List.getElem?_replicate]; split_ifs; all_goals rfl
      rw [this]
      simp; omega

/-- `toupper` of a character that is then a letter is an upper-case letter. -/
theorem toupper_alpha (c : Nat) (h : isalpha (toupper c) = true) :
    65 ≤ toupper c ∧ toupper c ≤ 90 := by
  unfold toupper at *
  simp only [isalpha, islower, Bool.or_eq_true, Bool.and_eq_true, decide_eq_true_eq] at *
  split_ifs at * <;> omega

/-- One key character keeps the invariant. -/
theorem keyMatrixKeyStep_inv (st : KeyMatrixState) (hinv : KeyMatrixInv st) (c : Nat) :
    KeyMatrixInv (keyMatrixKeyStep st c) := by
  unfold keyMatrixKeyStep
  simp only
  split_ifs with h
  · simp only [Bool.and_eq_true, Bool.not_eq_true'] at h
    exact (keyMatrixPut_inv st hinv _ (toupper_alpha c h.1) h.2).1
  · exact hinv

/-- The key loop keeps the invariant. -/
theorem keyMatrix_foldl_inv (key : List Nat) : ∀ (st : KeyMatrixState), KeyMatrixInv st →
    KeyMatrixInv (key.foldl keyMatrixKeyStep st) := by
  induction key with
  | nil => intro st h; exact h
  | cons c cs ih =>
    intro st h
    exact ih _ (keyMatrixKeyStep_inv st h c)

/-- The fill loop keeps the invariant and ends with the grid full or with every letter it
visited flagged as used. -/
theorem keyMatrixFill_inv (cs : List Nat) : ∀ (st : KeyMatrixState), KeyMatrixInv st →
    (∀ c ∈ cs, 65 ≤ c ∧ c ≤ 90) →
    KeyMatrixInv (keyMatrixFill cs st) ∧
      (5 ≤ (keyMatrixFill cs st).row ∨
        ((∀ c ∈ cs, (keyMatrixFill cs st).used.getD (c - 65) false = true) ∧
          ∀ x, st.used.getD x false = true → (keyMatrixFill cs st).used.getD x false = true)) := by
  induction cs with
  | nil => intro st h _; exact ⟨h, Or.inr ⟨by simp, fun x hx => hx⟩⟩
  | cons c cs ih =>
    intro st hinv hcs
    have hc := hcs c (List.mem_cons_self _ _)
    have hcs' : ∀ c ∈ cs, 65 ≤ c ∧ c ≤ 90 := fun x hx => hcs x (List.mem_cons_of_mem _ hx)
    unfold keyMatrixFill
    by_cases hrow : st.row < 5
    · rw [if_pos hrow]
      by_cases hu : st.used.getD (c - 65) false = true
      · simp only [hu, Bool.not_true, Bool.false_eq_true, if_false]
        obtain ⟨g1, g2⟩ := ih st hinv hcs'
        refine ⟨g1, ?_⟩
        rcases g2 with g2 | ⟨g2, g3⟩
        · exact Or.inl g2
        · right
          refine ⟨?_, g3⟩
          intro x hx
          rw [List.mem_cons] at hx
          rcases hx with rfl | hx
          · exact g3 _ hu
          · exact g2 x hx
      · have hu' : st.used.getD (c - 65) false = false := by
          cases h : st.used.getD (c - 65) false
          · rfl
          · exact absurd h hu
        simp only [hu', Bool.not_false, if_true]
        obtain ⟨p1, _, p3⟩ := keyMatrixPut_inv st hinv c hc hu'
        obtain ⟨g1, g2⟩ := ih (keyMatrixPut st c) p1 hcs'
        refine ⟨g1, ?_⟩
        rcases g2 with g2 | ⟨g2, g3⟩
        · exact Or.inl g2
        · right
          have hlen := hinv.2.2.1
          have hmono : ∀ x, st.used.getD x false = true →
              (keyMatrixPut st c).used.getD x false = true := by
            intro x hx
            rw [p3, getD_set_flag _ _ _ (by omega)]
            split_ifs
            · rfl
            · exact hx
          refine ⟨?_, fun x hx => g3 x (hmono x hx)⟩
          intro x hx
          rw [List.mem_cons] at hx
          rcases hx with rfl | hx
          · apply g3
            rw [p3, getD_set_flag _ _ _ (by omega), if_pos rfl]
          · exact g2 x hx
    · rw [if_neg hrow]
      exact ⟨hinv, Or.inl (by omega)⟩

/-- The key matrix built from any seed key satisfies the key-matrix invariant. -/
theorem generateKeyMatrixOptimized_valid (key : List Nat) :
    ValidKeyMatrix (generateKeyMatrixOptimized key) := by
  unfold generateKeyMatrixOptimized
  simp only
  generalize hst : keyMatrixFill upperLetters (List.foldl keyMatrixKeyStep
    ⟨List.replicate 25 0, (List.replicate 26 false).set (74 - 65) true, 0, 0⟩ key) = st
  obtain ⟨hinv, hend⟩ := keyMatrixFill_inv upperLetters _
    (keyMatrix_foldl_inv key _ keyMatrixInv_init) (fun c hc => (mem_upperLetters c).mp hc)
  rw [hst] at hinv hend
  obtain ⟨h1, h2, h3, h4, h5, h6, h7⟩ := hinv
  have hlen : st.cells.length = 5 * st.row + st.col := by
    unfold KeyMatrixState.cells
    rw [List.length_take]; omega
  have hfull : 5 * st.row + st.col = 25 := by
    rcases hend with hrow | ⟨hall, _⟩
    · omega
    · have hsub : upperLetters.filter (fun c => decide (c ≠ 74)) ⊆ st.cells := by
        intro c hc
        rw [List.mem_filter] at hc
        obtain ⟨hc1, hc2⟩ := hc
        have hr := (mem_upperLetters c).mp hc1
        have := (h7 (c - 65) (by omega)).mp (hall c hc1)
        have hne : c ≠ 74 := by simpa using hc2
        rcases this with h | h
        · omega
        · have e : c - 65 + 65 = c := by omega
          rw [e] at h; exact h
      have hnd : (upperLetters.filter (fun c => decide (c ≠ 74))).Nodup :=
        upperLetters_nodup.filter _
      have hle := (List.subperm_of_subset hnd hsub).length_le
      have h25 : (upperLetters.filter (fun c => decide (c ≠ 74))).length = 25 := by decide
      omega
  have hcells : st.cells = st.keyMatrix := by
    unfold KeyMatrixState.cells
    rw [hfull, ← h2, List.take_length]
  rw [hcells] at h5 h6
  exact ⟨h2, h5, h6⟩

/-- Every Playfair letter occurs in a valid key matrix. -/
theorem mem_of_validKeyMatrix (keyMatrix : List Nat) (hv : ValidKeyMatrix keyMatrix) (c : Nat)
    (hc : IsGridLetter c) : c ∈ keyMatrix := by
  obtain ⟨h1, h2, h3⟩ := hv
  have hsub : keyMatrix ⊆ upperLetters.filter (fun c => decide (c ≠ 74)) := by
    intro x hx
    obtain ⟨a, b, d⟩ := h3 x hx
    rw [List.mem_filter, mem_upperLetters]
    exact ⟨⟨a, b⟩, by simpa using d⟩
  have h25 : (upperLetters.filter (fun c => decide (c ≠ 74))).length = 25 := by decide
  have hperm := (List.subperm_of_subset h2 hsub).perm_of_length_le (by rw [h25, h1])
  apply hperm.symm.subset
  rw [List.mem_filter, mem_upperLetters]
  exact ⟨⟨hc.1, hc.2.1⟩, by simpa using hc.2.2⟩

/-! ## Playfair: the position table -/

/-- The two nested loops of `initializePositionLookup` visit the 25 cells in memory order. -/
theorem initializePositionLookup_eq (keyMatrix : List Nat) :
    initializePositionLookup keyMatrix =
      (List.range 25).foldl (fun positions idx =>
        if 65 ≤ keyMatrix.getD idx 0 ∧ keyMatrix.getD idx 0 ≤ 90 then
          positions.set (keyMatrix.getD idx 0 - 65) (((idx / 5 : Nat) : Int), ((idx % 5 : Nat) : Int))
        else positions) (List.replicate 26 (-1, -1)) := by
  have h5 : List.range 5 = [0, 1, 2, 3, 4] := by decide
  have h25 : List.range 25 = [0, 1, 2, 3, 4, 5, 6, 7, 8, 9, 10, 11, 12, 13, 14, 15, 16, 17, 18,
      19, 20, 21, 22, 23, 24] := by decide
  unfold initializePositionLookup
  rw [h5, h25]
  simp only [List.foldl_cons, List.foldl_nil, Nat.reduceMul, Nat.reduceAdd, Nat.reduceDiv,
    Nat.reduceMod]

/-- Cells whose table slot differs from `s` leave slot `s` of the table alone. -/
theorem positions_untouched (keyMatrix : List Nat) (idxs : List Nat) :
    ∀ (positions : List (Int × Int)) (s : Nat),
      (∀ idx ∈ idxs, keyMatrix.getD idx 0 - 65 ≠ s) →
      (idxs.foldl (fun positions idx =>
        if 65 ≤ keyMatrix.getD idx 0 ∧ keyMatrix.getD idx 0 ≤ 90 then
          positions.set (keyMatrix.getD idx 0 - 65)
            (((idx / 5 : Nat) : Int), ((idx % 5 : Nat) : Int))
        else positions) positions)[s]? = positions[s]? := by
  induction idxs with
  | nil => intro positions s _; rfl
  | cons a rest ih =>
    intro positions s h
    rw [List.foldl_cons, ih _ s (fun idx hidx => h idx (List.mem_cons_of_mem _ hidx))]
    split_ifs
    · rw [List.getElem?_set, if_neg (h a (List.mem_cons_self _ _))]
    · rfl

/-- When the visited cells hold pairwise different upper-case letters, the table maps each of
them to the row and column of its cell. -/
theorem positions_lookup (keyMatrix : List Nat) (idxs : List Nat) :
    ∀ (positions : List (Int × Int)), positions.length = 26 →
      (∀ idx ∈ idxs, 65 ≤ keyMatrix.getD idx 0 ∧ keyMatrix.getD idx 0 ≤ 90) →
      (idxs.map (fun idx => keyMatrix.getD idx 0)).Nodup →
      ∀ idx ∈ idxs,
        (idxs.foldl (fun positions idx =>
          if 65 ≤ keyMatrix.getD idx 0 ∧ keyMatrix.getD idx 0 ≤ 90 then
            positions.set (keyMatrix.getD idx 0 - 65)
              (((idx / 5 : Nat) : Int), ((idx % 5 : Nat) : Int))
          else positions) positions)[keyMatrix.getD idx 0 - 65]? =
          some (((idx / 5 : Nat) : Int), ((idx % 5 : Nat) : Int)) := by
  induction idxs with
  | nil => intro positions _ _ _ idx hidx; simp at hidx
  | cons a rest ih =>
    intro positions hlen hletters hnd idx hidx
    rw [List.map_cons, List.nodup_cons] at hnd
    have ha := hletters a (List.mem_cons_self _ _)
    rw [List.foldl_cons, if_pos ha]
    by_cases hmem : idx ∈ rest
    · exact ih _ (by simp [hlen]) (fun i hi => hletters i (List.mem_cons_of_mem _ hi)) hnd.2
        idx hmem
    · have hia : idx = a := by
        rw [List.mem_cons] at hidx
        rcases hidx with h | h
        · exact h
        · exact absurd h hmem
      subst hia
      rw [positions_untouched keyMatrix rest _ _ ?_]
      · rw [List.getElem?_set, if_pos rfl, if_pos (by omega)]
      · intro j hj heq
        have hj' := hletters j (List.mem_cons_of_mem _ hj)
        apply hnd.1
        rw [List.mem_map]
        exact ⟨j, hj, by omega⟩

/-- The cells of a 25-cell matrix, read in order. -/
theorem map_getD_range (keyMatrix : List Nat) (h : keyMatrix.length = 25) :
    (List.range 25).map (fun idx => keyMatrix.getD idx 0) = keyMatrix := by
  apply List.ext_getElem
  · simp [h]
  · intro i h1 h2
    simp only [List.getElem_map, List.getElem_range, List.getD_eq_getElem?_getD,
      List.getElem?_eq_getElem h2, Option.getD_some]

/-- In a valid key matrix, the cell at position `idx` holds a Playfair letter. -/
theorem getD_gridLetter (keyMatrix : List Nat) (hv : ValidKeyMatrix keyMatrix) (idx : Nat)
    (h : idx < 25) : IsGridLetter (keyMatrix.getD idx 0) := by
  obtain ⟨h1, _, h3⟩ := hv
  have hlt : idx < keyMatrix.length := by omega
  rw [List.getD_eq_getElem?_getD, List.getElem?_eq_getElem hlt]
  exact h3 _ (List.getElem_mem _)

/-- For a valid key matrix the position table sends the letter of cell `idx` to the row
`idx / 5` and the column `idx % 5`. -/
theorem posAt_lookup (keyMatrix : List Nat) (hv : ValidKeyMatrix keyMatrix) (idx : Nat)
    (h : idx < 25) :
    posAt (initializePositionLookup keyMatrix) (keyMatrix.getD idx 0) =
      some (((idx / 5 : Nat) : Int), ((idx % 5 : Nat) : Int)) := by
  have hl := getD_gridLetter keyMatrix hv idx h
  obtain ⟨l1, l2, _⟩ := hl
  unfold posAt
  have hc : charToInt (keyMatrix.getD idx 0) = ((keyMatrix.getD idx 0 : Nat) : Int) := by
    unfold charToInt; rw [if_pos (by omega)]
  simp only [hc]
  rw [if_pos (by omega)]
  have ht : ((keyMatrix.getD idx 0 : Nat) : Int) - 65 = ((keyMatrix.getD idx 0 - 65 : Nat) : Int) := by
    omega
  rw [ht, Int.toNat_ofNat, List.get?_eq_getElem?, initializePositionLookup_eq]
  apply positions_lookup keyMatrix (List.range 25) _ (by simp)
  · intro i hi
    rw [List.mem_range] at hi
    have := getD_gridLetter keyMatrix hv i hi
    exact ⟨this.1, this.2.1⟩
  · rw [map_getD_range keyMatrix hv.1]
    exact hv.2.1
  · exact List.mem_range.mpr h

/-- Reading the cell in row `r` and column `c` of a 25-cell matrix. -/
theorem matAt_eq (keyMatrix : List Nat) (h : keyMatrix.length = 25) (r c : Nat) (hr : r < 5)
    (hc : c < 5) : matAt keyMatrix (r : Int) (c : Int) = some (keyMatrix.getD (5 * r + c) 0) := by
  unfold matAt
  rw [if_pos (by omega)]
  have : (5 * (r : Int) + (c : Int)).toNat = 5 * r + c := by omega
  rw [this, List.get?_eq_getElem?, List.getD_eq_getElem?_getD,
    List.getElem?_eq_getElem (by omega)]
  rfl

/-- The wrapped neighbour `(c + step) % 5` of a column or row. -/
theorem tmod_step (c step : Nat) :
    Int.tmod ((c : Int) + (step : Int)) 5 = (((c + step) % 5 : Nat) : Int) := by
  have := tmod_cases ((c : Int) + (step : Int)) 5
  rw [if_pos (by omega)] at this
  rw [show ((5 : Nat) : Int) = 5 from rfl] at this
  rw [this]
  omega

/-- The pair rule on a valid key matrix, in terms of cell positions. -/
theorem playfairPair_eq (keyMatrix : List Nat) (hv : ValidKeyMatrix keyMatrix) (step i1 i2 : Nat)
    (h1 : i1 < 25) (h2 : i2 < 25) :
    playfairPair (step : Int) keyMatrix (initializePositionLookup keyMatrix)
        (keyMatrix.getD i1 0) (keyMatrix.getD i2 0) =
      some [keyMatrix.getD (playfairCells step i1 i2).1 0,
        keyMatrix.getD (playfairCells step i1 i2).2 0] := by
  unfold playfairPair playfairCells
  rw [posAt_lookup keyMatrix hv i1 h1, posAt_lookup keyMatrix hv i2 h2]
  simp only [tmod_step]
  have hm : ∀ x : Nat, x % 5 < 5 := fun x => Nat.mod_lt x (by decide)
  have hd1 : i1 / 5 < 5 := by omega
  have hd2 : i2 / 5 < 5 := by omega
  by_cases hr : i1 / 5 = i2 / 5
  · have hr' : ((i1 / 5 : Nat) : Int) = ((i2 / 5 : Nat) : Int) := by rw [hr]
    rw [if_pos hr', if_pos hr]
    rw [matAt_eq keyMatrix hv.1 _ _ hd1 (hm _), matAt_eq keyMatrix hv.1 _ _ hd2 (hm _)]
  · have hr' : ¬ ((i1 / 5 : Nat) : Int) = ((i2 / 5 : Nat) : Int) := fun h => hr (by exact_mod_cast h)
    rw [if_neg hr', if_neg hr]
    by_cases hc : i1 % 5 = i2 % 5
    · have hc' : ((i1 % 5 : Nat) : Int) = ((i2 % 5 : Nat) : Int) := by rw [hc]
      rw [if_pos hc', if_pos hc]
      rw [matAt_eq keyMatrix hv.1 _ _ (hm _) (hm _), matAt_eq keyMatrix hv.1 _ _ (hm _) (hm _)]
    · have hc' : ¬ ((i1 % 5 : Nat) : Int) = ((i2 % 5 : Nat) : Int) :=
        fun h => hc (by exact_mod_cast h)
      rw [if_neg hc', if_neg hc]
      rw [matAt_eq keyMatrix hv.1 _ _ hd1 (hm _), matAt_eq keyMatrix hv.1 _ _ hd2 (hm _)]

/-- The decryption rule undoes the encryption rule on cell positions. -/
theorem playfairCells_inverse (i1 i2 : Nat) (h1 : i1 < 25) (h2 : i2 < 25) :
    (playfairCells 1 i1 i2).1 < 25 ∧ (playfairCells 1 i1 i2).2 < 25 ∧
      playfairCells 4 (playfairCells 1 i1 i2).1 (playfairCells 1 i1 i2).2 = (i1, i2) := by
  have h : ∀ a < 25, ∀ b < 25, (playfairCells 1 a b).1 < 25 ∧ (playfairCells 1 a b).2 < 25 ∧
      playfairCells 4 (playfairCells 1 a b).1 (playfairCells 1 a b).2 = (a, b) := by
    decide
  exact h i1 h1 i2 h2

/-- On a valid key matrix, the pair loop with `step = 1` succeeds on every even-length text of
Playfair letters, and the pair loop with `step = 4` maps its output back to the text. -/
theorem playfairLoop_inverse (keyMatrix : List Nat) (hv : ValidKeyMatrix keyMatrix) (n : Nat) :
    ∀ text : List Nat, text.length = 2 * n → (∀ c ∈ text, IsGridLetter c) →
      ∃ ct, playfairLoop 1 keyMatrix (initializePositionLookup keyMatrix) text = some ct ∧
        ct.length = text.length ∧
        playfairLoop 4 keyMatrix (initializePositionLookup keyMatrix) ct = some text := by
  induction n with
  | zero =>
    intro text hlen _
    have : text = [] := List.length_eq_zero.mp (by omega)
    subst this
    exact ⟨[], rfl, rfl, rfl⟩
  | succ n ih =>
    intro text hlen hl
    match text, hlen, hl with
    | a :: b :: rest, hlen, hl =>
      have ha := mem_of_validKeyMatrix keyMatrix hv a (hl a (by simp))
      have hb := mem_of_validKeyMatrix keyMatrix hv b (hl b (by simp))
      obtain ⟨i1, h1, e1⟩ := List.getElem_of_mem ha
      obtain ⟨i2, h2, e2⟩ := List.getElem_of_mem hb
      have h1' : i1 < 25 := by rw [← hv.1]; exact h1
      have h2' : i2 < 25 := by rw [← hv.1]; exact h2
      have g1 : keyMatrix.getD i1 0 = a := by
        rw [List.getD_eq_getElem?_getD, List.getElem?_eq_getElem h1, Option.getD_some, e1]
      have g2 : keyMatrix.getD i2 0 = b := by
        rw [List.getD_eq_getElem?_getD, List.getElem?_eq_getElem h2, Option.getD_some, e2]
      obtain ⟨c1, c2, c3⟩ := playfairCells_inverse i1 i2 h1' h2'
      have enc := playfairPair_eq keyMatrix hv 1 i1 i2 h1' h2'
      have dec := playfairPair_eq keyMatrix hv 4 _ _ c1 c2
      rw [Nat.cast_one, g1, g2] at enc
      rw [Nat.cast_ofNat, c3, g1, g2] at dec
      obtain ⟨ct, r1, r2, r3⟩ := ih rest (by simp at hlen; omega)
        (fun c hc => hl c (by simp [hc]))
      refine ⟨keyMatrix.getD (playfairCells 1 i1 i2).1 0 ::
        keyMatrix.getD (playfairCells 1 i1 i2).2 0 :: ct, ?_, ?_, ?_⟩
      · rw [playfairLoop, enc, r1]; rfl
      · simp [r2]
      · rw [playfairLoop, dec, r3]; rfl

/-! ## Playfair: text preparation -/

/-- The first loop of `prepareTextOptimized` produces Playfair letters only. -/
theorem prepareLetters_gridLetter (text : List Nat) : ∀ c ∈ prepareLetters text, IsGridLetter c := by
  intro c hc
  unfold prepareLetters at hc
  rw [List.mem_filterMap] at hc
  obtain ⟨x, _, hx⟩ := hc
  unfold IsGridLetter
  unfold toupper at hx
  simp only [isalpha, islower, Bool.or_eq_true, Bool.and_eq_true, decide_eq_true_eq] at hx
  split_ifs at hx <;> simp only [Option.some.injEq, reduceCtorEq] at hx <;> omega

/-- A text with a letter has a non-empty list of letters. -/
theorem prepareLetters_length_pos (text : List Nat) (h : ∃ c ∈ text, isalpha c = true) :
    1 ≤ (prepareLetters text).length := by
  obtain ⟨c, hc, hal⟩ := h
  have hmem : (if toupper c = 74 then 73 else toupper c) ∈ prepareLetters text := by
    unfold prepareLetters
    rw [List.mem_filterMap]
    exact ⟨c, hc, by simp [hal]⟩
  exact List.length_pos_of_mem hmem

/-- The duplicate scan terminates within its fuel on a non-empty string of Playfair letters and
returns a non-empty string of Playfair letters. -/
theorem prepareDupLoop_some (fuel : Nat) : ∀ (i : Nat) (p : List Nat),
    i ≤ p.length → p.length < i + fuel → 1 ≤ p.length →
    (∀ c ∈ p, IsGridLetter c) →
    ∃ r, prepareDupLoop fuel i p = some r ∧ (∀ c ∈ r, IsGridLetter c) ∧ 1 ≤ r.length := by
  induction fuel with
  | zero => intro i p h1 h2; omega
  | succ fuel ih =>
    intro i p h1 h2 h3 hl
    unfold prepareDupLoop
    rw [if_neg (show ¬ p.length = 0 by omega)]
    by_cases hc : i < p.length - 1
    · rw [if_pos hc]
      have hi : i < p.length := by omega
      have hi1 : i + 1 < p.length := by omega
      rw [List.get?_eq_getElem?, List.get?_eq_getElem?, List.getElem?_eq_getElem hi,
        List.getElem?_eq_getElem hi1]
      simp only
      have hX : IsGridLetter 88 := by unfold IsGridLetter; omega
      by_cases heq : p[i] = p[i + 1]
      · rw [if_pos heq]
        apply ih
        · simp; omega
        · simp; omega
        · simp; omega
        · intro c hc
          rw [List.mem_append, List.mem_cons] at hc
          rcases hc with hc | rfl | hc
          · exact hl c (List.mem_of_mem_take hc)
          · exact hX
          · exact hl c (List.mem_of_mem_drop hc)
      · rw [if_neg heq]
        exact ih _ _ (by omega) (by omega) h3 hl
    · rw [if_neg hc]
      exact ⟨p, rfl, hl, h3⟩

/-- `prepareTextOptimized` succeeds on every text with a letter, with a non-empty, even-length
result made of Playfair letters. -/
theorem prepareTextOptimized_some (text : List Nat) (h : ∃ c ∈ text, isalpha c = true) :
    ∃ prepared, prepareTextOptimized text = some prepared ∧ prepared.length % 2 = 0 ∧
      1 ≤ prepared.length ∧ ∀ c ∈ prepared, IsGridLetter c := by
  have hpos := prepareLetters_length_pos text h
  obtain ⟨r, hr, hrl, hr1⟩ := prepareDupLoop_some ((prepareLetters text).length + 1) 0
    (prepareLetters text) (by omega) (by omega) hpos
    (prepareLetters_gridLetter text)
  unfold prepareTextOptimized
  simp only [hr]
  refine ⟨_, rfl, ?_, ?_, ?_⟩
  · split_ifs with hodd
    · simp; omega
    · omega
  · split_ifs
    · simp
    · exact hr1
  · intro c hc
    split_ifs at hc
    · rw [List.mem_append, List.mem_singleton] at hc
      rcases hc with hc | rfl
      · exact hrl c hc
      · unfold IsGridLetter; omega
    · exact hrl c hc

/-- C4: Playfair round trip on the prepared text. For every seed key, with `M` the matrix built
by `generateKeyMatrixOptimized`, and every text `t` containing at least one ASCII letter,
`prepareTextOptimized t` returns a prepared text, `playfairEncryptOptimized t M` returns a
ciphertext, and `playfairDecryptOptimized` applied to that ciphertext and `M` returns the
prepared text. -/
theorem playfair_roundtrip (key t : List Nat) (h : ∃ c ∈ t, isalpha c = true) :
    ∃ prepared ct, prepareTextOptimized t = some prepared ∧
      playfairEncryptOptimized t (generateKeyMatrixOptimized key) = some ct ∧
      playfairDecryptOptimized ct (generateKeyMatrixOptimized key) = some prepared := by
  obtain ⟨prepared, hp, heven, _, hl⟩ := prepareTextOptimized_some t h
  have hv := generateKeyMatrixOptimized_valid key
  obtain ⟨ct, h1, _, h2⟩ := playfairLoop_inverse (generateKeyMatrixOptimized key) hv
    (prepared.length / 2) prepared (by omega) hl
  refine ⟨prepared, ct, hp, ?_, ?_⟩
  · unfold playfairEncryptOptimized
    rw [hp]
    exact h1
  · exact h2

/-- C4, instance: seed key `"MONARCHY"` and text `"INSTRUMENTS"`. -/
theorem playfair_roundtrip_witness :
    (∃ c ∈ bytes "INSTRUMENTS", isalpha c = true) ∧
      ∃ prepared ct, prepareTextOptimized (bytes "INSTRUMENTS") = some prepared ∧
        playfairEncryptOptimized (bytes "INSTRUMENTS")
          (generateKeyMatrixOptimized (bytes "MONARCHY")) = some ct ∧
        playfairDecryptOptimized ct (generateKeyMatrixOptimized (bytes "MONARCHY")) =
          some prepared :=
  ⟨by decide, playfair_roundtrip (bytes "MONARCHY") (bytes "INSTRUMENTS") (by decide)⟩

/-! ## Fast modular exponentiation: the reference value, overflow and negative bases -/

/-- A product of two residues of a modulus of at most `2 ^ 31` fits in 64 bits. -/
theorem fitsInt64_mul (r b m : Nat) (hr : r < m) (hb : b < m) (hm : m ≤ 2 ^ 31) :
    fitsInt64 ((r : Int) * (b : Int)) = true := by
  have h : r * b < 2 ^ 31 * 2 ^ 31 :=
    Nat.mul_lt_mul'' (lt_of_lt_of_le hr hm) (lt_of_lt_of_le hb hm)
  have h0 : (0 : Int) ≤ (r : Int) * (b : Int) := by positivity
  have h1 : ((r * b : Nat) : Int) < ((2 ^ 31 * 2 ^ 31 : Nat) : Int) := by exact_mod_cast h
  push_cast at h1
  unfold fitsInt64
  simp only [Bool.and_eq_true, decide_eq_true_eq]
  omega

/-- The checked loop finishes within its fuel, meets no overflow and returns
`result * base ^ exp mod m` on residues. -/
theorem fastModExpChecked_spec (f : Nat) : ∀ (r b e m : Nat), e < f → r < m → b < m →
    m ≤ 2 ^ 31 → fastModExpChecked f r b e m = some ((r * b ^ e % m : Nat) : Int) := by
  induction f with
  | zero => intro r b e m he; omega
  | succ f ih =>
    intro r b e m he hr hb hm
    unfold fastModExpChecked
    have hmpos : 0 < m := by omega
    have tm : ∀ x y : Nat, Int.tmod ((x : Int) * (y : Int)) (m : Int) = ((x * y % m : Nat) : Int) := by
      intro x y
      rw [Int.tmod_eq_emod (by positivity) (Int.ofNat_nonneg m), Int.natCast_mod, Nat.cast_mul]
    by_cases hpos : (e : Int) > 0
    · rw [if_pos hpos, fitsInt64_mul r b m hr hb hm, fitsInt64_mul b b m hb hb hm]
      simp only [Bool.and_self, if_true]
      have e2 : (e : Int) / 2 = ((e / 2 : Nat) : Int) := by norm_cast
      rw [tm, tm, e2]
      have hb' : b * b % m < m := Nat.mod_lt _ hmpos
      have hsq : (b * b % m) ^ (e / 2) ≡ (b * b) ^ (e / 2) [MOD m] :=
        Nat.ModEq.pow _ (Nat.mod_modEq _ _)
      by_cases hodd : (e : Int) % 2 = 1
      · rw [if_pos hodd, ih _ _ _ _ (by omega) (Nat.mod_lt _ hmpos) hb' hm]
        congr 2
        have hexp : b ^ e = b * (b * b) ^ (e / 2) := by
          have : e = 1 + 2 * (e / 2) := by omega
          conv_lhs => rw [this]
          rw [pow_add, pow_mul, pow_one, pow_two]
        rw [hexp, ← mul_assoc]
        exact Nat.ModEq.mul (Nat.mod_modEq _ _) hsq
      · rw [if_neg hodd, ih _ _ _ _ (by omega) hr hb' hm]
        congr 2
        have hexp : b ^ e = (b * b) ^ (e / 2) := by
          have : e = 2 * (e / 2) := by omega
          conv_lhs => rw [this]
          rw [pow_mul, pow_two]
        rw [hexp]
        exact Nat.ModEq.mul_left r hsq
    · rw [if_neg hpos]
      have : e = 0 := by omega
      subst this
      simp [Nat.mod_eq_of_lt hr]

/-- C11: fast exponentiation equals the reference. For every `base ≥ 0`, `exp ≥ 0` and modulus
with `2 ≤ mod ≤ 2 ^ 31`, `fastModularExponentiation base exp mod = base ^ exp mod mod`, and the
run with every product checked against the 64-bit range finishes with the same value, so no
product overflows. -/
theorem fastModularExponentiation_reference (base exp mod : Int) (hb : 0 ≤ base) (he : 0 ≤ exp)
    (h2 : 2 ≤ mod) (hm : mod ≤ 2 ^ 31) :
    fastModularExponentiation base exp mod = base ^ exp.toNat % mod ∧
      fastModularExponentiationChecked base exp mod = some (base ^ exp.toNat % mod) := by
  obtain ⟨B, rfl⟩ := Int.eq_ofNat_of_zero_le hb
  obtain ⟨E, rfl⟩ := Int.eq_ofNat_of_zero_le he
  obtain ⟨M, rfl⟩ := Int.eq_ofNat_of_zero_le (show 0 ≤ mod by omega)
  have hM2 : 2 ≤ M := by omega
  have hM : M ≤ 2 ^ 31 := by
    have : (M : Int) ≤ ((2 ^ 31 : Nat) : Int) := by push_cast; exact hm
    exact_mod_cast this
  have hval : (B : Int) ^ E % (M : Int) = ((B ^ E % M : Nat) : Int) := by
    rw [Int.natCast_mod, Nat.cast_pow]
  rw [Int.toNat_ofNat, hval]
  refine ⟨fastModularExponentiation_eq B E M hM2 hM, ?_⟩
  unfold fastModularExponentiationChecked
  have hbm : Int.tmod (B : Int) (M : Int) = ((B % M : Nat) : Int) := (Int.ofNat_tmod B M).symm
  rw [hbm, Int.toNat_ofNat]
  have := fastModExpChecked_spec (E + 1) 1 (B % M) E M (by omega) (by omega)
    (Nat.mod_lt _ (by omega)) hM
  rw [show ((1 : Nat) : Int) = 1 from rfl] at this
  rw [this, one_mul, ← Nat.pow_mod]

/-- C11, instance: `fastModularExponentiation 65 17 3233 = 2790`. -/
theorem fastModularExponentiation_reference_witness :
    (0 : Int) ≤ 65 ∧ (0 : Int) ≤ 17 ∧ (2 : Int) ≤ 3233 ∧ (3233 : Int) ≤ 2 ^ 31 ∧
      fastModularExponentiation 65 17 3233 = 2790 ∧
      (fastModularExponentiation 65 17 3233 = 65 ^ (17 : Int).toNat % 3233 ∧
        fastModularExponentiationChecked 65 17 3233 = some (65 ^ (17 : Int).toNat % 3233)) :=
  ⟨by decide, by decide, by decide, by decide, by decide,
    fastModularExponentiation_reference 65 17 3233 (by decide) (by decide) (by decide)
      (by decide)⟩

/-- C remainder of a non-positive dividend by a natural-number modulus. -/
theorem tmod_neg_natCast (x m : Nat) :
    Int.tmod (-(x : Int)) (m : Int) = -((x % m : Nat) : Int) := by
  rw [tmod_cases]
  by_cases hx : x = 0
  · subst hx; simp
  · rw [if_neg (by omega), neg_neg, Int.natCast_mod]

/-- A product with one negated residue, computed as in the loop. -/
theorem mulmod_neg (r b m : Nat) (hr : r < m) (hb : b < m) (hm : m ≤ 2 ^ 31) :
    Int.tmod (wrap64 (-(r : Int) * (b : Int))) (m : Int) = -((r * b % m : Nat) : Int) := by
  have h : r * b < 2 ^ 31 * 2 ^ 31 :=
    Nat.mul_lt_mul'' (lt_of_lt_of_le hr hm) (lt_of_lt_of_le hb hm)
  have h1 : ((r * b : Nat) : Int) < ((2 ^ 31 * 2 ^ 31 : Nat) : Int) := by exact_mod_cast h
  have h0 : (0 : Int) ≤ ((r * b : Nat) : Int) := Int.ofNat_nonneg _
  have e : -(r : Int) * (b : Int) = -((r * b : Nat) : Int) := by push_cast; ring
  rw [e]
  have hw : wrap64 (-((r * b : Nat) : Int)) = -((r * b : Nat) : Int) := by
    push_cast at h1
    unfold wrap64
    omega
  rw [hw, tmod_neg_natCast]

/-- With a negated running result and a non-negative base, the loop returns the negated
value. -/
theorem fastModExpLoop_neg (f : Nat) : ∀ (r b e m : Nat), e ≤ f → r < m → b < m → m ≤ 2 ^ 31 →
    fastModExpLoop f (-(r : Int)) b e m = -((r * b ^ e % m : Nat) : Int) := by
  induction f with
  | zero =>
    intro r b e m he hr hb hm
    have : e = 0 := by omega
    subst this
    unfold fastModExpLoop
    simp [Nat.mod_eq_of_lt hr]
  | succ f ih =>
    intro r b e m he hr hb hm
    unfold fastModExpLoop
    have hmpos : 0 < m := by omega
    by_cases hpos : (e : Int) > 0
    · rw [if_pos hpos]
      have e2 : (e : Int) / 2 = ((e / 2 : Nat) : Int) := by norm_cast
      simp only [mulmod_eq b b m hb hb hm, e2, mulmod_neg r b m hr hb hm]
      have hb' : b * b % m < m := Nat.mod_lt _ hmpos
      have hsq : (b * b % m) ^ (e / 2) ≡ (b * b) ^ (e / 2) [MOD m] :=
        Nat.ModEq.pow _ (Nat.mod_modEq _ _)
      by_cases hodd : (e : Int) % 2 = 1
      · rw [if_pos hodd, ih _ _ _ _ (by omega) (Nat.mod_lt _ hmpos) hb' hm]
        congr 2
        have hexp : b ^ e = b * (b * b) ^ (e / 2) := by
          have : e = 1 + 2 * (e / 2) := by omega
          conv_lhs => rw [this]
          rw [pow_add, pow_mul, pow_one, pow_two]
        rw [hexp, ← mul_assoc]
        exact Nat.ModEq.mul (Nat.mod_modEq _ _) hsq
      · rw [if_neg hodd, ih _ _ _ _ (by omega) hr hb' hm]
        congr 2
        have hexp : b ^ e = (b * b) ^ (e / 2) := by
          have : e = 2 * (e / 2) := by omega
          conv_lhs => rw [this]
          rw [pow_mul, pow_two]
        rw [hexp]
        exact Nat.ModEq.mul_left r hsq
    · rw [if_neg hpos]
      have : e = 0 := by omega
      subst this
      simp [Nat.mod_eq_of_lt hr]

/-- For a negative base the function returns the C remainder of the power: the negated residue
of `|base| ^ exp` for odd exponents, the residue itself for even ones. -/
theorem fastModularExponentiation_neg (B E M : Nat) (h2 : 2 ≤ M) (hm : M ≤ 2 ^ 31) :
    fastModularExponentiation (-(B : Int)) E M =
      if E % 2 = 1 then -((B ^ E % M : Nat) : Int) else ((B ^ E % M : Nat) : Int) := by
  unfold fastModularExponentiation
  rw [tmod_neg_natCast, Int.toNat_ofNat]
  have hmpos : 0 < M := by omega
  have hc : B % M < M := Nat.mod_lt _ hmpos
  cases E with
  | zero => simp [fastModExpLoop, Nat.mod_eq_of_lt (show 1 < M by omega)]
  | succ E' =>
    unfold fastModExpLoop
    rw [if_pos (by omega)]
    have e2 : (((E' + 1 : Nat) : Int)) / 2 = (((E' + 1) / 2 : Nat) : Int) := by norm_cast
    have hsqn : Int.tmod (wrap64 (-((B % M : Nat) : Int) * -((B % M : Nat) : Int))) (M : Int) =
        (((B % M) * (B % M) % M : Nat) : Int) := by
      rw [neg_mul_neg]; exact mulmod_eq _ _ M hc hc hm
    have hone : Int.tmod (wrap64 (1 * -((B % M : Nat) : Int))) (M : Int) =
        -((B % M : Nat) : Int) := by
      have := mulmod_neg (B % M) 1 M hc (by omega) hm
      rw [show ((1 : Nat) : Int) = 1 from rfl, mul_one, Nat.mul_one, Nat.mod_mod] at this
      rw [one_mul]
      rw [show -((B % M : Nat) : Int) = -((B % M : Nat) : Int) * 1 by ring]
      simpa using this
    simp only [hsqn, hone, e2]
    have hb' : (B % M) * (B % M) % M < M := Nat.mod_lt _ hmpos
    have hsq : ((B % M) * (B % M) % M) ^ ((E' + 1) / 2) ≡ (B * B) ^ ((E' + 1) / 2) [MOD M] :=
      Nat.ModEq.pow _ ((Nat.mod_modEq _ _).trans
        (Nat.ModEq.mul (Nat.mod_modEq _ _) (Nat.mod_modEq _ _)))
    by_cases hodd : (E' + 1) % 2 = 1
    · have hodd' : ((E' + 1 : Nat) : Int) % 2 = 1 := by omega
      rw [if_pos hodd', if_pos hodd, fastModExpLoop_neg E' _ _ _ M (by omega) hc hb' hm]
      congr 2
      have hexp : B ^ (E' + 1) = B * (B * B) ^ ((E' + 1) / 2) := by
        have : E' + 1 = 1 + 2 * ((E' + 1) / 2) := by omega
        conv_lhs => rw [this]
        rw [pow_add, pow_mul, pow_one, pow_two]
      rw [hexp]
      exact Nat.ModEq.mul (Nat.mod_modEq _ _) hsq
    · have hodd' : ¬ ((E' + 1 : Nat) : Int) % 2 = 1 := by omega
      rw [if_neg hodd', if_neg hodd]
      have := fastModExpLoop_spec E' 1 _ ((E' + 1) / 2) M (by omega) (by omega) hb' hm
      rw [show ((1 : Nat) : Int) = 1 from rfl] at this
      rw [this]
      congr 1
      have hexp : B ^ (E' + 1) = (B * B) ^ ((E' + 1) / 2) := by
        have : E' + 1 = 2 * ((E' + 1) / 2) := by omega
        conv_lhs => rw [this]
        rw [pow_mul, pow_two]
      rw [hexp, one_mul]
      exact hsq

/-- The C remainder of a power of a negated base. -/
theorem tmod_neg_pow (B E M : Nat) :
    Int.tmod ((-(B : Int)) ^ E) (M : Int) =
      if E % 2 = 1 then -((B ^ E % M : Nat) : Int) else ((B ^ E % M : Nat) : Int) := by
  by_cases hodd : E % 2 = 1
  · rw [if_pos hodd, Odd.neg_pow (Nat.odd_iff.mpr hodd)]
    rw [show (B : Int) ^ E = ((B ^ E : Nat) : Int) by push_cast; rfl]
    exact tmod_neg_natCast _ _
  · rw [if_neg hodd, Even.neg_pow (Nat.even_iff.mpr (by omega))]
    rw [show (B : Int) ^ E = ((B ^ E : Nat) : Int) by push_cast; rfl]
    exact (Int.ofNat_tmod _ _).symm

/-- C12 (as stated) fails: base `-2`, exponent 1, modulus 3 returns `-2`, which is not the least
non-negative residue 1 and not in `[0, 3)`. -/
theorem fastModularExponentiation_negative_base_fails :
    (-2 : Int) < 0 ∧ (0 : Int) ≤ 1 ∧ (2 : Int) ≤ 3 ∧ (3 : Int) ≤ 2 ^ 31 ∧
      fastModularExponentiation (-2) 1 3 = -2 ∧
      fastModularExponentiation (-2) 1 3 ≠ (-2) ^ 1 % 3 ∧
      ¬ (0 ≤ fastModularExponentiation (-2) 1 3) := by
  decide

/-- C12 (amended): for every negative base, every `exp ≥ 0` and every modulus with
`2 ≤ mod ≤ 2 ^ 31`, `fastModularExponentiation base exp mod` is the C++ truncating remainder of
`base ^ exp` by `mod`: it is congruent to `base ^ exp` modulo `mod` and lies strictly between
`-mod` and `mod`. -/
theorem fastModularExponentiation_negative_base (base exp mod : Int) (hb : base < 0)
    (he : 0 ≤ exp) (h2 : 2 ≤ mod) (hm : mod ≤ 2 ^ 31) :
    fastModularExponentiation base exp mod = Int.tmod (base ^ exp.toNat) mod ∧
      fastModularExponentiation base exp mod ≡ base ^ exp.toNat [ZMOD mod] ∧
      -mod < fastModularExponentiation base exp mod ∧
      fastModularExponentiation base exp mod < mod := by
  obtain ⟨B, hB⟩ := Int.eq_ofNat_of_zero_le (show 0 ≤ -base by omega)
  have hbase : base = -(B : Int) := by omega
  subst hbase
  obtain ⟨E, rfl⟩ := Int.eq_ofNat_of_zero_le he
  obtain ⟨M, rfl⟩ := Int.eq_ofNat_of_zero_le (show 0 ≤ mod by omega)
  have hM2 : 2 ≤ M := by omega
  have hM : M ≤ 2 ^ 31 := by
    have : (M : Int) ≤ ((2 ^ 31 : Nat) : Int) := by push_cast; exact hm
    exact_mod_cast this
  have heq : fastModularExponentiation (-(B : Int)) E M =
      Int.tmod ((-(B : Int)) ^ E) (M : Int) := by
    rw [fastModularExponentiation_neg B E M hM2 hM, tmod_neg_pow]
  rw [Int.toNat_ofNat, heq]
  refine ⟨rfl, ?_, ?_, ?_⟩
  · unfold Int.ModEq
    rw [Int.tmod_def, Int.sub_eq_add_neg, ← Int.mul_neg, Int.add_mul_emod_self_left]
  · rw [tmod_neg_pow]
    have := Nat.mod_lt (B ^ E) (show 0 < M by omega)
    split_ifs <;> omega
  · rw [tmod_neg_pow]
    have := Nat.mod_lt (B ^ E) (show 0 < M by omega)
    split_ifs <;> omega

/-- C12 (amended), instance: base `-2`, exponent 3, modulus 5 returns `-3`. -/
theorem fastModularExponentiation_negative_base_witness :
    (-2 : Int) < 0 ∧ (0 : Int) ≤ 3 ∧ (2 : Int) ≤ 5 ∧ (5 : Int) ≤ 2 ^ 31 ∧
      fastModularExponentiation (-2) 3 5 = -3 ∧
      (fastModularExponentiation (-2) 3 5 = Int.tmod ((-2) ^ (3 : Int).toNat) 5 ∧
        fastModularExponentiation (-2) 3 5 ≡ (-2) ^ (3 : Int).toNat [ZMOD 5] ∧
        -5 < fastModularExponentiation (-2) 3 5 ∧ fastModularExponentiation (-2) 3 5 < 5) :=
  ⟨by decide, by decide, by decide, by decide, by decide,
    fastModularExponentiation_negative_base (-2) 3 5 (by decide) (by decide) (by decide)
      (by decide)⟩

/-! ## Termination of the Euclidean recursions -/

/-- The recursion of `extendedGCD` finishes within `|a| + 1` calls, with the result of
`extendedGCDFuel`. -/
theorem extendedGCDWithin_eq (f : Nat) : ∀ (a b : Int), a.natAbs < f →
    extendedGCDWithin f a b = some (extendedGCDFuel f a b) := by
  induction f with
  | zero => intro a b h; omega
  | succ f ih =>
    intro a b h
    unfold extendedGCDWithin extendedGCDFuel
    by_cases ha : a = 0
    · simp [ha]
    · simp only [ha, if_false]
      have hlt : (Int.tmod b a).natAbs < a.natAbs := by
        rw [natAbs_tmod]
        exact Nat.mod_lt _ (Int.natAbs_pos.mpr ha)
      rw [ih (Int.tmod b a) a (by omega)]

/-- C13: Bézout identity. For all integers `a, b ≥ 0`, the recursion of `extendedGCD a b`
finishes (within `a + 1` calls) and returns `(g, x, y)` with `a * x + b * y = g` and `g` the
greatest common divisor of `a` and `b`; in particular `extendedGCD 0 b = (b, 0, 1)`. -/
theorem extendedGCD_bezout (a b : Int) (ha : 0 ≤ a) (hb : 0 ≤ b) :
    extendedGCDWithin (a.natAbs + 1) a b = some (extendedGCD a b) ∧
      a * (extendedGCD a b).2.1 + b * (extendedGCD a b).2.2 = (extendedGCD a b).1 ∧
      (extendedGCD a b).1 = Int.gcd a b ∧
      extendedGCD 0 b = (b, 0, 1) := by
  obtain ⟨A, rfl⟩ := Int.eq_ofNat_of_zero_le ha
  obtain ⟨B, rfl⟩ := Int.eq_ofNat_of_zero_le hb
  obtain ⟨h1, h2⟩ := extendedGCD_spec A B
  refine ⟨extendedGCDWithin_eq _ _ _ (Nat.lt_succ_self _), h2, ?_, ?_⟩
  · rw [h1, Int.gcd_natCast_natCast]
  · simp [extendedGCD, extendedGCDFuel]

/-- C13, instance: `extendedGCD 17 3120 = (1, -367, 2)`. -/
theorem extendedGCD_bezout_witness :
    (0 : Int) ≤ 17 ∧ (0 : Int) ≤ 3120 ∧ extendedGCD 17 3120 = (1, -367, 2) ∧
      (extendedGCDWithin ((17 : Int).natAbs + 1) 17 3120 = some (extendedGCD 17 3120) ∧
        17 * (extendedGCD 17 3120).2.1 + 3120 * (extendedGCD 17 3120).2.2 =
          (extendedGCD 17 3120).1 ∧
        (extendedGCD 17 3120).1 = Int.gcd 17 3120 ∧
        extendedGCD 0 3120 = (3120, 0, 1)) :=
  ⟨by decide, by decide, by decide,
    extendedGCD_bezout 17 3120 (by decide) (by decide)⟩

/-! ## Binary GCD against Euclid's algorithm -/

/-- Euclid's recursion on non-negative operands finishes within its fuel and returns the
greatest common divisor. -/
theorem gcdFuel_spec (f : Nat) : ∀ (a b : Nat), b < f →
    gcdFuel f a b = (Nat.gcd a b : Int) ∧ gcdWithin f a b = some (Nat.gcd a b : Int) := by
  induction f with
  | zero => intro a b h; omega
  | succ f ih =>
    intro a b h
    unfold gcdFuel gcdWithin
    by_cases hb : (b : Int) = 0
    · have : b = 0 := by exact_mod_cast hb
      subst this
      simp
    · rw [if_neg hb, if_neg hb]
      have hb0 : 0 < b := Nat.pos_of_ne_zero (fun h0 => hb (by simp [h0]))
      have hmod : Int.tmod (a : Int) (b : Int) = ((a % b : Nat) : Int) :=
        (Int.ofNat_tmod a b).symm
      rw [hmod]
      have hlt : a % b < f := by
        have := Nat.mod_lt a hb0
        omega
      obtain ⟨h1, h2⟩ := ih b (a % b) hlt
      rw [h1, h2]
      have : Nat.gcd b (a % b) = Nat.gcd a b := by
        rw [Nat.gcd_comm a b, Nat.gcd_rec b a, Nat.gcd_comm]
      rw [this]
      exact ⟨rfl, rfl⟩

/-- Euclid's `gcd` on non-negative operands. -/
theorem gcd_eq_gcd (a b : Nat) : gcd a b = (Nat.gcd a b : Int) := by
  unfold gcd
  exact (gcdFuel_spec _ a b (by simp)).1

/-- The common-factor loop ends by its condition within `a + 1` iterations. -/
theorem gcdShiftWithin_eq (f : Nat) : ∀ (g a b s : Nat), 0 < a → a < f → a ≤ g →
    gcdShiftWithin f a b s = some (gcdShiftLoop g a b s) := by
  induction f with
  | zero => intro g a b s h1 h2; omega
  | succ f ih =>
    intro g a b s ha hf hg
    obtain ⟨g0, rfl⟩ : ∃ g0, g = g0 + 1 := ⟨g - 1, by omega⟩
    unfold gcdShiftWithin gcdShiftLoop
    by_cases hc : (a : Int) % 2 = 0 ∧ (b : Int) % 2 = 0
    · rw [if_pos hc, if_pos hc]
      have e1 : (a : Int) / 2 = ((a / 2 : Nat) : Int) := by norm_cast
      have e2 : (b : Int) / 2 = ((b / 2 : Nat) : Int) := by norm_cast
      rw [e1, e2]
      exact ih g0 _ _ _ (by omega) (by omega) (by omega)
    · rw [if_neg hc, if_neg hc]

/-- The strip loop ends by its condition within `a + 1` iterations. -/
theorem gcdStripWithin_eq (f : Nat) : ∀ (g a : Nat), 0 < a → a < f → a ≤ g →
    gcdStripWithin f a = some (gcdStripLoop g a) := by
  induction f with
  | zero => intro g a h1 h2; omega
  | succ f ih =>
    intro g a ha hf hg
    obtain ⟨g0, rfl⟩ : ∃ g0, g = g0 + 1 := ⟨g - 1, by omega⟩
    unfold gcdStripWithin gcdStripLoop
    by_cases hc : (a : Int) % 2 = 0
    · rw [if_pos hc, if_pos hc]
      have e1 : (a : Int) / 2 = ((a / 2 : Nat) : Int) := by norm_cast
      rw [e1]
      exact ih g0 _ (by omega) (by omega) (by omega)
    · rw [if_neg hc, if_neg hc]

/-- The subtraction loop ends by its condition within `a + b + 1` iterations. -/
theorem gcdSubWithin_eq (f : Nat) : ∀ (g a b : Nat), a % 2 = 1 → 0 < b → a + b < f →
    a + b ≤ g → gcdSubWithin f a b = some (gcdSubLoop g a b) := by
  induction f with
  | zero => intro g a b h1 h2 h3; omega
  | succ f ih =>
    intro g a b ha hb hf hg
    obtain ⟨g0, rfl⟩ : ∃ g0, g = g0 + 1 := ⟨g - 1, by omega⟩
    unfold gcdSubWithin gcdSubLoop
    rw [Int.natAbs_ofNat, gcdStripWithin_eq (b + 1) b b hb (by omega) le_rfl]
    obtain ⟨b1, k, h1, h2, h3⟩ := gcdStripLoop_spec b b hb le_rfl
    rw [h1]
    have hb1le : b1 ≤ b := by
      rw [h2]; exact Nat.le_mul_of_pos_right _ (by positivity)
    simp only
    by_cases hc : (a : Int) > (b1 : Int)
    · have hc' : b1 < a := by exact_mod_cast hc
      simp only [hc, if_true]
      have e : (a : Int) - (b1 : Int) = ((a - b1 : Nat) : Int) := by
        rw [Nat.cast_sub hc'.le]
      rw [e]
      have hne : ((a - b1 : Nat) : Int) ≠ 0 := by
        have : 0 < a - b1 := by omega
        exact_mod_cast this.ne'
      rw [if_pos hne, if_pos hne]
      exact ih g0 b1 (a - b1) h3 (by omega) (by omega) (by omega)
    · have hc' : a ≤ b1 := by
        have : ¬ (b1 < a) := fun h => hc (by exact_mod_cast h)
        omega
      simp only [hc, if_false]
      have e : (b1 : Int) - (a : Int) = ((b1 - a : Nat) : Int) := by
        rw [Nat.cast_sub hc']
      rw [e]
      by_cases hz : b1 - a = 0
      · simp [hz]
      · have hne : ((b1 - a : Nat) : Int) ≠ 0 := by exact_mod_cast hz
        rw [if_pos hne, if_pos hne]
        exact ih g0 a (b1 - a) ha (by omega) (by omega) (by omega)

/-- Every loop of the binary GCD ends by its own condition on non-negative operands. -/
theorem gcdOptimizedWithin_eq (a b : Nat) :
    gcdOptimizedWithin a b = some (gcdOptimized a b) := by
  unfold gcdOptimizedWithin gcdOptimized
  by_cases ha : (a : Int) = 0
  · rw [if_pos ha, if_pos ha]
  · rw [if_neg ha, if_neg ha]
    by_cases hb : (b : Int) = 0
    · rw [if_pos hb, if_pos hb]
    · rw [if_neg hb, if_neg hb]
      have ha0 : 0 < a := Nat.pos_of_ne_zero (fun h => ha (by simp [h]))
      have hb0 : 0 < b := Nat.pos_of_ne_zero (fun h => hb (by simp [h]))
      rw [Int.natAbs_ofNat, gcdShiftWithin_eq (a + 1) a a b 0 ha0 (by omega) le_rfl]
      obtain ⟨a', b', k, h1, h2, h3, h4, h5, h6⟩ :=
        gcdShiftLoop_spec a a b 0 ha0 le_rfl hb0
      rw [h1]
      simp only [Int.natAbs_ofNat]
      rw [gcdStripWithin_eq (a' + 1) a' a' h4 (by omega) le_rfl]
      obtain ⟨a'', j, g1, g2, g3⟩ := gcdStripLoop_spec a' a' h4 le_rfl
      rw [g1]
      simp only [Int.natAbs_ofNat]
      rw [gcdSubWithin_eq (a'' + b' + 1) (a'' + b') a'' b' g3 h5 (by omega) le_rfl]

/-- C14: binary GCD agrees with Euclid. For all non-negative integers `a` and `b`, every loop
of `gcdOptimized a b` ends by its own condition, the recursion of the Euclidean `gcd a b` of the
original program reaches its base case, and the two results are equal (both are the greatest
common divisor); in particular `gcdOptimized a 0 = a` and `gcdOptimized 0 b = b`. -/
theorem gcdOptimized_refines_gcd (a b : Int) (ha : 0 ≤ a) (hb : 0 ≤ b) :
    gcdOptimizedWithin a b = some (gcdOptimized a b) ∧
      gcdWithin (b.natAbs + 1) a b = some (gcd a b) ∧
      gcdOptimized a b = gcd a b ∧
      gcdOptimized a b = Int.gcd a b ∧
      gcdOptimized a 0 = a ∧ gcdOptimized 0 b = b := by
  obtain ⟨A, rfl⟩ := Int.eq_ofNat_of_zero_le ha
  obtain ⟨B, rfl⟩ := Int.eq_ofNat_of_zero_le hb
  refine ⟨gcdOptimizedWithin_eq A B, ?_, ?_, ?_, ?_, ?_⟩
  · rw [gcd_eq_gcd, Int.natAbs_ofNat]
    exact (gcdFuel_spec (B + 1) A B (by omega)).2
  · rw [gcdOptimized_eq_gcd, gcd_eq_gcd]
  · rw [gcdOptimized_eq_gcd, Int.gcd_natCast_natCast]
  · have := gcdOptimized_eq_gcd A 0
    simpa using this
  · have := gcdOptimized_eq_gcd 0 B
    simpa using this

/-- C14, instance: `gcdOptimized 48 180 = gcd 48 180 = 12`. -/
theorem gcdOptimized_refines_gcd_witness :
    (0 : Int) ≤ 48 ∧ (0 : Int) ≤ 180 ∧ gcdOptimized 48 180 = 12 ∧ gcd 48 180 = 12 ∧
      (gcdOptimizedWithin 48 180 = some (gcdOptimized 48 180) ∧
        gcdWithin ((180 : Int).natAbs + 1) 48 180 = some (gcd 48 180) ∧
        gcdOptimized 48 180 = gcd 48 180 ∧
        gcdOptimized 48 180 = Int.gcd 48 180 ∧
        gcdOptimized 48 0 = 48 ∧ gcdOptimized 0 180 = 180) :=
  ⟨by decide, by decide, by decide, by decide,
    gcdOptimized_refines_gcd 48 180 (by decide) (by decide)⟩

/-! ## Playfair: contents and order of the key matrix -/

/-- C15: key-matrix invariant. For every seed key (any characters, any length, the empty key
included), the grid built by `generateKeyMatrixOptimized` has 25 cells, every cell holds an
upper-case letter (so all 25 cells were filled), each of the 25 upper-case letters other than
`J` occurs exactly once, and `J` does not occur. -/
theorem keyMatrix_invariant (key : List Nat) :
    (generateKeyMatrixOptimized key).length = 25 ∧
      (∀ c ∈ generateKeyMatrixOptimized key, 65 ≤ c ∧ c ≤ 90) ∧
      (∀ c, 65 ≤ c ∧ c ≤ 90 ∧ c ≠ 74 → (generateKeyMatrixOptimized key).count c = 1) ∧
      74 ∉ generateKeyMatrixOptimized key := by
  have hv := generateKeyMatrixOptimized_valid key
  obtain ⟨h1, h2, h3⟩ := hv
  refine ⟨h1, fun c hc => ⟨(h3 c hc).1, (h3 c hc).2.1⟩, ?_, fun h => (h3 74 h).2.2 rfl⟩
  intro c hc
  exact List.count_eq_one_of_mem h2 (mem_of_validKeyMatrix _ ⟨h1, h2, h3⟩ c hc)

/-- C15, instances: the empty key and the key `"MONARCHY"`, with the letter `A`. -/
theorem keyMatrix_invariant_witness :
    ((65 ≤ 65 ∧ 65 ≤ 90 ∧ 65 ≠ 74) ∧ (generateKeyMatrixOptimized []).count 65 = 1) ∧
      ((65 ≤ 65 ∧ 65 ≤ 90 ∧ 65 ≠ 74) ∧
        (generateKeyMatrixOptimized (bytes "MONARCHY")).count 65 = 1) :=
  ⟨⟨by decide, (keyMatrix_invariant []).2.2.1 65 (by decide)⟩,
    ⟨by decide, (keyMatrix_invariant (bytes "MONARCHY")).2.2.1 65 (by decide)⟩⟩

/-- A flag is clear exactly for the letters other than `J` that are not yet in the grid. -/
theorem used_false_iff (st : KeyMatrixState) (hinv : KeyMatrixInv st) (c : Nat)
    (hc : 65 ≤ c ∧ c ≤ 90) :
    st.used.getD (c - 65) false = false ↔ (c ≠ 74 ∧ c ∉ st.cells) := by
  obtain ⟨_, _, _, _, _, _, h7⟩ := hinv
  have hx := h7 (c - 65) (by omega)
  have e : c - 65 + 65 = c := by omega
  rw [e] at hx
  constructor
  · intro hu
    rw [hu] at hx
    refine ⟨?_, ?_⟩
    · intro h; exact absurd (hx.mpr (Or.inl (by omega))) (by simp)
    · intro h; exact absurd (hx.mpr (Or.inr h)) (by simp)
  · intro ⟨h1, h2⟩
    cases hu : st.used.getD (c - 65) false
    · rfl
    · rw [hu] at hx
      rcases hx.mp rfl with h | h
      · omega
      · exact absurd h h2

/-- The key loop places the placeable key letters in order of first occurrence. -/
theorem keyMatrix_foldl_cells (key : List Nat) : ∀ (st : KeyMatrixState), KeyMatrixInv st →
    (key.foldl keyMatrixKeyStep st).cells =
      (keyLettersPlaced key).foldl (fun acc c => if c ∈ acc then acc else acc ++ [c])
        st.cells := by
  induction key with
  | nil => intro st _; rfl
  | cons c cs ih =>
    intro st hinv
    rw [List.foldl_cons, ih _ (keyMatrixKeyStep_inv st hinv c)]
    unfold keyLettersPlaced
    rw [List.map_cons, List.filter_cons]
    unfold keyMatrixKeyStep
    simp only
    by_cases hal : isalpha (toupper c) = true
    · have hr := toupper_alpha c hal
      have hiff := used_false_iff st hinv (toupper c) hr
      by_cases hu : st.used.getD (toupper c - 65) false = false
      · obtain ⟨h74, hmem⟩ := hiff.mp hu
        obtain ⟨_, hcells, _⟩ := keyMatrixPut_inv st hinv _ hr hu
        simp only [hal, hu, Bool.not_false, Bool.and_self, if_true, h74, ne_eq,
          not_false_eq_true, decide_True, List.foldl_cons, hmem, if_false, hcells]
      · have hu' : st.used.getD (toupper c - 65) false = true := by
          cases h : st.used.getD (toupper c - 65) false
          · exact absurd h hu
          · rfl
        simp only [hal, hu', Bool.not_true, Bool.and_false, Bool.false_eq_true, if_false,
          Bool.true_and]
        by_cases h74 : toupper c = 74
        · simp [h74]
        · have hmem : toupper c ∈ st.cells := by
            by_contra hn
            exact hu (hiff.mpr ⟨h74, hn⟩)
          simp [h74, hmem]
    · have hal' : isalpha (toupper c) = false := by
        cases h : isalpha (toupper c)
        · rfl
        · exact absurd h hal
      simp [hal']

/-- The number of cells written so far. -/
theorem cells_length (st : KeyMatrixState) (hinv : KeyMatrixInv st) :
    st.cells.length = 5 * st.row + st.col := by
  obtain ⟨_, h2, _, h4, _⟩ := hinv
  unfold KeyMatrixState.cells
  rw [List.length_take]; omega

/-- The fill loop appends, in order, the visited letters other than `J` that are not yet in the
grid. -/
theorem keyMatrixFill_cells (cs : List Nat) : ∀ (st : KeyMatrixState), KeyMatrixInv st →
    cs.Nodup → (∀ c ∈ cs, 65 ≤ c ∧ c ≤ 90) →
    (keyMatrixFill cs st).cells =
      st.cells ++ cs.filter (fun c => decide (c ≠ 74) && decide (c ∉ st.cells)) := by
  induction cs with
  | nil => intro st _ _ _; simp [keyMatrixFill]
  | cons c cs ih =>
    intro st hinv hnd hcs
    have hc := hcs c (List.mem_cons_self _ _)
    have hcs' : ∀ c ∈ cs, 65 ≤ c ∧ c ≤ 90 := fun x hx => hcs x (List.mem_cons_of_mem _ hx)
    rw [List.nodup_cons] at hnd
    unfold keyMatrixFill
    by_cases hrow : st.row < 5
    · rw [if_pos hrow]
      have hiff := used_false_iff st hinv c hc
      by_cases hu : st.used.getD (c - 65) false = false
      · obtain ⟨h74, hmem⟩ := hiff.mp hu
        obtain ⟨pinv, hcells, _⟩ := keyMatrixPut_inv st hinv c hc hu
        simp only [hu, Bool.not_false, if_true]
        rw [ih _ pinv hnd.2 hcs', hcells, List.filter_cons]
        simp only [h74, ne_eq, not_false_eq_true, decide_True, hmem, Bool.and_self, if_true,
          List.append_assoc, List.singleton_append]
        congr 2
        apply List.filter_congr
        intro x hx
        have hxc : x ≠ c := fun h => hnd.1 (h ▸ hx)
        simp [hxc]
      · have hu' : st.used.getD (c - 65) false = true := by
          cases h : st.used.getD (c - 65) false
          · exact absurd h hu
          · rfl
        simp only [hu', Bool.not_true, Bool.false_eq_true, if_false]
        rw [ih _ hinv hnd.2 hcs', List.filter_cons]
        have hcond : (decide (c ≠ 74) && decide (c ∉ st.cells)) = false := by
          by_contra hne
          simp only [Bool.not_eq_false, Bool.and_eq_true, decide_eq_true_eq] at hne
          exact hu (hiff.mpr hne)
        rw [hcond]
        rfl
    · rw [if_neg hrow]
      have hlen := cells_length st hinv
      obtain ⟨h1, h2, h3, h4, h5, h6, h7⟩ := hinv
      have hvalid : ValidKeyMatrix st.cells := ⟨by omega, h5, h6⟩
      have hnil : (c :: cs).filter (fun c => decide (c ≠ 74) && decide (c ∉ st.cells)) = [] := by
        rw [List.filter_eq_nil_iff]
        intro x hx
        have hxr := hcs x hx
        simp only [Bool.and_eq_true, decide_eq_true_eq, not_and, not_not]
        intro h74
        exact mem_of_validKeyMatrix _ hvalid x ⟨hxr.1, hxr.2, h74⟩
      rw [hnil, List.append_nil]

/-- After the fill loop has visited `A` to `Z`, the whole grid has been written. -/
theorem keyMatrixFill_full (st : KeyMatrixState) (hinv : KeyMatrixInv st) :
    (keyMatrixFill upperLetters st).keyMatrix = (keyMatrixFill upperLetters st).cells := by
  obtain ⟨finv, hend⟩ := keyMatrixFill_inv upperLetters st hinv
    (fun c hc => (mem_upperLetters c).mp hc)
  have hlen := cells_length _ finv
  obtain ⟨h1, h2, h3, h4, h5, h6, h7⟩ := finv
  have hfull : 5 * (keyMatrixFill upperLetters st).row + (keyMatrixFill upperLetters st).col
      = 25 := by
    rcases hend with hrow | ⟨hall, _⟩
    · omega
    · have hsub : upperLetters.filter (fun c => decide (c ≠ 74)) ⊆
          (keyMatrixFill upperLetters st).cells := by
        intro c hc
        rw [List.mem_filter] at hc
        obtain ⟨hc1, hc2⟩ := hc
        have hr := (mem_upperLetters c).mp hc1
        have := (h7 (c - 65) (by omega)).mp (hall c hc1)
        have hne : c ≠ 74 := by simpa using hc2
        rcases this with h | h
        · omega
        · have e : c - 65 + 65 = c := by omega
          rw [e] at h; exact h
      have hnd : (upperLetters.filter (fun c => decide (c ≠ 74))).Nodup :=
        upperLetters_nodup.filter _
      have hle := (List.subperm_of_subset hnd hsub).length_le
      have h25 : (upperLetters.filter (fun c => decide (c ≠ 74))).length = 25 := by decide
      omega
  unfold KeyMatrixState.cells
  rw [hfull, ← h2, List.take_length]

/-- The grid built from any seed key, read row by row: the placeable key letters in order of
first occurrence, then the remaining letters other than `J` in alphabetical order. -/
theorem generateKeyMatrixOptimized_order (key : List Nat) :
    generateKeyMatrixOptimized key =
      firstOccurrences (keyLettersPlaced key) ++
        upperLetters.filter (fun c =>
          decide (c ≠ 74) && decide (c ∉ firstOccurrences (keyLettersPlaced key))) := by
  unfold generateKeyMatrixOptimized
  simp only
  have hinv := keyMatrix_foldl_inv key _ keyMatrixInv_init
  rw [keyMatrixFill_full _ hinv, keyMatrixFill_cells _ _ hinv upperLetters_nodup
    (fun c hc => (mem_upperLetters c).mp hc), keyMatrix_foldl_cells key _ keyMatrixInv_init]
  rfl

/-- For a key without `J` and `j`, the letters the code can place are the letters as the
specification reads them. -/
theorem keyLetters_eq_placed (key : List Nat) (h : ∀ c ∈ key, c ≠ 74 ∧ c ≠ 106) :
    keyLetters key = keyLettersPlaced key := by
  unfold keyLetters keyLettersPlaced
  have hne : ∀ c ∈ key.map toupper, c ≠ 74 := by
    intro c hc
    rw [List.mem_map] at hc
    obtain ⟨x, hx, rfl⟩ := hc
    obtain ⟨h1, h2⟩ := h x hx
    unfold toupper islower
    simp only [Bool.and_eq_true, decide_eq_true_eq]
    split_ifs <;> omega
  have h1 : (key.map toupper).filter (fun c => isalpha c && decide (c ≠ 74)) =
      (key.map toupper).filter isalpha := by
    apply List.filter_congr
    intro c hc
    simp [hne c hc]
  rw [h1]
  conv_rhs => rw [← List.map_id ((key.map toupper).filter isalpha)]
  apply List.map_congr_left
  intro c hc
  have := hne c (List.mem_of_mem_filter hc)
  simp [this]

/-- Removing `J` and `j` from a key does not change the letters the code can place. -/
theorem keyLettersPlaced_filter (key : List Nat) :
    keyLettersPlaced (key.filter (fun c => decide (c ≠ 74) && decide (c ≠ 106))) =
      keyLettersPlaced key := by
  unfold keyLettersPlaced
  induction key with
  | nil => rfl
  | cons c cs ih =>
    by_cases hc : c = 74 ∨ c = 106
    · have h1 : (decide (c ≠ 74) && decide (c ≠ 106)) = false := by
        rcases hc with h | h <;> simp [h]
      have h2 : (isalpha (toupper c) && decide (toupper c ≠ 74)) = false := by
        rcases hc with h | h <;> subst h <;> decide
      rw [List.filter_cons, h1, List.map_cons, List.filter_cons, h2]
      exact ih
    · have h1 : (decide (c ≠ 74) && decide (c ≠ 106)) = true := by
        simp only [not_or] at hc
        simp [hc.1, hc.2]
      rw [List.filter_cons, h1]
      simp only [if_true, List.map_cons, List.filter_cons]
      rw [ih]

/-- C16: key-matrix order. For every seed key without `J` and `j`, the grid produced by
`generateKeyMatrixOptimized`, read row by row, is the reference of the specification: the
key's letters upper-cased with non-letters dropped (and `J` mapped to `I`), in order of first
occurrence, followed by the unused letters of `A`-`Z` without `J` in alphabetical order; the
key `"MONARCHY"` gives `MONAR / CHYBD / EFGIK / LPQST / UVWXZ`. For the key `"J"` the code
departs from the reference: the reference starts with `I`, the code's grid with `A`. -/
theorem keyMatrix_order :
    (∀ key : List Nat, (∀ c ∈ key, c ≠ 74 ∧ c ≠ 106) →
        generateKeyMatrixOptimized key = keyMatrixReference key) ∧
      generateKeyMatrixOptimized (bytes "MONARCHY") = bytes "MONARCHYBDEFGIKLPQSTUVWXZ" ∧
      keyMatrixReference (bytes "J") = bytes "IABCDEFGHKLMNOPQRSTUVWXYZ" ∧
      generateKeyMatrixOptimized (bytes "J") = bytes "ABCDEFGHIKLMNOPQRSTUVWXYZ" ∧
      generateKeyMatrixOptimized (bytes "J") ≠ keyMatrixReference (bytes "J") := by
  refine ⟨?_, by decide, by decide, by decide, by decide⟩
  intro key h
  rw [generateKeyMatrixOptimized_order, keyMatrixReference, keyLetters_eq_placed key h]

/-- C16, instance: the key `"MONARCHY"`, which has no `J`. -/
theorem keyMatrix_order_witness :
    (∀ c ∈ bytes "MONARCHY", c ≠ 74 ∧ c ≠ 106) ∧
      generateKeyMatrixOptimized (bytes "MONARCHY") = keyMatrixReference (bytes "MONARCHY") :=
  ⟨by decide, keyMatrix_order.1 (bytes "MONARCHY") (by decide)⟩

/-- C17: `J` and `I` in the seed key. The code does not treat a `J` of the key as an `I`: the
keys `"JAM"` and `"IAM"` give different grids (`AMBCD...` and `IAMBC...`). In general a `J` or
`j` of the key is skipped: every key gives the grid of the key with `J` and `j` removed. -/
theorem keyMatrix_key_J_dropped :
    generateKeyMatrixOptimized (bytes "JAM") = bytes "AMBCDEFGHIKLNOPQRSTUVWXYZ" ∧
      generateKeyMatrixOptimized (bytes "IAM") = bytes "IAMBCDEFGHKLNOPQRSTUVWXYZ" ∧
      generateKeyMatrixOptimized (bytes "JAM") ≠ generateKeyMatrixOptimized (bytes "IAM") ∧
      ∀ key : List Nat, generateKeyMatrixOptimized key =
        generateKeyMatrixOptimized (key.filter (fun c => decide (c ≠ 74) && decide (c ≠ 106))) := by
  refine ⟨by decide, by decide, by decide, ?_⟩
  intro key
  rw [generateKeyMatrixOptimized_order, generateKeyMatrixOptimized_order,
    keyLettersPlaced_filter]

/-- C18 (as stated) fails: with the matrix of the key `"MONARCHY"`, `"INSTRUMENTS"` does not
encrypt to `"GATLMZCLRQTX"`. -/
theorem playfair_vector_fails :
    playfairEncryptOptimized (bytes "INSTRUMENTS")
        (generateKeyMatrixOptimized (bytes "MONARCHY")) ≠ some (bytes "GATLMZCLRQTX") := by
  decide

/-- C18 (amended): with the matrix of the key `"MONARCHY"`, `"INSTRUMENTS"` is prepared to
`"INSTRUMENTSX"` (the filler of an odd-length text is `X`) and encrypts to `"GATLMZCLRQXA"`. -/
theorem playfair_vector :
    prepareTextOptimized (bytes "INSTRUMENTS") = some (bytes "INSTRUMENTSX") ∧
      playfairEncryptOptimized (bytes "INSTRUMENTS")
        (generateKeyMatrixOptimized (bytes "MONARCHY")) = some (bytes "GATLMZCLRQXA") := by
  decide

/-! ## Rail fence: the closed form of the zigzag -/

/-- The successor of a residue. -/
theorem succ_mod_cases (i P : Nat) (hP : 0 < P) :
    (i + 1) % P = if i % P + 1 = P then 0 else i % P + 1 := by
  have hlt := Nat.mod_lt i hP
  rw [Nat.add_mod]
  split_ifs with h
  · rcases Nat.lt_or_ge 1 P with h1 | h1
    · rw [Nat.mod_eq_of_lt h1, h, Nat.mod_self]
    · have : P = 1 := by omega
      subst this; omega
  · have h1 : 1 < P := by omega
    rw [Nat.mod_eq_of_lt h1, Nat.mod_eq_of_lt (by omega)]

/-- The closed form follows the walk: one step of the state machine leads from the state of
position `i` to the state of position `i + 1`. -/
theorem railRow_step (key i : Nat) (hk : 2 ≤ key) :
    ((railRow key (i + 1) : Nat) : Int) = (railRow key i : Int) + railDirection key i ∧
      railTurn (key : Int) ((railRow key i : Int) + railDirection key i) (railDirection key i) =
        railDirection key (i + 1) := by
  have hP : 0 < 2 * (key - 1) := by omega
  have hs := succ_mod_cases i (2 * (key - 1)) hP
  have hlt := Nat.mod_lt i hP
  unfold railRow railDirection railTurn
  rw [hs]
  generalize i % (2 * (key - 1)) = j at *
  constructor
  · split_ifs <;> omega
  · split_ifs <;> omega

/-- The state of position 0 is the initial state of the walk. -/
theorem railRow_zero (key : Nat) (hk : 2 ≤ key) :
    ((railRow key 0 : Nat) : Int) = 0 ∧ railDirection key 0 = 1 := by
  unfold railRow railDirection
  simp only [Nat.zero_mod]
  constructor
  · rw [if_pos (by omega)]; rfl
  · rw [if_pos (by omega)]

/-- The characters on one row, for a text with a first character. -/
theorem railRowChars_cons (key offset ch : Nat) (rest : List Nat) (r : Nat) :
    railRowChars key offset (ch :: rest) r =
      (if railRow key offset = r then [ch] else []) ++ railRowChars key (offset + 1) rest r := by
  unfold railRowChars
  rw [List.length_cons, List.range_succ_eq_map, List.filterMap_cons, List.filterMap_map]
  have h0 : (if railRow key (offset + 0) = r then (ch :: rest).get? 0 else none) =
      if railRow key offset = r then some ch else none := by
    simp
  rw [h0]
  have hf : ((fun i => if railRow key (offset + i) = r then (ch :: rest).get? i else none) ∘
      Nat.succ) = (fun i => if railRow key (offset + 1 + i) = r then rest.get? i else none) := by
    funext i
    simp only [Function.comp, Nat.succ_eq_add_one, List.get?_cons_succ]
    rw [show offset + (i + 1) = offset + 1 + i by omega]
  rw [hf]
  split_ifs <;> rfl

/-- The share of a rail computed by the walk is the set of characters whose closed-form row is
that rail. -/
theorem railShare_eq_rowChars (key : Nat) (hk : 2 ≤ key) (text : List Nat) :
    ∀ (offset r : Nat),
      railShare (key : Int) text (railRow key offset : Int) (railDirection key offset) r =
        railRowChars key offset text r := by
  induction text with
  | nil => intro offset r; rfl
  | cons ch rest ih =>
    intro offset r
    obtain ⟨h1, h2⟩ := railRow_step key offset hk
    rw [railRowChars_cons]
    unfold railShare
    rw [h2, ← h1, ih (offset + 1) r, Int.toNat_ofNat]

/-- A list of rails is the list of its entries. -/
theorem map_getD_range_rails (rail : List (List Nat)) :
    (List.range rail.length).map (fun r => rail.getD r []) = rail := by
  apply List.ext_getElem
  · simp
  · intro i h1 h2
    simp only [List.getElem_map, List.getElem_range, List.getD_eq_getElem?_getD,
      List.getElem?_eq_getElem h2, Option.getD_some]

/-- Appending one character to a rail permutes it to the end of the concatenation. -/
theorem flatten_set_perm (rail : List (List Nat)) : ∀ (r : Nat) (ch : Nat), r < rail.length →
    List.Perm (rail.set r (rail.getD r [] ++ [ch])).flatten (rail.flatten ++ [ch]) := by
  induction rail with
  | nil => intro r ch h; simp at h
  | cons a l ih =>
    intro r ch h
    cases r with
    | zero =>
      simp only [List.set_cons_zero, List.getD_cons_zero, List.flatten_cons, List.append_assoc]
      exact List.Perm.append_left a List.perm_append_comm
    | succ r =>
      have h' : r < l.length := by simpa using h
      simp only [List.set_cons_succ, List.getD_cons_succ, List.flatten_cons, List.append_assoc]
      exact List.Perm.append_left a (ih r ch h')

/-- The concatenated rails after the encryption loop are a permutation of the old contents
followed by the text. -/
theorem railfenceEncLoop_perm (key : Int) (hk : 2 ≤ key) (text : List Nat) :
    ∀ (rail : List (List Nat)) (row direction : Int),
      RailInv key row direction → rail.length = key.toNat →
      List.Perm (railfenceEncLoop key text rail row direction).flatten
        (rail.flatten ++ text) := by
  induction text with
  | nil => intro rail row direction _ _; simp [railfenceEncLoop]
  | cons ch rest ih =>
    intro rail row direction hinv hlen
    unfold railfenceEncLoop
    have hr : row.toNat < rail.length := by
      unfold RailInv at hinv; omega
    simp only
    refine (ih _ _ _ (railInv_step key row direction hk hinv) (by simp [hlen])).trans ?_
    have := (flatten_set_perm rail _ ch hr).append_right rest
    simpa using this

/-- C19: rail fence encryption equals the zigzag reference. For every `key ≥ 2` and every text,
`railfenceEncryptOptimized text key` is the concatenation, for `r = 0, 1, ..., key - 1`, of the
characters `text[i]`, in increasing `i`, whose row `railRow key i` is `r`; the output is a
permutation of the text and has its length. -/
theorem railfence_reference (text : List Nat) (key : Int) (hk : 2 ≤ key) :
    railfenceEncryptOptimized text key = railfenceReference text key.toNat ∧
      List.Perm (railfenceEncryptOptimized text key) text ∧
      (railfenceEncryptOptimized text key).length = text.length := by
  obtain ⟨k, rfl⟩ := Int.eq_ofNat_of_zero_le (show 0 ≤ key by omega)
  have hk2 : 2 ≤ k := by omega
  rw [Int.toNat_ofNat]
  have hk1 : ¬ (k : Int) ≤ 1 := by omega
  have hinv := railInv_start (k : Int) hk
  by_cases ht : text = []
  · subst ht
    have href : railfenceReference [] k = [] := by
      unfold railfenceReference railRowChars
      simp
    rw [href]
    unfold railfenceEncryptOptimized
    simp [hk1]
  · have hte : text.isEmpty = false := by cases text <;> simp_all
    have hE : railfenceEncryptOptimized text k =
        (railfenceEncLoop k text (List.replicate k []) 0 1).flatten := by
      unfold railfenceEncryptOptimized
      simp [hk1, hte]
    have hlenE : (railfenceEncLoop (k : Int) text (List.replicate k []) 0 1).length = k := by
      rw [railfenceEncLoop_length]; simp
    refine ⟨?_, ?_, ?_⟩
    · rw [hE, railfenceReference]
      congr 1
      conv_lhs => rw [← map_getD_range_rails (railfenceEncLoop (k : Int) text _ 0 1), hlenE]
      apply List.map_congr_left
      intro r hr
      rw [List.mem_range] at hr
      rw [railfenceEncLoop_getD (k : Int) hk text _ _ _ r hinv (by simp)]
      obtain ⟨z1, z2⟩ := railRow_zero k hk2
      rw [← z1, ← z2, railShare_eq_rowChars k hk2 text 0 r]
      simp [List.getD_eq_getElem?_getD, hr]
    · rw [hE]
      have := railfenceEncLoop_perm (k : Int) hk text (List.replicate k []) 0 1 hinv (by simp)
      simpa using this
    · rw [hE, railfenceEncLoop_flatten_length (k : Int) hk text _ _ _ hinv (by simp)]
      simp

/-- C19, instance: key 3 on `"WEAREDISCOVEREDFLEEATONCE"` gives
`"WECRLTEERDSOEEFEAOCAIVDEN"`. -/
theorem railfence_reference_witness :
    (2 : Int) ≤ 3 ∧
      railfenceEncryptOptimized (bytes "WEAREDISCOVEREDFLEEATONCE") 3 =
        bytes "WECRLTEERDSOEEFEAOCAIVDEN" ∧
      (railfenceEncryptOptimized (bytes "WEAREDISCOVEREDFLEEATONCE") 3 =
          railfenceReference (bytes "WEAREDISCOVEREDFLEEATONCE") (3 : Int).toNat ∧
        List.Perm (railfenceEncryptOptimized (bytes "WEAREDISCOVEREDFLEEATONCE") 3)
          (bytes "WEAREDISCOVEREDFLEEATONCE") ∧
        (railfenceEncryptOptimized (bytes "WEAREDISCOVEREDFLEEATONCE") 3).length =
          (bytes "WEAREDISCOVEREDFLEEATONCE").length) :=
  ⟨by decide, by decide,
    railfence_reference (bytes "WEAREDISCOVEREDFLEEATONCE") 3 (by decide)⟩

/-! ## Caesar: the reference of the specification -/

/-- C20: Caesar encryption equals the reference. For every text and every integer shift
(negative or above 26 included), with `s = ((shift % 26) + 26) % 26` computed with the C
remainder (so `0 ≤ s < 26` and `s` is the least non-negative residue of `shift`),
`caesarEncryptOptimized text shift` has the length of the text, and at every position: a
non-letter is unchanged, an upper-case letter with alphabet index `x` becomes the upper-case
letter with index `(x + s) mod 26`, and a lower-case letter with index `x` becomes the
lower-case letter with index `(x + s) mod 26`. -/
theorem caesar_reference (text : List Nat) (shift : Int) :
    (0 ≤ Int.tmod (Int.tmod shift 26 + 26) 26 ∧ Int.tmod (Int.tmod shift 26 + 26) 26 < 26 ∧
      Int.tmod (Int.tmod shift 26 + 26) 26 = shift % 26) ∧
      (caesarEncryptOptimized text shift).length = text.length ∧
      ∀ i, i < text.length →
        (isalpha (text.getD i 0) = false →
          (caesarEncryptOptimized text shift).getD i 0 = text.getD i 0) ∧
        (65 ≤ text.getD i 0 ∧ text.getD i 0 ≤ 90 →
          (caesarEncryptOptimized text shift).getD i 0 =
            65 + (text.getD i 0 - 65 + (Int.tmod (Int.tmod shift 26 + 26) 26).toNat) % 26) ∧
        (97 ≤ text.getD i 0 ∧ text.getD i 0 ≤ 122 →
          (caesarEncryptOptimized text shift).getD i 0 =
            97 + (text.getD i 0 - 97 + (Int.tmod (Int.tmod shift 26 + 26) 26).toNat) % 26) := by
  have hn := caesar_normalise shift
  have hs0 : 0 ≤ Int.tmod (Int.tmod shift 26 + 26) 26 := by rw [hn]; omega
  refine ⟨⟨hs0, by rw [hn]; omega, hn⟩, ?_, ?_⟩
  · unfold caesarEncryptOptimized
    split_ifs
    · rfl
    · simp
  · intro i hi
    have hget : (caesarEncryptOptimized text shift).getD i 0 =
        caesarChar (Int.tmod (Int.tmod shift 26 + 26) 26) (text.getD i 0) := by
      unfold caesarEncryptOptimized
      have hne : text.isEmpty = false := by cases text <;> simp_all
      simp only [hne, Bool.false_eq_true, if_false, List.getD_eq_getElem?_getD,
        List.getElem?_map, List.getElem?_eq_getElem hi, Option.map_some', Option.getD_some]
    rw [hget, caesarChar_eq _ hs0]
    refine ⟨?_, ?_, ?_⟩
    · intro hal
      simp only [isalpha, Bool.or_eq_false_iff, Bool.and_eq_false_iff, decide_eq_false_iff_not]
        at hal
      split_ifs <;> omega
    · intro hU
      rw [if_pos hU]
    · intro hL
      rw [if_neg (by omega), if_pos hL]

/-- C20, instance: `"Hello, World!"` with shift `-23`, whose normalised shift is 3, gives
`"Khoor, Zruog!"`; position 0 holds an upper-case letter, position 5 a non-letter and
position 1 a lower-case letter. -/
theorem caesar_reference_witness :
    caesarEncryptOptimized (bytes "Hello, World!") (-23) = bytes "Khoor, Zruog!" ∧
      (0 < (bytes "Hello, World!").length ∧ 65 ≤ (bytes "Hello, World!").getD 0 0 ∧
        (bytes "Hello, World!").getD 0 0 ≤ 90 ∧
        (caesarEncryptOptimized (bytes "Hello, World!") (-23)).getD 0 0 =
          65 + ((bytes "Hello, World!").getD 0 0 - 65 +
            (Int.tmod (Int.tmod (-23) 26 + 26) 26).toNat) % 26) ∧
      (5 < (bytes "Hello, World!").length ∧ isalpha ((bytes "Hello, World!").getD 5 0) = false ∧
        (caesarEncryptOptimized (bytes "Hello, World!") (-23)).getD 5 0 =
          (bytes "Hello, World!").getD 5 0) ∧
      (1 < (bytes "Hello, World!").length ∧ 97 ≤ (bytes "Hello, World!").getD 1 0 ∧
        (bytes "Hello, World!").getD 1 0 ≤ 122 ∧
        (caesarEncryptOptimized (bytes "Hello, World!") (-23)).getD 1 0 =
          97 + ((bytes "Hello, World!").getD 1 0 - 97 +
            (Int.tmod (Int.tmod (-23) 26 + 26) 26).toNat) % 26) :=
  ⟨by decide,
    ⟨by decide, by decide, by decide,
      ((caesar_reference (bytes "Hello, World!") (-23)).2.2 0 (by decide)).2.1
        ⟨by decide, by decide⟩⟩,
    ⟨by decide, by decide,
      ((caesar_reference (bytes "Hello, World!") (-23)).2.2 5 (by decide)).1 (by decide)⟩,
    ⟨by decide, by decide, by decide,
      ((caesar_reference (bytes "Hello, World!") (-23)).2.2 1 (by decide)).2.2
        ⟨by decide, by decide⟩⟩⟩

/-! ## Vigenère: the reference of the specification -/

/-- The shift of a letter key character is its alphabet index, whatever its case. -/
theorem vigenereShift_eq_letterIndex (k : Nat) (hk : isalpha k = true) :
    vigenereShift k = (letterIndex k : Int) ∧ letterIndex k < 26 := by
  simp only [isalpha, Bool.or_eq_true, Bool.and_eq_true, decide_eq_true_eq] at hk
  simp only [vigenereShift, letterIndex, islower, Bool.and_eq_true, decide_eq_true_eq, charToInt,
    intToChar]
  split_ifs <;> omega

/-- Length of the Vigenère ciphertext. -/
theorem vigenereEncryptOptimized_length (t k : List Nat) :
    (vigenereEncryptOptimized t k).length = t.length := by
  unfold vigenereEncryptOptimized
  split_ifs
  · rfl
  · simp

/-- Character `i` of the Vigenère ciphertext for a non-empty key. -/
theorem vigenereEncryptOptimized_getD (t k : List Nat) (hk : k ≠ []) (i : Nat)
    (hi : i < t.length) :
    (vigenereEncryptOptimized t k).getD i 0 =
      vigenereEncChar (t.getD i 0) (k.getD (i % k.length) 0) := by
  have ht : t ≠ [] := by
    intro h; subst h; simp at hi
  have hke : k.isEmpty = false := by cases k <;> simp_all
  have hte : t.isEmpty = false := by cases t <;> simp_all
  unfold vigenereEncryptOptimized
  simp only [hte, hke, Bool.or_self, Bool.false_eq_true, if_false]
  rw [List.getD_eq_getElem?_getD, List.getElem?_map, List.getElem?_range hi]
  simp only [Option.map_some', Option.getD_some]
  rw [generateKeyOptimized_getD t k ht hk i hi]

/-- The key character used at position `i` is a letter when the key consists of letters. -/
theorem key_getD_letter (k : List Nat) (hk : k ≠ []) (hl : ∀ c ∈ k, isalpha c = true)
    (i : Nat) : isalpha (k.getD (i % k.length) 0) = true := by
  have hpos : 0 < k.length := List.length_pos.mpr hk
  have hlt : i % k.length < k.length := Nat.mod_lt _ hpos
  rw [List.getD_eq_getElem?_getD, List.getElem?_eq_getElem hlt]
  exact hl _ (List.getElem_mem _)

/-- One character encrypted with a letter key character, spelled out. -/
theorem vigenereEncChar_letter (p k : Nat) (hk : isalpha k = true) :
    vigenereEncChar p k =
      if 65 ≤ p ∧ p ≤ 90 then 65 + (p - 65 + letterIndex k) % 26
      else if 97 ≤ p ∧ p ≤ 122 then 97 + (p - 97 + letterIndex k) % 26
      else p := by
  obtain ⟨h1, _⟩ := vigenereShift_eq_letterIndex k hk
  rw [vigenereEncChar_eq, h1, caesarChar_eq _ (Int.ofNat_nonneg _), Int.toNat_ofNat]

/-- C21: Vigenère encryption equals the reference. For every text and every non-empty key made
only of ASCII letters, `vigenereEncryptOptimized text key` has the length of the text; its
character `i` is `text[i]` when `text[i]` is not a letter, and otherwise the letter of the case
of `text[i]` with alphabet index `(index text[i] + index key[i mod |key|]) mod 26`, the key index
being taken without regard to the case of the key letter. The key position is the text position
`i`, so it advances on non-letters too. -/
theorem vigenere_reference (text key : List Nat) (hk : key ≠ [])
    (hl : ∀ c ∈ key, isalpha c = true) :
    (vigenereEncryptOptimized text key).length = text.length ∧
      ∀ i, i < text.length →
        (isalpha (text.getD i 0) = false →
          (vigenereEncryptOptimized text key).getD i 0 = text.getD i 0) ∧
        (65 ≤ text.getD i 0 ∧ text.getD i 0 ≤ 90 →
          (vigenereEncryptOptimized text key).getD i 0 =
            65 + (text.getD i 0 - 65 + letterIndex (key.getD (i % key.length) 0)) % 26) ∧
        (97 ≤ text.getD i 0 ∧ text.getD i 0 ≤ 122 →
          (vigenereEncryptOptimized text key).getD i 0 =
            97 + (text.getD i 0 - 97 + letterIndex (key.getD (i % key.length) 0)) % 26) := by
  refine ⟨vigenereEncryptOptimized_length text key, ?_⟩
  intro i hi
  rw [vigenereEncryptOptimized_getD text key hk i hi,
    vigenereEncChar_letter _ _ (key_getD_letter key hk hl i)]
  refine ⟨?_, ?_, ?_⟩
  · intro hal
    simp only [isalpha, Bool.or_eq_false_iff, Bool.and_eq_false_iff, decide_eq_false_iff_not]
      at hal
    split_ifs <;> omega
  · intro hU
    rw [if_pos hU]
  · intro hL
    rw [if_neg (by omega), if_pos hL]

/-- C21, instance: `"HELLO"` with key `"KEY"` gives `"RIJVS"`; and in `"a b"` with key `"Bc"`
the space at position 1 is unchanged while position 2 uses the key letter of position
`2 mod 2 = 0`. -/
theorem vigenere_reference_witness :
    vigenereEncryptOptimized (bytes "HELLO") (bytes "KEY") = bytes "RIJVS" ∧
      (bytes "KEY" ≠ [] ∧ (∀ c ∈ bytes "KEY", isalpha c = true) ∧
        0 < (bytes "HELLO").length ∧
        65 ≤ (bytes "HELLO").getD 0 0 ∧ (bytes "HELLO").getD 0 0 ≤ 90 ∧
        (vigenereEncryptOptimized (bytes "HELLO") (bytes "KEY")).getD 0 0 =
          65 + ((bytes "HELLO").getD 0 0 - 65 +
            letterIndex ((bytes "KEY").getD (0 % (bytes "KEY").length) 0)) % 26) ∧
      (bytes "Bc" ≠ [] ∧ (∀ c ∈ bytes "Bc", isalpha c = true) ∧
        1 < (bytes "a b").length ∧ isalpha ((bytes "a b").getD 1 0) = false ∧
        (vigenereEncryptOptimized (bytes "a b") (bytes "Bc")).getD 1 0 =
          (bytes "a b").getD 1 0) ∧
      (2 < (bytes "a b").length ∧
        97 ≤ (bytes "a b").getD 2 0 ∧ (bytes "a b").getD 2 0 ≤ 122 ∧
        (vigenereEncryptOptimized (bytes "a b") (bytes "Bc")).getD 2 0 =
          97 + ((bytes "a b").getD 2 0 - 97 +
            letterIndex ((bytes "Bc").getD (2 % (bytes "Bc").length) 0)) % 26) :=
  ⟨by decide,
    ⟨by decide, by decide, by decide, by decide, by decide,
      ((vigenere_reference (bytes "HELLO") (bytes "KEY") (by decide) (by decide)).2 0
        (by decide)).2.1 ⟨by decide, by decide⟩⟩,
    ⟨by decide, by decide, by decide, by decide,
      ((vigenere_reference (bytes "a b") (bytes "Bc") (by decide) (by decide)).2 1
        (by decide)).1 (by decide)⟩,
    ⟨by decide, by decide, by decide,
      ((vigenere_reference (bytes "a b") (bytes "Bc") (by decide) (by decide)).2 2
        (by decide)).2.2 ⟨by decide, by decide⟩⟩⟩

/-- C22: running key. For every non-empty text and non-empty key, `generateKeyOptimized text key`
has exactly the length of the text and its element `i` is `key[i mod |key|]` (a key longer than
the text is cut to the length of the text); if the text or the key is empty, the key is
returned unchanged. -/
theorem generateKey_contract (text key : List Nat) :
    (text ≠ [] → key ≠ [] →
        (generateKeyOptimized text key).length = text.length ∧
        (∀ i, i < text.length →
          (generateKeyOptimized text key).getD i 0 = key.getD (i % key.length) 0) ∧
        (text.length ≤ key.length → generateKeyOptimized text key = key.take text.length)) ∧
      (text = [] ∨ key = [] → generateKeyOptimized text key = key) := by
  constructor
  · intro ht hk
    refine ⟨generateKeyOptimized_length text key ht hk,
      fun i hi => generateKeyOptimized_getD text key ht hk i hi, ?_⟩
    intro hle
    apply List.ext_getElem
    · rw [generateKeyOptimized_length text key ht hk, List.length_take]; omega
    · intro i h1 h2
      have hi : i < text.length := by
        rw [generateKeyOptimized_length text key ht hk] at h1; exact h1
      have hik : i < key.length := by omega
      have := generateKeyOptimized_getD text key ht hk i hi
      rw [List.getD_eq_getElem?_getD, List.getElem?_eq_getElem h1, Option.getD_some,
        Nat.mod_eq_of_lt hik, List.getD_eq_getElem?_getD, List.getElem?_eq_getElem hik,
        Option.getD_some] at this
      rw [this, List.getElem_take]
  · intro h
    unfold generateKeyOptimized
    rcases h with h | h
    · subst h; simp
    · subst h; simp

/-- C22, instances: key `"KEY"` cycled over `"HELLO"`, the key `"LONGKEY"` cut to the two
characters of `"HI"`, and the empty text. -/
theorem generateKey_contract_witness :
    (bytes "HELLO" ≠ [] ∧ bytes "KEY" ≠ [] ∧
        generateKeyOptimized (bytes "HELLO") (bytes "KEY") = bytes "KEYKE" ∧
        (generateKeyOptimized (bytes "HELLO") (bytes "KEY")).length = (bytes "HELLO").length) ∧
      (bytes "HI" ≠ [] ∧ bytes "LONGKEY" ≠ [] ∧
        (bytes "HI").length ≤ (bytes "LONGKEY").length ∧
        generateKeyOptimized (bytes "HI") (bytes "LONGKEY") =
          (bytes "LONGKEY").take (bytes "HI").length) ∧
      (([] : List Nat) = [] ∨ bytes "KEY" = []) ∧
      generateKeyOptimized [] (bytes "KEY") = bytes "KEY" :=
  ⟨⟨by decide, by decide, by decide,
      ((generateKey_contract (bytes "HELLO") (bytes "KEY")).1 (by decide) (by decide)).1⟩,
    ⟨by decide, by decide, by decide,
      ((generateKey_contract (bytes "HI") (bytes "LONGKEY")).1 (by decide) (by decide)).2.2
        (by decide)⟩,
    Or.inl rfl,
    (generateKey_contract [] (bytes "KEY")).2 (Or.inl rfl)⟩

/-- C29: Vigenère round trip for letter keys. For every non-empty key consisting only of ASCII
letters (any mix of case) and every text `t`,
`vigenereDecryptOptimized (vigenereEncryptOptimized t k) k = t`, the ciphertext has the length
of the text, and at every position it holds an upper-case letter exactly when the text does and
a lower-case letter exactly when the text does. -/
theorem vigenere_roundtrip_case (k t : List Nat) (hk : k ≠ [])
    (hl : ∀ c ∈ k, isalpha c = true) :
    vigenereDecryptOptimized (vigenereEncryptOptimized t k) k = t ∧
      (vigenereEncryptOptimized t k).length = t.length ∧
      ∀ i, i < t.length →
        (isupper ((vigenereEncryptOptimized t k).getD i 0) = isupper (t.getD i 0)) ∧
        (islower ((vigenereEncryptOptimized t k).getD i 0) = islower (t.getD i 0)) := by
  refine ⟨vigenere_decrypt_encrypt k t hk hl, vigenereEncryptOptimized_length t k, ?_⟩
  intro i hi
  rw [vigenereEncryptOptimized_getD t k hk i hi,
    vigenereEncChar_letter _ _ (key_getD_letter k hk hl i)]
  have hmod : ∀ x : Nat, x % 26 < 26 := fun x => Nat.mod_lt x (by decide)
  constructor
  · unfold isupper
    split_ifs with h1 h2
    · have := hmod (t.getD i 0 - 65 + letterIndex (k.getD (i % k.length) 0))
      rw [Bool.eq_iff_iff]
      simp only [Bool.and_eq_true, decide_eq_true_eq]
      omega
    · have := hmod (t.getD i 0 - 97 + letterIndex (k.getD (i % k.length) 0))
      rw [Bool.eq_iff_iff]
      simp only [Bool.and_eq_true, decide_eq_true_eq]
      omega
    · rfl
  · unfold islower
    split_ifs with h1 h2
    · have := hmod (t.getD i 0 - 65 + letterIndex (k.getD (i % k.length) 0))
      rw [Bool.eq_iff_iff]
      simp only [Bool.and_eq_true, decide_eq_true_eq]
      omega
    · have := hmod (t.getD i 0 - 97 + letterIndex (k.getD (i % k.length) 0))
      rw [Bool.eq_iff_iff]
      simp only [Bool.and_eq_true, decide_eq_true_eq]
      omega
    · rfl

/-- C29, instance: the mixed-case key `"KeY"` and the text `"Hello, World!"`. -/
theorem vigenere_roundtrip_case_witness :
    bytes "KeY" ≠ [] ∧ (∀ c ∈ bytes "KeY", isalpha c = true) ∧
      vigenereEncryptOptimized (bytes "Hello, World!") (bytes "KeY") = bytes "Rijvs, Ambpb!" ∧
      (vigenereDecryptOptimized (vigenereEncryptOptimized (bytes "Hello, World!") (bytes "KeY"))
            (bytes "KeY") = bytes "Hello, World!" ∧
        (vigenereEncryptOptimized (bytes "Hello, World!") (bytes "KeY")).length =
          (bytes "Hello, World!").length ∧
        ∀ i, i < (bytes "Hello, World!").length →
          (isupper ((vigenereEncryptOptimized (bytes "Hello, World!") (bytes "KeY")).getD i 0) =
              isupper ((bytes "Hello, World!").getD i 0)) ∧
            (islower ((vigenereEncryptOptimized (bytes "Hello, World!") (bytes "KeY")).getD i 0) =
              islower ((bytes "Hello, World!").getD i 0))) :=
  ⟨by decide, by decide, by decide,
    vigenere_roundtrip_case (bytes "KeY") (bytes "Hello, World!") (by decide) (by decide)⟩

/-! ## Playfair: shape of the prepared text and the pair rules -/

/-- The duplicate scan only inserts characters: its input is a subsequence of its result. -/
theorem prepareDupLoop_sublist (fuel : Nat) : ∀ (i : Nat) (p r : List Nat),
    prepareDupLoop fuel i p = some r → List.Sublist p r := by
  induction fuel with
  | zero => intro i p r h; simp [prepareDupLoop] at h
  | succ fuel ih =>
    intro i p r h
    unfold prepareDupLoop at h
    by_cases hc : i < (if p.length = 0 then 18446744073709551615 else p.length - 1)
    · rw [if_pos hc] at h
      split at h
      · rename_i a b _ _
        have hins : List.Sublist p (List.take (i + 1) p ++ 88 :: List.drop (i + 1) p) := by
          conv_lhs => rw [← List.take_append_drop (i + 1) p]
          exact List.Sublist.append (List.Sublist.refl _) (List.sublist_cons_self _ _)
        by_cases hab : a = b
        · rw [if_pos hab] at h
          exact hins.trans (ih _ _ _ h)
        · rw [if_neg hab] at h
          exact ih _ _ _ h
      · cases h
    · rw [if_neg hc] at h
      injection h with h
      subst h
      exact List.Sublist.refl _

/-- The first loop of `prepareTextOptimized`, spelled out: the letters of the text in upper
case, with `I` for `J`. -/
theorem prepareLetters_eq (text : List Nat) :
    prepareLetters text =
      (text.filter isalpha).map (fun c => if toupper c = 74 then 73 else toupper c) := by
  unfold prepareLetters
  induction text with
  | nil => rfl
  | cons c cs ih =>
    rw [List.filterMap_cons, List.filter_cons]
    by_cases h : isalpha c = true
    · simp only [h, if_true, List.map_cons]
      rw [ih]
    · have h' : isalpha c = false := by
        cases hc : isalpha c
        · rfl
        · exact absurd hc h
      simp only [h', Bool.false_eq_true, if_false]
      exact ih

/-- C23: prepared text shape. For every text containing at least one ASCII letter,
`prepareTextOptimized text` returns a text that is non-empty, has even length and consists only
of upper-case letters other than `J`; the letters of the input, upper-cased and with `I` for
every `J` or `j` (non-letters dropped), form a subsequence of it. -/
theorem prepared_shape (text : List Nat) (h : ∃ c ∈ text, isalpha c = true) :
    ∃ prepared, prepareTextOptimized text = some prepared ∧ 1 ≤ prepared.length ∧
      prepared.length % 2 = 0 ∧ (∀ c ∈ prepared, 65 ≤ c ∧ c ≤ 90 ∧ c ≠ 74) ∧
      List.Sublist
        ((text.filter isalpha).map (fun c => if toupper c = 74 then 73 else toupper c))
        prepared := by
  obtain ⟨prepared, hp, heven, hpos, hl⟩ := prepareTextOptimized_some text h
  refine ⟨prepared, hp, hpos, heven, hl, ?_⟩
  rw [← prepareLetters_eq]
  unfold prepareTextOptimized at hp
  simp only at hp
  split at hp
  · rename_i r hr
    injection hp with hp
    have hsub := prepareDupLoop_sublist _ _ _ _ hr
    rw [← hp]
    split_ifs
    · exact hsub.trans (List.sublist_append_left _ _)
    · exact hsub
  · cases hp

/-- C23, instance: `"jazz, J!"` is prepared to `"IAZXZI"`. -/
theorem prepared_shape_witness :
    (∃ c ∈ bytes "jazz, J!", isalpha c = true) ∧
      prepareTextOptimized (bytes "jazz, J!") = some (bytes "IAZXZI") ∧
      ∃ prepared, prepareTextOptimized (bytes "jazz, J!") = some prepared ∧
        1 ≤ prepared.length ∧ prepared.length % 2 = 0 ∧
        (∀ c ∈ prepared, 65 ≤ c ∧ c ≤ 90 ∧ c ≠ 74) ∧
        List.Sublist
          (((bytes "jazz, J!").filter isalpha).map
            (fun c => if toupper c = 74 then 73 else toupper c))
          prepared :=
  ⟨by decide, by decide, prepared_shape (bytes "jazz, J!") (by decide)⟩

/-- A pair step that succeeds pushes exactly two characters. -/
theorem playfairPair_length (step : Int) (keyMatrix : List Nat) (positions : List (Int × Int))
    (a b : Nat) (pr : List Nat) (h : playfairPair step keyMatrix positions a b = some pr) :
    ∃ x y, pr = [x, y] := by
  unfold playfairPair at h
  split at h
  · split_ifs at h
    all_goals
      split at h
      · injection h with h
        exact ⟨_, _, h.symm⟩
      · cases h
  · cases h

/-- On a valid key matrix, pair `j` of the output of the encryption loop is given by the pair
rule applied to the cells of pair `j` of the input. -/
theorem playfairLoop_pairs (keyMatrix : List Nat) (hv : ValidKeyMatrix keyMatrix) (n : Nat) :
    ∀ (text ct : List Nat), text.length = 2 * n →
      playfairLoop 1 keyMatrix (initializePositionLookup keyMatrix) text = some ct →
      ∀ j, j < n → ∀ i1 i2, i1 < 25 → i2 < 25 →
        keyMatrix.getD i1 0 = text.getD (2 * j) 0 →
        keyMatrix.getD i2 0 = text.getD (2 * j + 1) 0 →
        ct.getD (2 * j) 0 = keyMatrix.getD (playfairCells 1 i1 i2).1 0 ∧
          ct.getD (2 * j + 1) 0 = keyMatrix.getD (playfairCells 1 i1 i2).2 0 := by
  induction n with
  | zero => intro text ct _ _ j hj; omega
  | succ n ih =>
    intro text ct hlen hloop j hj i1 i2 h1 h2 e1 e2
    match text, hlen, hloop, e1, e2 with
    | a :: b :: rest, hlen, hloop, e1, e2 =>
      rw [playfairLoop] at hloop
      split at hloop
      · rename_i pr tl hpr htl
        injection hloop with hct
        obtain ⟨x, y, hxy⟩ := playfairPair_length _ _ _ _ _ _ hpr
        subst hxy
        subst hct
        cases j with
        | zero =>
          simp only [Nat.mul_zero, List.getD_cons_zero, Nat.zero_add, List.getD_cons_succ]
            at e1 e2
          have enc := playfairPair_eq keyMatrix hv 1 i1 i2 h1 h2
          rw [Nat.cast_one, e1, e2, hpr] at enc
          injection enc with enc
          injection enc with hx enc
          injection enc with hy _
          simp only [Nat.mul_zero, List.cons_append, List.nil_append, List.getD_cons_zero,
            Nat.zero_add, List.getD_cons_succ]
          exact ⟨hx, hy⟩
        | succ j =>
          have hr : rest.length = 2 * n := by simp at hlen; omega
          have e1' : keyMatrix.getD i1 0 = rest.getD (2 * j) 0 := by
            rw [e1, show 2 * (j + 1) = 2 * j + 1 + 1 by omega]
            rfl
          have e2' : keyMatrix.getD i2 0 = rest.getD (2 * j + 1) 0 := by
            rw [e2, show 2 * (j + 1) + 1 = 2 * j + 1 + 1 + 1 by omega]
            rfl
          have := ih rest tl hr htl j (by omega) i1 i2 h1 h2 e1' e2'
          rw [show 2 * (j + 1) = 2 * j + 1 + 1 by omega]
          exact this
      · cases hloop

/-- The cells read by the encryption rule, in terms of rows and columns. -/
theorem playfairCells_rowcol (r1 c1 r2 c2 : Nat) (hc1 : c1 < 5) (hc2 : c2 < 5) :
    playfairCells 1 (5 * r1 + c1) (5 * r2 + c2) =
      if r1 = r2 then (5 * r1 + (c1 + 1) % 5, 5 * r2 + (c2 + 1) % 5)
      else if c1 = c2 then (5 * ((r1 + 1) % 5) + c1, 5 * ((r2 + 1) % 5) + c2)
      else (5 * r1 + c2, 5 * r2 + c1) := by
  unfold playfairCells
  have a1 : (5 * r1 + c1) / 5 = r1 := by omega
  have a2 : (5 * r1 + c1) % 5 = c1 := by omega
  have a3 : (5 * r2 + c2) / 5 = r2 := by omega
  have a4 : (5 * r2 + c2) % 5 = c2 := by omega
  rw [a1, a2, a3, a4]

/-- C24: Playfair pair rules. For every valid key matrix `M` (cell `M[r][c]` at position
`5 * r + c`) and every text with a letter, `playfairEncryptOptimized` returns a ciphertext of
the length of the prepared text, and for every pair `(a, b)` of the prepared text standing in
the grid at `(r1, c1)` and `(r2, c2)` the ciphertext pair is
`(M[r1][(c1+1) mod 5], M[r2][(c2+1) mod 5])` when `r1 = r2`, else
`(M[(r1+1) mod 5][c1], M[(r2+1) mod 5][c2])` when `c1 = c2`, else `(M[r1][c2], M[r2][c1])`. -/
theorem playfair_pair_rules (keyMatrix text : List Nat) (hv : ValidKeyMatrix keyMatrix)
    (h : ∃ c ∈ text, isalpha c = true) :
    ∃ prepared ct, prepareTextOptimized text = some prepared ∧
      playfairEncryptOptimized text keyMatrix = some ct ∧ ct.length = prepared.length ∧
      ∀ j r1 c1 r2 c2, 2 * j + 1 < prepared.length → r1 < 5 → c1 < 5 → r2 < 5 → c2 < 5 →
        keyMatrix.getD (5 * r1 + c1) 0 = prepared.getD (2 * j) 0 →
        keyMatrix.getD (5 * r2 + c2) 0 = prepared.getD (2 * j + 1) 0 →
        (ct.getD (2 * j) 0, ct.getD (2 * j + 1) 0) =
          if r1 = r2 then
            (keyMatrix.getD (5 * r1 + (c1 + 1) % 5) 0, keyMatrix.getD (5 * r2 + (c2 + 1) % 5) 0)
          else if c1 = c2 then
            (keyMatrix.getD (5 * ((r1 + 1) % 5) + c1) 0,
              keyMatrix.getD (5 * ((r2 + 1) % 5) + c2) 0)
          else (keyMatrix.getD (5 * r1 + c2) 0, keyMatrix.getD (5 * r2 + c1) 0) := by
  obtain ⟨prepared, hp, heven, _, hl⟩ := prepareTextOptimized_some text h
  obtain ⟨ct, h1, h2, _⟩ := playfairLoop_inverse keyMatrix hv (prepared.length / 2) prepared
    (by omega) hl
  refine ⟨prepared, ct, hp, ?_, h2, ?_⟩
  · unfold playfairEncryptOptimized
    rw [hp]
    exact h1
  · intro j r1 c1 r2 c2 hj hr1 hc1 hr2 hc2 e1 e2
    obtain ⟨g1, g2⟩ := playfairLoop_pairs keyMatrix hv (prepared.length / 2) prepared ct
      (by omega) h1 j (by omega) (5 * r1 + c1) (5 * r2 + c2) (by omega) (by omega) e1 e2
    rw [g1, g2, playfairCells_rowcol r1 c1 r2 c2 hc1 hc2]
    split_ifs <;> rfl

/-- C24, instance: the matrix of the key `"MONARCHY"` and the text `"INSTRUMENTS"`; the first
pair `IN` stands at `(2, 3)` and `(0, 2)` (rectangle) and is sent to `(M[2][2], M[0][3])`,
that is `GA`. -/
theorem playfair_pair_rules_witness :
    ValidKeyMatrix (generateKeyMatrixOptimized (bytes "MONARCHY")) ∧
      (∃ c ∈ bytes "INSTRUMENTS", isalpha c = true) ∧
      ∃ prepared ct, prepareTextOptimized (bytes "INSTRUMENTS") = some prepared ∧
        playfairEncryptOptimized (bytes "INSTRUMENTS")
          (generateKeyMatrixOptimized (bytes "MONARCHY")) = some ct ∧
        ct.length = prepared.length ∧
        (2 * 0 + 1 < prepared.length ∧
          (generateKeyMatrixOptimized (bytes "MONARCHY")).getD (5 * 2 + 3) 0 =
            prepared.getD (2 * 0) 0 ∧
          (generateKeyMatrixOptimized (bytes "MONARCHY")).getD (5 * 0 + 2) 0 =
            prepared.getD (2 * 0 + 1) 0 ∧
          (ct.getD (2 * 0) 0, ct.getD (2 * 0 + 1) 0) =
            ((generateKeyMatrixOptimized (bytes "MONARCHY")).getD (5 * 2 + 2) 0,
              (generateKeyMatrixOptimized (bytes "MONARCHY")).getD (5 * 0 + 3) 0)) := by
  refine ⟨generateKeyMatrixOptimized_valid _, by decide, ?_⟩
  obtain ⟨prepared, ct, hp, hc, hlen, hrule⟩ :=
    playfair_pair_rules (generateKeyMatrixOptimized (bytes "MONARCHY")) (bytes "INSTRUMENTS")
      (generateKeyMatrixOptimized_valid _) (by decide)
  have hpc : prepareTextOptimized (bytes "INSTRUMENTS") = some (bytes "INSTRUMENTSX") := by
    decide
  rw [hpc] at hp
  injection hp with hp
  subst hp
  have e1 : (generateKeyMatrixOptimized (bytes "MONARCHY")).getD (5 * 2 + 3) 0 =
      (bytes "INSTRUMENTSX").getD (2 * 0) 0 := by decide
  have e2 : (generateKeyMatrixOptimized (bytes "MONARCHY")).getD (5 * 0 + 2) 0 =
      (bytes "INSTRUMENTSX").getD (2 * 0 + 1) 0 := by decide
  have hr := hrule 0 2 3 0 2 (by decide) (by decide) (by decide) (by decide) (by decide) e1 e2
  rw [if_neg (by decide), if_neg (by decide)] at hr
  exact ⟨_, ct, hpc, hc, hlen, by decide, e1, e2, hr⟩

/-! ## One-time pad output, codec and hybrid mode -/

/-- C25: one-time pad output. For every plaintext `p` and key `k` of equal length,
`otpEncryptOptimized p k` succeeds with a ciphertext of the length of `p` whose byte `i` is
`p[i] XOR k[i]` for every `i`. -/
theorem otp_output (p k : List Nat) (h : k.length = p.length) :
    ∃ c, otpEncryptOptimized p k = Except.ok c ∧ c.length = p.length ∧
      ∀ i, i < p.length → c.getD i 0 = p.getD i 0 ^^^ k.getD i 0 := by
  refine ⟨_, otpEncryptOptimized_ok p k h, by simp, ?_⟩
  intro i hi
  rw [List.getD_eq_getElem?_getD, List.getElem?_map, List.getElem?_range hi]
  rfl

/-- C25, instance: `"AB"` with key `"XY"` gives the bytes `0x19, 0x1b`. -/
theorem otp_output_witness :
    (bytes "XY").length = (bytes "AB").length ∧
      otpEncryptOptimized (bytes "AB") (bytes "XY") = Except.ok [25, 27] ∧
      ∃ c, otpEncryptOptimized (bytes "AB") (bytes "XY") = Except.ok c ∧
        c.length = (bytes "AB").length ∧
        ∀ i, i < (bytes "AB").length →
          c.getD i 0 = (bytes "AB").getD i 0 ^^^ (bytes "XY").getD i 0 :=
  ⟨by decide, rfl, otp_output (bytes "AB") (bytes "XY") (by decide)⟩

/-- The unit of a byte is its unsigned value. -/
theorem unit_of_byte (b : Nat) (hb : b < 256) : charToInt b % 256 = (b : Int) := by
  unfold charToInt
  split_ifs <;> omega

/-- The character stored for a unit in `0..255` is the byte of that value. -/
theorem intToChar_of_unit (u : Int) (h0 : 0 ≤ u) (h1 : u ≤ 255) : intToChar u = u.toNat := by
  unfold intToChar
  omega

/-- `intVectorToStringOptimized` keeps the units in `0..255`, as the bytes of their values. -/
theorem intVectorToStringOptimized_eq (units : List Int) :
    intVectorToStringOptimized units =
      (units.filter (fun u => decide (0 ≤ u) && decide (u ≤ 255))).map Int.toNat := by
  unfold intVectorToStringOptimized
  induction units with
  | nil => rfl
  | cons u us ih =>
    rw [List.filterMap_cons, List.filter_cons]
    by_cases h : 0 ≤ u ∧ u ≤ 255
    · simp only [h, and_self, if_true, decide_True, Bool.and_self, List.map_cons]
      rw [ih, intToChar_of_unit u h.1 h.2]
    · rw [if_neg h]
      have hb : (decide (0 ≤ u) && decide (u ≤ 255)) = false := by
        rw [Bool.and_eq_false_iff]
        simp only [decide_eq_false_iff_not]
        by_cases h0 : 0 ≤ u
        · exact Or.inr (fun h1 => h ⟨h0, h1⟩)
        · exact Or.inl h0
      simp only [hb, Bool.false_eq_true, if_false]
      exact ih

/-- C26: codec round trip. For every byte sequence `msg` (bytes `0..255`, bytes from 128 on
included), every element of `stringToIntVectorOptimized msg` lies in `[0, 255]` and
`intVectorToStringOptimized (stringToIntVectorOptimized msg) = msg`. -/
theorem codec_roundtrip (msg : List Nat) (hb : ∀ b ∈ msg, b < 256) :
    (∀ u ∈ stringToIntVectorOptimized msg, 0 ≤ u ∧ u ≤ 255) ∧
      intVectorToStringOptimized (stringToIntVectorOptimized msg) = msg := by
  constructor
  · intro u hu
    unfold stringToIntVectorOptimized at hu
    rw [List.mem_map] at hu
    obtain ⟨b, hbm, rfl⟩ := hu
    rw [unit_of_byte b (hb b hbm)]
    have := hb b hbm
    omega
  · unfold stringToIntVectorOptimized intVectorToStringOptimized
    induction msg with
    | nil => rfl
    | cons b bs ih =>
      have hlt := hb b (List.mem_cons_self _ _)
      rw [List.map_cons, List.filterMap_cons, unit_of_byte b hlt]
      rw [if_pos (by omega), intToChar_of_unit _ (by omega) (by omega)]
      simp only [Int.toNat_ofNat]
      rw [ih (fun x hx => hb x (List.mem_cons_of_mem _ hx))]

/-- C26, instance: the bytes `0, 65, 128, 200, 255`. -/
theorem codec_roundtrip_witness :
    (∀ b ∈ [0, 65, 128, 200, 255], b < 256) ∧
      stringToIntVectorOptimized [0, 65, 128, 200, 255] = [0, 65, 128, 200, 255] ∧
      ((∀ u ∈ stringToIntVectorOptimized [0, 65, 128, 200, 255], 0 ≤ u ∧ u ≤ 255) ∧
        intVectorToStringOptimized (stringToIntVectorOptimized [0, 65, 128, 200, 255]) =
          [0, 65, 128, 200, 255]) :=
  ⟨by decide, by decide, codec_roundtrip [0, 65, 128, 200, 255] (by decide)⟩

/-- C27: out-of-range units are discarded. For every sequence of integers `units`,
`intVectorToStringOptimized units` is exactly the subsequence of the units with
`0 ≤ u ≤ 255`, in order, each as the byte of that value; its length is the number of in-range
units, so no unit outside `[0, 255]` contributes a byte. For example the units
`72, -1, 256, 105, 3233, 0, 255` give the bytes `72, 105, 0, 255`. -/
theorem decode_discards_out_of_range :
    (∀ units : List Int,
        intVectorToStringOptimized units =
            (units.filter (fun u => decide (0 ≤ u) && decide (u ≤ 255))).map Int.toNat ∧
          (intVectorToStringOptimized units).length =
            units.countP (fun u => decide (0 ≤ u) && decide (u ≤ 255)) ∧
          intVectorToStringOptimized
              (units.filter (fun u => !(decide (0 ≤ u) && decide (u ≤ 255)))) = []) ∧
      intVectorToStringOptimized [72, -1, 256, 105, 3233, 0, 255] = [72, 105, 0, 255] := by
  refine ⟨fun units => ⟨intVectorToStringOptimized_eq units, ?_, ?_⟩, by decide⟩
  · rw [intVectorToStringOptimized_eq, List.length_map, List.countP_eq_length_filter]
  · rw [intVectorToStringOptimized_eq, List.filter_filter]
    simp

/-- Applying the one-byte exclusive-or twice restores the data. -/
theorem xorEncryptOptimized_twice (data : List Nat) (key : Nat) :
    xorEncryptOptimized (xorEncryptOptimized data key) key = data := by
  unfold xorEncryptOptimized
  rw [List.map_map]
  conv_rhs => rw [← List.map_id data]
  apply List.map_congr_left
  intro c _
  simp only [Function.comp, id]
  rw [Nat.xor_assoc, Nat.xor_self, Nat.xor_zero]

/-- With the fixed key pair of the hybrid mode, wrapping and unwrapping a unit below 3233
restores it. -/
theorem rsa_fixed_keys_roundtrip (k : Nat) (hk : k < 3233) :
    rsaDecryptOptimized (rsaEncryptOptimized k 17 3233) 2753 3233 = k := by
  have h := rsa_decrypt_encrypt_eq k 17 2753 3233 (by decide) (by decide)
  have hp : Nat.Prime 61 := by norm_num
  have hq : Nat.Prime 53 := by norm_num
  have hpow := pow_mul_inverse_mod 61 53 hp hq (by decide) 17 2753 (by decide) k hk
  rw [show ((3233 : Nat) : Int) = 3233 from rfl, show ((17 : Nat) : Int) = 17 from rfl,
    show ((2753 : Nat) : Int) = 2753 from rfl] at h
  rw [h]
  congr 1

/-- A power of a residue of a power. -/
theorem pow_mod_pow_mod (b e d n : Nat) : (b ^ e % n) ^ d % n = b ^ (e * d) % n := by
  rw [← Nat.pow_mod, pow_mul]

/-- With the fixed key pair, wrapping and unwrapping the negated unit `-b` (a `char` above 127
promoted to `long long`) restores `-b`. -/
theorem rsa_fixed_keys_roundtrip_neg (b : Nat) (hb : b < 3233) :
    rsaDecryptOptimized (rsaEncryptOptimized (-(b : Int)) 17 3233) 2753 3233 = -(b : Int) := by
  have hp : Nat.Prime 61 := by norm_num
  have hq : Nat.Prime 53 := by norm_num
  have hpow := pow_mul_inverse_mod 61 53 hp hq (by decide) 17 2753 (by decide) b hb
  have h1 := fastModularExponentiation_neg b 17 3233 (by decide) (by decide)
  rw [if_pos (by decide)] at h1
  have h2 := fastModularExponentiation_neg (b ^ 17 % 3233) 2753 3233 (by decide) (by decide)
  rw [if_pos (by decide)] at h2
  rw [show ((3233 : Nat) : Int) = 3233 from rfl, show ((17 : Nat) : Int) = 17 from rfl] at h1
  rw [show ((3233 : Nat) : Int) = 3233 from rfl, show ((2753 : Nat) : Int) = 2753 from rfl] at h2
  unfold rsaDecryptOptimized rsaEncryptOptimized
  rw [h1, h2, pow_mod_pow_mod b 17 2753 3233]
  congr 2

/-- C28: hybrid round trip. With the fixed key pair `n = 3233`, `e = 17` (as returned by
`generateKeys`) and `d = 2753`, for every symmetric byte key `k` in `[0, 255]` and every
message: `rsaDecryptOptimized (rsaEncryptOptimized k 17 3233) 2753 3233 = k`; the key recovered
by the hybrid branch of `main` (where the key is a `char`) is `k` again; and the message XOR-ed
with `k` by `xorEncryptOptimized` and then XOR-ed with the recovered key is the original
message. -/
theorem hybrid_roundtrip (k : Nat) (hk : k ≤ 255) (msg : List Nat) :
    generateKeys = (17, 3233) ∧
      rsaDecryptOptimized (rsaEncryptOptimized k 17 3233) 2753 3233 = k ∧
      hybridRecoveredKey k = k ∧
      xorEncryptOptimized (xorEncryptOptimized msg k) (hybridRecoveredKey k) = msg := by
  have hg : generateKeys = (17, 3233) := by decide
  have hr := rsa_fixed_keys_roundtrip k (by omega)
  have hrec : hybridRecoveredKey k = k := by
    unfold hybridRecoveredKey
    rw [hg]
    simp only
    unfold charToInt
    split_ifs with h128
    · rw [hr, intToChar_of_unit _ (by omega) (by omega), Int.toNat_ofNat]
    · have e : (k : Int) - 256 = -((256 - k : Nat) : Int) := by omega
      rw [e, rsa_fixed_keys_roundtrip_neg (256 - k) (by omega)]
      unfold intToChar
      omega
  refine ⟨hg, hr, hrec, ?_⟩
  rw [hrec]
  exact xorEncryptOptimized_twice msg k

/-- C28, instance: the key `'K'` (75) of the hybrid branch of `main` and the message
`"hello"`; the wrapped key is 597. -/
theorem hybrid_roundtrip_witness :
    75 ≤ 255 ∧ rsaEncryptOptimized 75 17 3233 = 597 ∧
      (generateKeys = (17, 3233) ∧
        rsaDecryptOptimized (rsaEncryptOptimized (75 : Nat) 17 3233) 2753 3233 = (75 : Nat) ∧
        hybridRecoveredKey 75 = 75 ∧
        xorEncryptOptimized (xorEncryptOptimized (bytes "hello") 75) (hybridRecoveredKey 75) =
          bytes "hello") :=
  ⟨by decide, by decide, hybrid_roundtrip 75 (by decide) (bytes "hello")⟩

/-! ## The asymmetric round trip and equal primes -/

/-- What a successful key generation returns for natural numbers `p, q ≥ 2`: the modulus
`p * q` and non-negative exponents whose product is 1 modulo `(p - 1) * (q - 1)`. -/
theorem generateRSAKeysOptimized_keys (p q : Nat) (hp : 2 ≤ p) (hq : 2 ≤ q) (n e d : Int)
    (hk : generateRSAKeysOptimized p q = Except.ok (n, e, d)) :
    ∃ E D : Nat, n = ((p * q : Nat) : Int) ∧ e = (E : Int) ∧ d = (D : Int) ∧
      E * D ≡ 1 [MOD (p - 1) * (q - 1)] := by
  have hφ : ((p : Int) - 1) * ((q : Int) - 1) = (((p - 1) * (q - 1) : Nat) : Int) := by
    rw [Nat.cast_mul, Nat.cast_sub (by omega), Nat.cast_sub (by omega)]
    rfl
  have hpos : 0 < (p - 1) * (q - 1) := Nat.mul_pos (by omega) (by omega)
  rw [generateRSAKeysOptimized_eq p q _ hφ] at hk
  obtain ⟨s1, s2⟩ := modInverseOptimized_spec (chosenExponent ((p - 1) * (q - 1)))
    ((p - 1) * (q - 1)) hpos
  by_cases hd : modInverseOptimized (chosenExponent ((p - 1) * (q - 1)))
      (((p - 1) * (q - 1) : Nat) : Int) = -1
  · rw [if_pos hd] at hk; cases hk
  · rw [if_neg hd] at hk
    injection hk with hk
    injection hk with hn hk
    injection hk with he hd'
    have hg : Nat.gcd (chosenExponent ((p - 1) * (q - 1))) ((p - 1) * (q - 1)) = 1 := by
      by_contra hg
      exact hd (s1.mpr hg)
    obtain ⟨r1, _, r3⟩ := s2 hg
    rw [hd'] at r1 r3
    obtain ⟨D, rfl⟩ := Int.eq_ofNat_of_zero_le r1
    refine ⟨chosenExponent ((p - 1) * (q - 1)), D, ?_, he.symm, rfl, ?_⟩
    · rw [← hn]; push_cast; rfl
    · rw [← Int.natCast_modEq_iff]
      push_cast
      exact_mod_cast r3

/-- C30 (as stated) fails: for the equal primes `p = q = 3` key generation succeeds with
`(n, e, d) = (9, 17, 1)`, and the unit `m = 3` is encrypted to 0, which decrypts to 0. -/
theorem rsa_roundtrip_equal_primes_fails :
    Nat.Prime 3 ∧ 3 * 3 < 2 ^ 31 ∧
      generateRSAKeysOptimized 3 3 = Except.ok (9, 17, 1) ∧ (0 : Int) ≤ 3 ∧ (3 : Int) < 9 ∧
      rsaEncryptOptimized 3 17 9 = 0 ∧
      rsaDecryptOptimized (rsaEncryptOptimized 3 17 9) 1 9 ≠ 3 :=
  ⟨by norm_num, by decide, rfl, by decide, by decide, by decide, by decide⟩

/-- C30 (amended): for every two distinct primes `p` and `q` with `p * q < 2 ^ 31` for which
`generateRSAKeysOptimized p q` succeeds with `(n, e, d)`, and every unit `m` with `0 ≤ m < n`,
the ciphertext `rsaEncryptOptimized m e n` lies in `[0, n)` and
`rsaDecryptOptimized (rsaEncryptOptimized m e n) d n = m`. -/
theorem rsa_roundtrip_distinct_primes (p q : Nat) (hp : p.Prime) (hq : q.Prime) (hpq : p ≠ q)
    (hlt : p * q < 2 ^ 31) (n e d m : Int)
    (hk : generateRSAKeysOptimized p q = Except.ok (n, e, d)) (hm0 : 0 ≤ m) (hmn : m < n) :
    0 ≤ rsaEncryptOptimized m e n ∧ rsaEncryptOptimized m e n < n ∧
      rsaDecryptOptimized (rsaEncryptOptimized m e n) d n = m := by
  have hp2 := hp.two_le
  have hq2 := hq.two_le
  obtain ⟨E, D, rfl, rfl, rfl, hED⟩ := generateRSAKeysOptimized_keys p q hp2 hq2 n e d hk
  obtain ⟨M, rfl⟩ := Int.eq_ofNat_of_zero_le hm0
  have hMN : M < p * q := by exact_mod_cast hmn
  have hN2 : 2 ≤ p * q := by
    calc 2 ≤ 2 * 2 := by omega
      _ ≤ p * q := Nat.mul_le_mul hp2 hq2
  have hφ2 : 2 ≤ (p - 1) * (q - 1) := by
    rcases Nat.lt_or_ge p 3 with h | h
    · have hq3 : 3 ≤ q := by omega
      calc 2 = 1 * 2 := rfl
        _ ≤ (p - 1) * (q - 1) := Nat.mul_le_mul (by omega) (by omega)
    · calc 2 = 2 * 1 := rfl
        _ ≤ (p - 1) * (q - 1) := Nat.mul_le_mul (by omega) (by omega)
  have hed : E * D % ((p - 1) * (q - 1)) = 1 := by
    unfold Nat.ModEq at hED
    rw [hED]
    exact Nat.mod_eq_of_lt (by omega)
  have henc : rsaEncryptOptimized (M : Int) (E : Int) ((p * q : Nat) : Int) =
      ((M ^ E % (p * q) : Nat) : Int) := by
    unfold rsaEncryptOptimized
    exact fastModularExponentiation_eq M E (p * q) hN2 hlt.le
  refine ⟨?_, ?_, ?_⟩
  · rw [henc]; exact Int.ofNat_nonneg _
  · rw [henc]
    have := Nat.mod_lt (M ^ E) (show 0 < p * q by omega)
    exact_mod_cast this
  · rw [rsa_decrypt_encrypt_eq M E D (p * q) hN2 hlt.le,
      pow_mul_inverse_mod p q hp hq hpq E D hed M hMN]

/-- C30 (amended), instance: the distinct primes 3 and 5 with `m = 3`. -/
theorem rsa_roundtrip_distinct_primes_witness :
    Nat.Prime 3 ∧ Nat.Prime 5 ∧ 3 ≠ 5 ∧ 3 * 5 < 2 ^ 31 ∧
      generateRSAKeysOptimized 3 5 = Except.ok (15, 17, 1) ∧ (0 : Int) ≤ 3 ∧ (3 : Int) < 15 ∧
      (0 ≤ rsaEncryptOptimized 3 17 15 ∧ rsaEncryptOptimized 3 17 15 < 15 ∧
        rsaDecryptOptimized (rsaEncryptOptimized 3 17 15) 1 15 = 3) :=
  ⟨by norm_num, by norm_num, by decide, by decide, rfl, by decide, by decide,
    rsa_roundtrip_distinct_primes 3 5 (by norm_num) (by norm_num) (by decide) (by decide)
      15 17 1 3 rfl (by decide) (by decide)⟩

/-! ## Fast modular exponentiation: range of the result -/

/-- With modulus 1 and a positive exponent the loop returns 0. -/
theorem fastModExpLoop_mod_one (f : Nat) : ∀ (e : Nat) (r : Int), 0 < e → e ≤ f →
    (r = 0 ∨ r = 1) → fastModExpLoop f r 0 e 1 = 0 := by
  induction f with
  | zero => intro e r h0 he; omega
  | succ f ih =>
    intro e r h0 he hr
    unfold fastModExpLoop
    rw [if_pos (by omega)]
    have e2 : (e : Int) / 2 = ((e / 2 : Nat) : Int) := by norm_cast
    simp only [Int.tmod_one, e2]
    by_cases hodd : (e : Int) % 2 = 1
    · rw [if_pos hodd]
      have := fastModExpLoop_spec f 0 0 (e / 2) 1 (by omega) (by omega) (by omega) (by norm_num)
      simpa using this
    · rw [if_neg hodd]
      exact ih (e / 2) r (by omega) (by omega) hr

/-- With modulus 1 and a positive exponent `fastModularExponentiation` returns 0. -/
theorem fastModularExponentiation_mod_one (b : Int) (e : Nat) (he : 0 < e) :
    fastModularExponentiation b e 1 = 0 := by
  unfold fastModularExponentiation
  rw [Int.tmod_one, Int.toNat_ofNat]
  exact fastModExpLoop_mod_one e e 1 he le_rfl (Or.inr rfl)

/-- C35 (as stated) fails: with modulus 1 and exponent 0 the function returns 1, which is not
in `[0, 1)`. -/
theorem fastModularExponentiation_range_fails :
    (0 : Int) ≤ 5 ∧ (0 : Int) ≤ 0 ∧ (1 : Int) ≤ 1 ∧ (1 : Int) ≤ 2 ^ 31 ∧
      fastModularExponentiation 5 0 1 = 1 ∧
      ¬ (0 ≤ fastModularExponentiation 5 0 1 ∧ fastModularExponentiation 5 0 1 < 1) := by
  decide

/-- C35 (amended): for every `base ≥ 0`, `exp ≥ 0` and modulus with `1 ≤ mod ≤ 2 ^ 31`, the
value of `fastModularExponentiation base exp mod` lies in `[0, mod)` whenever `mod ≥ 2` or
`exp ≥ 1`; in the remaining case, modulus 1 with exponent 0, the value is 1. -/
theorem fastModularExponentiation_range (base exp mod : Int) (hb : 0 ≤ base) (he : 0 ≤ exp)
    (h1 : 1 ≤ mod) (hm : mod ≤ 2 ^ 31) :
    (2 ≤ mod ∨ 1 ≤ exp →
        0 ≤ fastModularExponentiation base exp mod ∧
          fastModularExponentiation base exp mod < mod) ∧
      (mod = 1 ∧ exp = 0 → fastModularExponentiation base exp mod = 1) := by
  obtain ⟨B, rfl⟩ := Int.eq_ofNat_of_zero_le hb
  obtain ⟨E, rfl⟩ := Int.eq_ofNat_of_zero_le he
  obtain ⟨M, rfl⟩ := Int.eq_ofNat_of_zero_le (show 0 ≤ mod by omega)
  have hM : M ≤ 2 ^ 31 := by
    have : (M : Int) ≤ ((2 ^ 31 : Nat) : Int) := by push_cast; exact hm
    exact_mod_cast this
  constructor
  · intro h
    by_cases h2 : 2 ≤ M
    · rw [fastModularExponentiation_eq B E M h2 hM]
      have := Nat.mod_lt (B ^ E) (show 0 < M by omega)
      omega
    · have hM1 : M = 1 := by omega
      subst hM1
      have hE : 0 < E := by omega
      have := fastModularExponentiation_mod_one (B : Int) E hE
      simp only [Nat.cast_one]
      omega
  · rintro ⟨hM1, hE0⟩
    rw [hM1, hE0]
    rfl

/-- C35 (amended), instances: `2 ^ 10 mod 1000 = 24` lies in `[0, 1000)`, and modulus 1 with
exponent 3 gives 0. -/
theorem fastModularExponentiation_range_witness :
    ((2 : Int) ≤ 1000 ∨ (1 : Int) ≤ 10) ∧ fastModularExponentiation 2 10 1000 = 24 ∧
      (0 ≤ fastModularExponentiation 2 10 1000 ∧ fastModularExponentiation 2 10 1000 < 1000) ∧
      ((2 : Int) ≤ 1 ∨ (1 : Int) ≤ 3) ∧
      (0 ≤ fastModularExponentiation 7 3 1 ∧ fastModularExponentiation 7 3 1 < 1) ∧
      ((1 : Int) = 1 ∧ (0 : Int) = 0) ∧ fastModularExponentiation 7 0 1 = 1 :=
  ⟨by decide, by decide,
    (fastModularExponentiation_range 2 10 1000 (by decide) (by decide) (by decide)
      (by decide)).1 (by decide),
    by decide,
    (fastModularExponentiation_range 7 3 1 (by decide) (by decide) (by decide)
      (by decide)).1 (by decide),
    by decide,
    (fastModularExponentiation_range 7 0 1 (by decide) (by decide) (by decide)
      (by decide)).2 (by decide)⟩

/-! ## Fast against naive exponentiation -/

/-- A value within the signed 64-bit range is not changed by the wrap-around. -/
theorem wrap64_eq_of_bounds (x : Int) (h0 : -2 ^ 63 ≤ x) (h1 : x < 2 ^ 63) : wrap64 x = x := by
  unfold wrap64
  omega

/-- A value within the signed 32-bit range is not changed by the wrap-around. -/
theorem wrap32_eq_of_bounds (x : Int) (h0 : -2 ^ 31 ≤ x) (h1 : x < 2 ^ 31) : wrap32 x = x := by
  unfold wrap32
  omega

/-- The C remainder of a product may be taken after reducing the first factor. -/
theorem tmod_mul_tmod (x y : Int) (m : Nat) :
    Int.tmod (Int.tmod x m * y) m = Int.tmod (x * y) m := by
  have key : ∀ X Y : Nat, ((X % m * Y) % m : Nat) = (X * Y) % m := by
    intro X Y
    exact Nat.ModEq.mul_right Y (Nat.mod_modEq X m)
  have npos : ∀ X Y : Nat, Int.tmod ((X : Int) * (Y : Int)) (m : Int) = ((X * Y % m : Nat) : Int) := by
    intro X Y
    rw [← Nat.cast_mul]; exact (Int.ofNat_tmod _ _).symm
  have nneg : ∀ X Y : Nat, Int.tmod (-((X : Int) * (Y : Int))) (m : Int) = -((X * Y % m : Nat) : Int) := by
    intro X Y
    rw [← Nat.cast_mul]; exact tmod_neg_natCast _ _
  have hx1 : ∀ X : Nat, Int.tmod (X : Int) (m : Int) = ((X % m : Nat) : Int) :=
    fun X => (Int.ofNat_tmod X m).symm
  rcases Int.natAbs_eq x with hx | hx <;> rcases Int.natAbs_eq y with hy | hy <;>
    rw [hx, hy]
  · rw [hx1, npos, npos, key]
  · rw [hx1, mul_neg, mul_neg, nneg, nneg, key]
  · rw [tmod_neg_natCast, neg_mul, neg_mul, nneg, nneg, key]
  · rw [tmod_neg_natCast, neg_mul_neg, neg_mul_neg, npos, npos, key]

/-- The C remainder is smaller than the modulus in absolute value. -/
theorem tmod_abs_lt (x : Int) (m : Nat) (hm : 0 < m) :
    -(m : Int) < Int.tmod x m ∧ Int.tmod x m < m := by
  rw [tmod_cases]
  have hmI : (0 : Int) < (m : Int) := by exact_mod_cast hm
  have a1 := Int.emod_nonneg x (ne_of_gt hmI)
  have a2 := Int.emod_lt_of_pos x hmI
  have a3 := Int.emod_nonneg (-x) (ne_of_gt hmI)
  have a4 := Int.emod_lt_of_pos (-x) hmI
  split_ifs <;> omega

/-- A product of two values of at most `2 ^ 31` in absolute value fits the 64-bit range. -/
theorem mul_bounds (r b : Int) (hr1 : -2 ^ 31 ≤ r) (hr2 : r ≤ 2 ^ 31) (hb1 : -2 ^ 31 ≤ b)
    (hb2 : b ≤ 2 ^ 31) : -2 ^ 63 ≤ r * b ∧ r * b < 2 ^ 63 := by
  constructor <;> nlinarith

/-- The naive loop returns the C remainder of `result * base ^ n` after `n ≥ 1` iterations. -/
theorem naiveModExpLoop_spec (n : Nat) : ∀ (r b : Int) (m : Nat), 0 < m → m ≤ 2 ^ 31 →
    -2 ^ 31 ≤ r → r ≤ 2 ^ 31 → -2 ^ 31 ≤ b → b ≤ 2 ^ 31 →
    naiveModExpLoop n r b m = if n = 0 then r else Int.tmod (r * b ^ n) m := by
  induction n with
  | zero => intro r b m _ _ _ _ _ _; rfl
  | succ n ih =>
    intro r b m hm0 hm hr1 hr2 hb1 hb2
    unfold naiveModExpLoop
    obtain ⟨p1, p2⟩ := mul_bounds r b hr1 hr2 hb1 hb2
    rw [wrap64_eq_of_bounds _ p1 p2, if_neg (by omega)]
    obtain ⟨t1, t2⟩ := tmod_abs_lt (r * b) m hm0
    have hmI : (m : Int) ≤ 2 ^ 31 := by exact_mod_cast hm
    rw [ih _ b m hm0 hm (by omega) (by omega) hb1 hb2]
    by_cases hn : n = 0
    · subst hn
      simp
    · rw [if_neg hn, tmod_mul_tmod, pow_succ]
      congr 1
      ring

/-- For every base, `fastModularExponentiation` returns the C remainder of the power when the
modulus is at least 2. -/
theorem fastModularExponentiation_tmod (b : Int) (E M : Nat) (h2 : 2 ≤ M) (hM : M ≤ 2 ^ 31) :
    fastModularExponentiation b E M = Int.tmod (b ^ E) M := by
  rcases Int.natAbs_eq b with hb | hb <;> rw [hb]
  · rw [fastModularExponentiation_eq _ E M h2 hM, ← Nat.cast_pow]
    exact Int.ofNat_tmod _ _
  · rw [fastModularExponentiation_neg _ E M h2 hM, tmod_neg_pow]

/-- While no `int` product overflows, the loop of the original `rsaEncrypt` and `rsaDecrypt`
computes what the naive loop computes. -/
theorem rsaLoop_eq_naive (n : Nat) : ∀ (r b : Int) (m : Nat), 0 < m → m ≤ 46341 →
    -46340 ≤ r → r ≤ 46340 → -46340 ≤ b → b ≤ 46340 →
    rsaLoop n r b m = naiveModExpLoop n r b m := by
  induction n with
  | zero => intro r b m _ _ _ _ _ _; rfl
  | succ n ih =>
    intro r b m hm0 hm hr1 hr2 hb1 hb2
    unfold rsaLoop naiveModExpLoop
    have p1 : -2147395600 ≤ r * b := by nlinarith
    have p2 : r * b ≤ 2147395600 := by nlinarith
    rw [wrap64_eq_of_bounds _ (by omega) (by omega), wrap32_eq_of_bounds _ (by omega) (by omega)]
    obtain ⟨t1, t2⟩ := tmod_abs_lt (r * b) m hm0
    have hmI : (m : Int) ≤ 46341 := by exact_mod_cast hm
    exact ih _ b m hm0 hm (by omega) (by omega) hb1 hb2

/-- C36: fast and naive exponentiation agree. For every base with `|base| ≤ 2 ^ 31`, every
`exp ≥ 0` and every modulus with `1 ≤ mod ≤ 2 ^ 31`, `fastModularExponentiation base exp mod`
equals `naiveModularExponentiation base exp mod` (C++ truncating remainder, 64-bit products).
The loop of the original `rsaEncrypt` and `rsaDecrypt` is the naive loop on `int`: it returns
the same value while its 32-bit products cannot overflow (`|base| ≤ 46340`, `mod ≤ 46341`). -/
theorem fast_eq_naive (base exp mod : Int) (hb1 : -2 ^ 31 ≤ base) (hb2 : base ≤ 2 ^ 31)
    (he : 0 ≤ exp) (h1 : 1 ≤ mod) (hm : mod ≤ 2 ^ 31) :
    fastModularExponentiation base exp mod = naiveModularExponentiation base exp mod ∧
      (-46340 ≤ base → base ≤ 46340 → mod ≤ 46341 →
        rsaEncrypt base exp mod = fastModularExponentiation base exp mod ∧
          rsaDecrypt base exp mod = fastModularExponentiation base exp mod) := by
  obtain ⟨E, rfl⟩ := Int.eq_ofNat_of_zero_le he
  obtain ⟨M, rfl⟩ := Int.eq_ofNat_of_zero_le (show 0 ≤ mod by omega)
  have hM0 : 0 < M := by omega
  have hM : M ≤ 2 ^ 31 := by
    have : (M : Int) ≤ ((2 ^ 31 : Nat) : Int) := by push_cast; exact hm
    exact_mod_cast this
  have hnaive : naiveModularExponentiation base E M =
      if E = 0 then 1 else Int.tmod (1 * base ^ E) M := by
    unfold naiveModularExponentiation
    rw [Int.toNat_ofNat]
    exact naiveModExpLoop_spec E 1 base M hM0 hM (by norm_num) (by norm_num) hb1 hb2
  have hfast : fastModularExponentiation base E M = naiveModularExponentiation base E M := by
    rw [hnaive]
    by_cases hE : E = 0
    · subst hE
      rfl
    · rw [if_neg hE, one_mul]
      by_cases h2 : 2 ≤ M
      · exact fastModularExponentiation_tmod base E M h2 hM
      · have hM1 : M = 1 := by omega
        subst hM1
        rw [Nat.cast_one, Int.tmod_one]
        exact fastModularExponentiation_mod_one base E (by omega)
  refine ⟨hfast, ?_⟩
  intro c1 c2 c3
  have hM3 : M ≤ 46341 := by exact_mod_cast c3
  have hloop : rsaLoop E 1 base M = naiveModularExponentiation base E M := by
    unfold naiveModularExponentiation
    rw [Int.toNat_ofNat]
    exact rsaLoop_eq_naive E 1 base M hM0 hM3 (by norm_num) (by norm_num) c1 c2
  unfold rsaEncrypt rsaDecrypt
  rw [Int.toNat_ofNat, hfast]
  exact ⟨hloop, hloop⟩

/-- C36, instances: base 7, exponent 4, modulus 33 gives 25 with every loop, and the
negative base `-2` with exponent 3 and modulus 5 gives `-3` with every loop. -/
theorem fast_eq_naive_witness :
    naiveModularExponentiation 7 4 33 = 25 ∧ rsaEncrypt 7 4 33 = 25 ∧
      fastModularExponentiation 7 4 33 = naiveModularExponentiation 7 4 33 ∧
      ((-46340 : Int) ≤ 7 ∧ (7 : Int) ≤ 46340 ∧ (33 : Int) ≤ 46341) ∧
      (rsaEncrypt 7 4 33 = fastModularExponentiation 7 4 33 ∧
        rsaDecrypt 7 4 33 = fastModularExponentiation 7 4 33) ∧
      naiveModularExponentiation (-2) 3 5 = -3 ∧
      fastModularExponentiation (-2) 3 5 = naiveModularExponentiation (-2) 3 5 :=
  ⟨by decide, by decide,
    (fast_eq_naive 7 4 33 (by decide) (by decide) (by decide) (by decide) (by decide)).1,
    by decide,
    (fast_eq_naive 7 4 33 (by decide) (by decide) (by decide) (by decide) (by decide)).2
      (by decide) (by decide) (by decide),
    by decide,
    (fast_eq_naive (-2) 3 5 (by decide) (by decide) (by decide) (by decide) (by decide)).1⟩

/-! ## Caesar: the original against the optimized implementation -/

/-- For a non-negative shift whose sum with a letter index fits in `int`, the original loop body
rotates as the optimized one does with the normalised shift. -/
theorem caesarEncryptChar_eq (s : Int) (hs : 0 ≤ s) (hs2 : s ≤ 2147483622) (ch : Nat) :
    caesarEncryptChar s ch = caesarChar (s % 26) ch := by
  have h1 : caesarEncryptChar s ch = caesarChar s ch := by
    unfold caesarEncryptChar caesarChar
    by_cases ha : isalpha ch = true
    · simp only [ha, if_true]
      have hb : 0 ≤ charToInt ch - charToInt (if islower ch = true then 97 else 65) ∧
          charToInt ch - charToInt (if islower ch = true then 97 else 65) ≤ 25 := by
        simp only [isalpha, islower, Bool.or_eq_true, Bool.and_eq_true,
          decide_eq_true_eq] at ha ⊢
        unfold charToInt
        split_ifs <;> omega
      rw [wrap32_eq_of_bounds _ (by omega) (by omega)]
    · simp only [ha, Bool.false_eq_true, if_false]
  rw [h1, caesarChar_eq s hs, caesarChar_eq (s % 26) (by omega)]
  obtain ⟨n, rfl⟩ := Int.eq_ofNat_of_zero_le hs
  have h2 : ((n : Int) % 26).toNat = n % 26 := by omega
  rw [h2, Int.toNat_ofNat]
  split_ifs <;> omega

/-- The original and the optimized encryption agree on non-negative shifts that cannot
overflow. -/
theorem caesar_encrypt_eq (text : List Nat) (s : Int) (hs : 0 ≤ s) (hs2 : s ≤ 2147483622) :
    caesar_encrypt text s = caesarEncryptOptimized text s := by
  unfold caesar_encrypt caesarEncryptOptimized
  cases text with
  | nil => rfl
  | cons a l =>
    simp only [List.isEmpty_cons, Bool.false_eq_true, if_false]
    rw [caesar_normalise]
    apply List.map_congr_left
    intro ch _
    exact caesarEncryptChar_eq s hs hs2 ch

/-- C40 (as stated) fails: with the negative shift `-3` the original `caesar_encrypt` turns
`"A"` into `">"` (it takes the C++ remainder of `-3` without normalising the shift), while
`caesarEncryptOptimized` returns `"X"`. -/
theorem caesar_drop_in_negative_shift_fails :
    caesar_encrypt (bytes "A") (-3) = bytes ">" ∧
      caesarEncryptOptimized (bytes "A") (-3) = bytes "X" ∧
      caesar_encrypt (bytes "A") (-3) ≠ caesarEncryptOptimized (bytes "A") (-3) := by
  decide

/-- C40 (amended): for every text and every shift with `0 ≤ shift ≤ 2147483622` (non-negative,
and small enough that `ch - base + shift` fits in `int`), the original `caesar_encrypt` and
`caesarEncryptOptimized` return the same string; and for every text and every integer shift, in
particular every 32-bit one, the original `caesar_decrypt` and `caesarDecryptOptimized` return
the same string. -/
theorem caesar_drop_in (text : List Nat) (shift : Int) :
    (0 ≤ shift → shift ≤ 2147483622 →
        caesar_encrypt text shift = caesarEncryptOptimized text shift) ∧
      caesar_decrypt text shift = caesarDecryptOptimized text shift := by
  refine ⟨caesar_encrypt_eq text shift, ?_⟩
  unfold caesar_decrypt caesarDecryptOptimized
  have := tmod26 shift
  apply caesar_encrypt_eq
  · split_ifs at this <;> omega
  · split_ifs at this <;> omega

/-- C40 (amended), instances: `"Hello, World!"` with shift 29 gives `"Khoor, Zruog!"` with both
encryptors, and `"KHOOR"` with shift `-23` gives `"HELLO"` with both decryptors. -/
theorem caesar_drop_in_witness :
    (0 : Int) ≤ 29 ∧ (29 : Int) ≤ 2147483622 ∧
      caesar_encrypt (bytes "Hello, World!") 29 = bytes "Khoor, Zruog!" ∧
      caesar_encrypt (bytes "Hello, World!") 29 =
        caesarEncryptOptimized (bytes "Hello, World!") 29 ∧
      caesar_decrypt (bytes "KHOOR") (-23) = bytes "HELLO" ∧
      caesar_decrypt (bytes "KHOOR") (-23) = caesarDecryptOptimized (bytes "KHOOR") (-23) :=
  ⟨by decide, by decide, by decide,
    (caesar_drop_in (bytes "Hello, World!") 29).1 (by decide) (by decide),
    by decide, (caesar_drop_in (bytes "KHOOR") (-23)).2⟩

/-! ## The brute-force inverse against the extended-Euclid inverse -/

/-- The test `(a * x) % m == 1` of the original `modInverse` on residues, while the `int`
product cannot overflow. -/
theorem modInverse_test (a x m : Nat) (ha : a < m) (hx : x < m) (hm : m ≤ 46340) :
    Int.tmod (wrap32 ((a : Int) * (x : Int))) (m : Int) = ((a * x % m : Nat) : Int) := by
  have h : a * x < 46340 * 46340 :=
    Nat.mul_lt_mul'' (lt_of_lt_of_le ha hm) (lt_of_lt_of_le hx hm)
  have h0 : (0 : Int) ≤ (a : Int) * (x : Int) := by positivity
  have h1 : ((a * x : Nat) : Int) < ((46340 * 46340 : Nat) : Int) := by exact_mod_cast h
  push_cast at h1
  rw [wrap32_eq_of_bounds _ (by omega) (by omega),
    Int.tmod_eq_emod h0 (Int.ofNat_nonneg m), Int.natCast_mod, Nat.cast_mul]

/-- The search loop returns the first `x` at or after its start that passes the test. -/
theorem modInverseLoop_found (a m : Nat) (ha : a < m) (hm : m ≤ 46340) (v : Nat) (hv : v < m)
    (hgood : a * v % m = 1) (fuel : Nat) :
    ∀ x : Nat, x ≤ v → v < x + fuel → (∀ y, x ≤ y → y < v → a * y % m ≠ 1) →
      modInverseLoop a m fuel x = v := by
  induction fuel with
  | zero => intro x h1 h2; omega
  | succ fuel ih =>
    intro x h1 h2 hbefore
    unfold modInverseLoop
    rw [if_pos (by omega), modInverse_test a x m ha (by omega) hm]
    by_cases hx : x = v
    · subst hx
      rw [hgood]
      simp
    · have hne := hbefore x le_rfl (by omega)
      rw [if_neg (by exact_mod_cast hne)]
      have := ih (x + 1) (by omega) (by omega) (fun y hy1 hy2 => hbefore y (by omega) hy2)
      simpa using this

/-- The search loop returns `-1` when no `x` below the modulus passes the test. -/
theorem modInverseLoop_none (a m : Nat) (ha : a < m) (hm : m ≤ 46340)
    (hnone : ∀ y, y < m → a * y % m ≠ 1) (fuel : Nat) :
    ∀ x : Nat, modInverseLoop a m fuel x = -1 := by
  induction fuel with
  | zero => intro x; rfl
  | succ fuel ih =>
    intro x
    unfold modInverseLoop
    by_cases hx : (x : Int) < m
    · have hx' : x < m := by exact_mod_cast hx
      rw [if_pos hx, modInverse_test a x m ha hx' hm]
      have hne := hnone x hx'
      rw [if_neg (by exact_mod_cast hne)]
      have := ih (x + 1)
      simpa using this
    · rw [if_neg hx]

/-- The original brute-force search and the extended-Euclid computation return the same
value. -/
theorem modInverse_eq_optimized (a m : Nat) (h2 : 2 ≤ m) (hm : m ≤ 46340) :
    modInverse a m = modInverseOptimized a m := by
  have hm0 : 0 < m := by omega
  have hA : a % m < m := Nat.mod_lt _ hm0
  have hmod : a % m ≡ a [MOD m] := Nat.mod_modEq a m
  unfold modInverse
  simp only
  rw [← Int.ofNat_tmod, Int.toNat_ofNat]
  obtain ⟨s1, s2⟩ := modInverseOptimized_spec a m hm0
  by_cases hg : Nat.gcd a m = 1
  · obtain ⟨v0, v1, v2⟩ := s2 hg
    obtain ⟨V, hV⟩ := Int.eq_ofNat_of_zero_le v0
    rw [hV] at v1 v2 ⊢
    have hVm : V < m := by exact_mod_cast v1
    have hcong : a * V ≡ 1 [MOD m] := by
      have : ((a * V : Nat) : Int) ≡ ((1 : Nat) : Int) [ZMOD (m : Int)] := by
        push_cast; exact v2
      exact Int.natCast_modEq_iff.mp this
    have hgood : a % m * V % m = 1 := by
      have : a % m * V ≡ 1 [MOD m] := (Nat.ModEq.mul_right V hmod).trans hcong
      unfold Nat.ModEq at this
      rw [this, Nat.mod_eq_of_lt (by omega)]
    have hV1 : 1 ≤ V := by
      by_contra hc
      have : V = 0 := by omega
      subst this
      simp at hgood
    have := modInverseLoop_found (a % m) m hA hm V hVm hgood m 1 hV1 (by omega)
      (by
        intro y hy1 hy2 hy
        have e1 : a % m * y ≡ a % m * V [MOD m] := by
          unfold Nat.ModEq
          rw [hy, hgood]
        have e2 : a * y ≡ a * V [MOD m] :=
          ((Nat.ModEq.mul_right y hmod).symm.trans e1).trans (Nat.ModEq.mul_right V hmod)
        have e3 : y ≡ V [MOD m] :=
          Nat.ModEq.cancel_left_of_coprime (by rw [Nat.gcd_comm]; exact hg) e2
        unfold Nat.ModEq at e3
        rw [Nat.mod_eq_of_lt (by omega), Nat.mod_eq_of_lt hVm] at e3
        omega)
    simpa using this
  · rw [s1.mpr hg]
    have := modInverseLoop_none (a % m) m hA hm
      (by
        intro y _ hy
        apply hg
        have e1 : a % m * y ≡ 1 [MOD m] := by
          unfold Nat.ModEq
          rw [hy, Nat.mod_eq_of_lt (by omega)]
        have e2 : a * y ≡ 1 [MOD m] := (Nat.ModEq.mul_right y hmod).symm.trans e1
        exact Nat.coprime_of_mul_modEq_one y e2) m 1
    simpa using this

/-- C37: the brute-force and the extended-Euclid inverse agree. For every `a ≥ 0` and every
modulus with `2 ≤ m ≤ 46340`, the original `modInverse a m` (search of `x` in `1 .. m - 1`,
`-1` when none works) returns the value of `modInverseOptimized a m`. -/
theorem modInverse_agrees (a m : Int) (ha : 0 ≤ a) (h2 : 2 ≤ m) (hm : m ≤ 46340) :
    modInverse a m = modInverseOptimized a m := by
  obtain ⟨A, rfl⟩ := Int.eq_ofNat_of_zero_le ha
  obtain ⟨M, rfl⟩ := Int.eq_ofNat_of_zero_le (show 0 ≤ m by omega)
  exact modInverse_eq_optimized A M (by omega) (by omega)

/-- C37, instances: the inverse of 3 modulo 7 is 5 with both functions, and 4 has no inverse
modulo 6, which both functions report as `-1`. -/
theorem modInverse_agrees_witness :
    modInverse 3 7 = 5 ∧ modInverse 3 7 = modInverseOptimized 3 7 ∧
      modInverse 4 6 = -1 ∧ modInverse 4 6 = modInverseOptimized 4 6 :=
  ⟨by decide, modInverse_agrees 3 7 (by decide) (by decide) (by decide),
    by decide, modInverse_agrees 4 6 (by decide) (by decide) (by decide)⟩

/-! ## The string-to-integer codec: overflow -/

/-- C39 (defect of the code): the overflow guard of `stringToIntOptimized` does not prevent the
overflow. After the eight bytes of `"AAAAAAAA"` the accumulator is `4702111234474983745`, above
`MAX_SAFE = LLONG_MAX / 256`; for a ninth byte `'A'` the guarded branch first computes
`result * 256 + 65 = 1203740476025595838785`, which does not fit in a signed 64-bit integer, and
only then reduces it. With 64-bit wrap-around the function can also return a negative value:
the eight bytes `0x80, 0, 0, 0, 0, 0, 0, 0` give `-291172004`. -/
theorem stringToIntOptimized_overflow :
    stringToIntChecked (bytes "AAAAAAAA") = some 4702111234474983745 ∧
      (4702111234474983745 : Int) > 9223372036854775807 / 256 ∧
      (4702111234474983745 * 256 + 65 : Int) = 1203740476025595838785 ∧
      fitsInt64 (4702111234474983745 * 256 + 65) = false ∧
      stringToIntChecked (bytes "AAAAAAAAA") = none ∧
      stringToIntChecked [128, 0, 0, 0, 0, 0, 0, 0] = none ∧
      stringToIntOptimized [128, 0, 0, 0, 0, 0, 0, 0] = -291172004 ∧
      ¬ (0 ≤ stringToIntOptimized [128, 0, 0, 0, 0, 0, 0, 0]) := by
  have h : stringToIntOptimized [128, 0, 0, 0, 0, 0, 0, 0] = -291172004 := by
    simp [stringToIntOptimized, wrap64]
    rfl
  refine ⟨by decide, by decide, by decide, by decide, by decide, by decide, h, ?_⟩
  rw [h]
  decide

/-! ## Playfair: preparing a text without letters -/

/-- A text without letters leaves nothing after the first loop of the preparation. -/
theorem prepareLetters_nil (text : List Nat) (h : ∀ c ∈ text, isalpha c = false) :
    prepareLetters text = [] := by
  unfold prepareLetters
  rw [List.filterMap_eq_nil_iff]
  intro c hc
  simp [h c hc]

/-- C34 (defect of the code): for every text without an ASCII letter (the empty text
included) the first loop of `prepareTextOptimized` leaves the empty string, and the bound
`prepared.length() - 1` of the duplicate scan wraps to `2 ^ 64 - 1`. The scan therefore does
execute: its first iteration, at `i = 0`, compares `prepared[0]` with `prepared[1]`, and the
empty string has no character at either index (`prepared[1]` lies beyond its terminator), so
the call has no defined result (`none`), for any iteration budget. The original `prepareText`
has the same statements and the same outcome. -/
theorem prepareText_without_letters (text : List Nat) (h : ∀ c ∈ text, isalpha c = false) :
    prepareLetters text = [] ∧
      (0 < (if (prepareLetters text).length = 0 then 18446744073709551615
        else (prepareLetters text).length - 1)) ∧
      (prepareLetters text).get? 0 = none ∧ (prepareLetters text).get? (0 + 1) = none ∧
      (∀ fuel, prepareDupLoop (fuel + 1) 0 (prepareLetters text) = none) ∧
      prepareTextOptimized text = none ∧ prepareText text = none := by
  have h0 := prepareLetters_nil text h
  have hloop : ∀ fuel, prepareDupLoop (fuel + 1) 0 [] = none := by
    intro fuel
    unfold prepareDupLoop
    simp
  refine ⟨h0, ?_, ?_, ?_, ?_, ?_, ?_⟩
  · rw [h0]; decide
  · rw [h0]; rfl
  · rw [h0]; rfl
  · rw [h0]; exact hloop
  · unfold prepareTextOptimized
    simp only [h0, List.length_nil, hloop 0]
  · unfold prepareText
    simp only [h0, List.length_nil, hloop 0]

/-- C34, instances: the empty text and the text `"12 3!"` have no letter, and their preparation
has no defined result. -/
theorem prepareText_without_letters_witness :
    (∀ c ∈ bytes "", isalpha c = false) ∧ prepareTextOptimized (bytes "") = none ∧
      (∀ c ∈ bytes "12 3!", isalpha c = false) ∧ prepareTextOptimized (bytes "12 3!") = none :=
  ⟨by decide, (prepareText_without_letters (bytes "") (by decide)).2.2.2.2.2.1,
    by decide, (prepareText_without_letters (bytes "12 3!") (by decide)).2.2.2.2.2.1⟩

/-! ## Playfair: the pairs of the prepared text -/

/-- The duplicate scan leaves the text before its position alone and turns the rest into pairs
whose first letters come from the scanned text and whose only equal pair is `XX`. -/
theorem prepareDupLoop_pairs (P : Nat → Prop) (fuel : Nat) : ∀ (i : Nat) (p q : List Nat),
    (∀ x ∈ p.drop i, P x) → prepareDupLoop fuel i p = some q →
    ∃ r, q = p.take i ++ r ∧ FillerPairs P r := by
  induction fuel with
  | zero => intro i p q _ h; simp [prepareDupLoop] at h
  | succ fuel ih =>
    intro i p q hP h
    unfold prepareDupLoop at h
    by_cases hc : i < (if p.length = 0 then 18446744073709551615 else p.length - 1)
    · rw [if_pos hc] at h
      by_cases hi1 : i + 1 < p.length
      · have hi : i < p.length := by omega
        rw [List.get?_eq_getElem?, List.get?_eq_getElem?, List.getElem?_eq_getElem hi,
          List.getElem?_eq_getElem hi1] at h
        simp only at h
        have hdrop : p.drop i = p[i] :: p[i + 1] :: p.drop (i + 2) := by
          rw [List.drop_eq_getElem_cons hi, List.drop_eq_getElem_cons hi1]
        have t1 : p.take (i + 1) = p.take i ++ [p[i]] := by
          rw [List.take_succ, List.getElem?_eq_getElem hi]
          rfl
        have htake : p.take (i + 2) = p.take i ++ [p[i], p[i + 1]] := by
          rw [List.take_succ, List.getElem?_eq_getElem hi1, t1, List.append_assoc]
          rfl
        have hPa : P p[i] := hP _ (by rw [hdrop]; exact List.mem_cons_self _ _)
        by_cases heq : p[i] = p[i + 1]
        · rw [if_pos heq] at h
          have hlen : (p.take (i + 1)).length = i + 1 := by simp; omega
          have hd : (p.take (i + 1) ++ 88 :: p.drop (i + 1)).drop (i + 2) = p.drop (i + 1) := by
            rw [show p.take (i + 1) ++ 88 :: p.drop (i + 1) =
              (p.take (i + 1) ++ [88]) ++ p.drop (i + 1) by simp]
            rw [List.drop_left' (by simp; omega)]
          have ht : (p.take (i + 1) ++ 88 :: p.drop (i + 1)).take (i + 2) =
              p.take i ++ [p[i], 88] := by
            rw [show p.take (i + 1) ++ 88 :: p.drop (i + 1) =
              (p.take (i + 1) ++ [88]) ++ p.drop (i + 1) by simp]
            rw [List.take_left' (by simp; omega), t1, List.append_assoc]
            rfl
          obtain ⟨r, hr, hf⟩ := ih (i + 2) _ q (by
            intro x hx
            rw [hd] at hx
            apply hP
            rw [hdrop]
            rw [List.drop_eq_getElem_cons hi1] at hx
            exact List.mem_cons_of_mem _ hx) h
          rw [ht] at hr
          refine ⟨p[i] :: 88 :: r, by rw [hr]; simp, ?_⟩
          exact ⟨hPa, fun e => e, hf⟩
        · rw [if_neg heq] at h
          obtain ⟨r, hr, hf⟩ := ih (i + 2) p q (by
            intro x hx
            apply hP
            rw [hdrop]
            exact List.mem_cons_of_mem _ (List.mem_cons_of_mem _ hx)) h
          rw [htake] at hr
          refine ⟨p[i] :: p[i + 1] :: r, by rw [hr]; simp, ?_⟩
          exact ⟨hPa, fun e => absurd e heq, hf⟩
      · rw [List.get?_eq_getElem?, List.get?_eq_getElem?,
          List.getElem?_eq_none (show p.length ≤ i + 1 by omega)] at h
        cases hg : p[i]? <;> rw [hg] at h <;> simp at h
    · rw [if_neg hc] at h
      injection h with h
      subst h
      refine ⟨p.drop i, (List.take_append_drop i p).symm, ?_⟩
      have hlen : (p.drop i).length ≤ 1 := by
        rw [List.length_drop]
        by_cases h0 : p.length = 0
        · omega
        · rw [if_neg h0] at hc
          omega
      match hd : p.drop i, hlen with
      | [], _ => trivial
      | [a], _ =>
        show P a
        exact hP a (by rw [hd]; simp)
      | a :: b :: rest, hl => simp at hl

/-- The pairs of a text in index form. -/
theorem fillerPairs_index (P : Nat → Prop) (n : Nat) : ∀ (r : List Nat), r.length ≤ n →
    FillerPairs P r → ∀ j,
      (2 * j < r.length → P (r.getD (2 * j) 0)) ∧
        (2 * j + 1 < r.length → r.getD (2 * j) 0 = r.getD (2 * j + 1) 0 →
          r.getD (2 * j) 0 = 88) := by
  induction n with
  | zero =>
    intro r hr _ j
    have : r.length = 0 := by omega
    constructor <;> intro h <;> omega
  | succ n ih =>
    intro r hr hf j
    match r, hr, hf with
    | [], _, _ => constructor <;> intro h <;> simp at h
    | [a], _, hf =>
      constructor
      · intro h
        have : j = 0 := by simp at h; omega
        subst this
        exact hf
      · intro h
        simp at h
    | a :: b :: rest, hr, hf =>
      obtain ⟨h1, h2, h3⟩ := hf
      cases j with
      | zero =>
        constructor
        · intro _; exact h1
        · intro _ e; exact h2 e
      | succ j =>
        have := ih rest (by simp at hr; omega) h3 j
        have e1 : 2 * (j + 1) = 2 * j + 1 + 1 := by ring
        have e2 : 2 * (j + 1) + 1 = 2 * j + 1 + 1 + 1 := by ring
        simp only [e1, e2, List.getD_cons_succ, List.length_cons]
        constructor
        · intro h; exact this.1 (by omega)
        · intro h; exact this.2 (by omega)

/-- Every pair of the prepared text starts with a letter of the text, and its two letters are
different unless both are `X`. -/
theorem prepareTextOptimized_pairs (P : Nat → Prop) (text prepared : List Nat)
    (hP : ∀ x ∈ prepareLetters text, P x) (h : prepareTextOptimized text = some prepared) :
    ∀ j, 2 * j + 1 < prepared.length →
      P (prepared.getD (2 * j) 0) ∧
        (prepared.getD (2 * j) 0 = prepared.getD (2 * j + 1) 0 →
          prepared.getD (2 * j) 0 = 88) := by
  unfold prepareTextOptimized at h
  simp only at h
  cases hq : prepareDupLoop ((prepareLetters text).length + 1) 0 (prepareLetters text) with
  | none => rw [hq] at h; simp at h
  | some q =>
    rw [hq] at h
    simp only [Option.some.injEq] at h
    obtain ⟨r, hr, hf⟩ := prepareDupLoop_pairs P _ 0 _ q (by simpa using hP) hq
    simp only [List.take_zero, List.nil_append] at hr
    subst hr
    have hidx := fillerPairs_index P q.length q le_rfl hf
    intro j hj
    by_cases hodd : q.length % 2 ≠ 0
    · rw [if_pos hodd] at h
      subst h
      simp only [List.length_append, List.length_singleton] at hj
      by_cases hin : 2 * j + 1 < q.length
      · have g1 : (q ++ [88]).getD (2 * j) 0 = q.getD (2 * j) 0 := by
          simp only [List.getD_eq_getElem?_getD]
          rw [List.getElem?_append_left (by omega)]
        have g2 : (q ++ [88]).getD (2 * j + 1) 0 = q.getD (2 * j + 1) 0 := by
          simp only [List.getD_eq_getElem?_getD]
          rw [List.getElem?_append_left (by omega)]
        rw [g1, g2]
        exact ⟨(hidx j).1 (by omega), (hidx j).2 hin⟩
      · have hlast : 2 * j + 1 = q.length := by omega
        have g1 : (q ++ [88]).getD (2 * j) 0 = q.getD (2 * j) 0 := by
          simp only [List.getD_eq_getElem?_getD]
          rw [List.getElem?_append_left (by omega)]
        have g2 : (q ++ [88]).getD (2 * j + 1) 0 = 88 := by
          simp only [List.getD_eq_getElem?_getD]
          rw [hlast, List.getElem?_append_right le_rfl]
          simp
        rw [g1, g2]
        exact ⟨(hidx j).1 (by omega), fun e => e⟩
    · rw [if_neg hodd] at h
      subst h
      exact ⟨(hidx j).1 (by omega), (hidx j).2 hj⟩

/-- C31 (as stated) fails: the text `"X"` is prepared to `"XX"` (the padding), and `"XXL"` to
`"XXXL"` (the inserted filler), each with the pair `XX` at offset 0. -/
theorem prepared_equal_pair_fails :
    (∃ c ∈ bytes "X", isalpha c = true) ∧
      prepareTextOptimized (bytes "X") = some (bytes "XX") ∧
      (bytes "XX").getD (2 * 0) 0 = (bytes "XX").getD (2 * 0 + 1) 0 ∧
      (∃ c ∈ bytes "XXL", isalpha c = true) ∧
      prepareTextOptimized (bytes "XXL") = some (bytes "XXXL") ∧
      (bytes "XXXL").getD (2 * 0) 0 = (bytes "XXXL").getD (2 * 0 + 1) 0 := by
  decide

/-- C31 (amended): for every text containing at least one letter, `prepareTextOptimized`
returns a prepared text in which a pair at an even offset consists of two equal letters only
when both are the filler `X`: for every `j`, `prepared[2j] = prepared[2j+1]` implies
`prepared[2j] = prepared[2j+1] = 'X'`. -/
theorem prepared_equal_pair_is_filler (text : List Nat) (h : ∃ c ∈ text, isalpha c = true) :
    ∃ prepared, prepareTextOptimized text = some prepared ∧
      ∀ j, 2 * j + 1 < prepared.length →
        prepared.getD (2 * j) 0 = prepared.getD (2 * j + 1) 0 →
        prepared.getD (2 * j) 0 = 88 ∧ prepared.getD (2 * j + 1) 0 = 88 := by
  obtain ⟨prepared, hp, _⟩ := prepareTextOptimized_some text h
  refine ⟨prepared, hp, ?_⟩
  intro j hj e
  have := (prepareTextOptimized_pairs (fun _ => True) text prepared (fun _ _ => trivial) hp
    j hj).2 e
  exact ⟨this, by rw [← e]; exact this⟩

/-- C31 (amended), instance: `"BALLOON"` is prepared to `"BALXLOON"`. -/
theorem prepared_equal_pair_is_filler_witness :
    (∃ c ∈ bytes "BALLOON", isalpha c = true) ∧
      prepareTextOptimized (bytes "BALLOON") = some (bytes "BALXLOON") ∧
      ∃ prepared, prepareTextOptimized (bytes "BALLOON") = some prepared ∧
        ∀ j, 2 * j + 1 < prepared.length →
          prepared.getD (2 * j) 0 = prepared.getD (2 * j + 1) 0 →
          prepared.getD (2 * j) 0 = 88 ∧ prepared.getD (2 * j + 1) 0 = 88 :=
  ⟨by decide, by decide, prepared_equal_pair_is_filler (bytes "BALLOON") (by decide)⟩

/-- A text without `X` and `x` has no `X` among its prepared letters. -/
theorem prepareLetters_no_filler (text : List Nat) (hx : ∀ c ∈ text, c ≠ 88 ∧ c ≠ 120) :
    ∀ x ∈ prepareLetters text, x ≠ 88 := by
  intro x hmem
  rw [prepareLetters_eq, List.mem_map] at hmem
  obtain ⟨c, hc, rfl⟩ := hmem
  rw [List.mem_filter] at hc
  obtain ⟨h1, h2⟩ := hx c hc.1
  unfold toupper islower
  simp only [Bool.and_eq_true, decide_eq_true_eq]
  split_ifs <;> omega

/-- C32: no equal pair when the input has no `X`. For every text that contains at least one
letter and neither `X` nor `x`, `prepareTextOptimized` (and the original `prepareText`, which has
the same statements) returns a prepared text in which every pair at an even offset consists of
two different letters: `prepared[2j] ≠ prepared[2j+1]` for every `j`. -/
theorem prepared_no_equal_pair (text : List Nat) (h : ∃ c ∈ text, isalpha c = true)
    (hx : ∀ c ∈ text, c ≠ 88 ∧ c ≠ 120) :
    ∃ prepared, prepareTextOptimized text = some prepared ∧ prepareText text = some prepared ∧
      ∀ j, 2 * j + 1 < prepared.length →
        prepared.getD (2 * j) 0 ≠ prepared.getD (2 * j + 1) 0 := by
  obtain ⟨prepared, hp, _⟩ := prepareTextOptimized_some text h
  refine ⟨prepared, hp, hp, ?_⟩
  intro j hj e
  obtain ⟨g1, g2⟩ := prepareTextOptimized_pairs (fun x => x ≠ 88) text prepared
    (prepareLetters_no_filler text hx) hp j hj
  exact g1 (g2 e)

/-- C32, instances: the run `"AAA"` is prepared to `"AXAXAX"` and `"aaaa!"` to `"AXAXAXAX"`,
without an equal pair. -/
theorem prepared_no_equal_pair_witness :
    (∃ c ∈ bytes "AAA", isalpha c = true) ∧ (∀ c ∈ bytes "AAA", c ≠ 88 ∧ c ≠ 120) ∧
      prepareTextOptimized (bytes "AAA") = some (bytes "AXAXAX") ∧
      prepareTextOptimized (bytes "aaaa!") = some (bytes "AXAXAXAX") ∧
      ∃ prepared, prepareTextOptimized (bytes "AAA") = some prepared ∧
        prepareText (bytes "AAA") = some prepared ∧
        ∀ j, 2 * j + 1 < prepared.length →
          prepared.getD (2 * j) 0 ≠ prepared.getD (2 * j + 1) 0 :=
  ⟨by decide, by decide, by decide, by decide,
    prepared_no_equal_pair (bytes "AAA") (by decide) (by decide)⟩

/-! ## Playfair: the position table against the linear search -/

/-- A search over `0 .. n - 1` returns the value at the first index where there is one. -/
theorem findSome_range {β : Type} (f : Nat → Option β) (k : Nat) (v : β) (hfk : f k = some v)
    (hbefore : ∀ j, j < k → f j = none) : ∀ n, k < n → (List.range n).findSome? f = some v := by
  intro n
  induction n with
  | zero => intro h; omega
  | succ n ih =>
    intro h
    rw [List.range_succ, List.findSome?_append]
    by_cases hk : k < n
    · rw [ih hk]
      rfl
    · have hkn : k = n := by omega
      subst hkn
      have hnone : (List.range k).findSome? f = none := by
        rw [List.findSome?_eq_none_iff]
        intro x hx
        exact hbefore x (List.mem_range.mp hx)
      rw [hnone]
      simp [hfk]

/-- On a valid key matrix, `findPosition` finds the row and the column of every cell's
letter. -/
theorem findPosition_lookup (keyMatrix : List Nat) (hv : ValidKeyMatrix keyMatrix) (idx : Nat)
    (h : idx < 25) :
    findPosition keyMatrix (keyMatrix.getD idx 0) =
      some (((idx / 5 : Nat) : Int), ((idx % 5 : Nat) : Int)) := by
  have hinj : ∀ k, k < 25 → keyMatrix.getD k 0 = keyMatrix.getD idx 0 → k = idx := by
    intro k hk e
    have hk' : k < keyMatrix.length := by rw [hv.1]; exact hk
    have hi' : idx < keyMatrix.length := by rw [hv.1]; exact h
    rw [List.getD_eq_getElem?_getD, List.getD_eq_getElem?_getD, List.getElem?_eq_getElem hk',
      List.getElem?_eq_getElem hi', Option.getD_some, Option.getD_some] at e
    exact (hv.2.1.getElem_inj_iff).mp e
  unfold findPosition
  apply findSome_range _ (idx / 5) _ _ _ 5 (by omega)
  · apply findSome_range _ (idx % 5) _ _ _ 5 (by omega)
    · rw [if_pos (by congr 1; omega)]
    · intro j hj
      rw [if_neg]
      intro e
      have := hinj (5 * (idx / 5) + j) (by omega) e
      omega
  · intro i hi
    rw [List.findSome?_eq_none_iff]
    intro j hj
    rw [List.mem_range] at hj
    rw [if_neg]
    intro e
    have := hinj (5 * i + j) (by omega) e
    omega

/-- On a valid key matrix, the pair rule with the linear search returns what the pair rule with
the position table returns, for every pair of letters of the matrix. -/
theorem playfairSearchPair_eq (step : Int) (keyMatrix : List Nat)
    (hv : ValidKeyMatrix keyMatrix) (a b : Nat) (ha : IsGridLetter a) (hb : IsGridLetter b) :
    playfairSearchPair step keyMatrix a b =
      playfairPair step keyMatrix (initializePositionLookup keyMatrix) a b := by
  have hma := mem_of_validKeyMatrix keyMatrix hv a ha
  have hmb := mem_of_validKeyMatrix keyMatrix hv b hb
  obtain ⟨i1, h1, e1⟩ := List.getElem_of_mem hma
  obtain ⟨i2, h2, e2⟩ := List.getElem_of_mem hmb
  have h1' : i1 < 25 := by rw [← hv.1]; exact h1
  have h2' : i2 < 25 := by rw [← hv.1]; exact h2
  have g1 : keyMatrix.getD i1 0 = a := by
    rw [List.getD_eq_getElem?_getD, List.getElem?_eq_getElem h1, Option.getD_some, e1]
  have g2 : keyMatrix.getD i2 0 = b := by
    rw [List.getD_eq_getElem?_getD, List.getElem?_eq_getElem h2, Option.getD_some, e2]
  unfold playfairSearchPair playfairPair
  rw [← g1, ← g2, findPosition_lookup keyMatrix hv i1 h1', findPosition_lookup keyMatrix hv i2 h2',
    posAt_lookup keyMatrix hv i1 h1', posAt_lookup keyMatrix hv i2 h2']

/-- On a valid key matrix, the pair loop with the linear search returns what the pair loop with
the position table returns, for every text of Playfair letters. -/
theorem playfairSearchLoop_eq (step : Int) (keyMatrix : List Nat)
    (hv : ValidKeyMatrix keyMatrix) (n : Nat) :
    ∀ text : List Nat, text.length ≤ n → (∀ c ∈ text, IsGridLetter c) →
      playfairSearchLoop step keyMatrix text =
        playfairLoop step keyMatrix (initializePositionLookup keyMatrix) text := by
  induction n with
  | zero =>
    intro text hlen _
    have : text = [] := List.length_eq_zero.mp (by omega)
    subst this
    rfl
  | succ n ih =>
    intro text hlen hl
    match text, hlen, hl with
    | [], _, _ => rfl
    | [_], _, _ => rfl
    | a :: b :: rest, hlen, hl =>
      rw [playfairSearchLoop, playfairLoop,
        playfairSearchPair_eq step keyMatrix hv a b (hl a (by simp)) (hl b (by simp)),
        ih rest (by simp at hlen; omega) (fun c hc => hl c (by simp [hc]))]

/-- On a valid key matrix, the pair loop returns a text for every even-length text of Playfair
letters. -/
theorem playfairLoop_some (step : Nat) (keyMatrix : List Nat) (hv : ValidKeyMatrix keyMatrix)
    (n : Nat) :
    ∀ text : List Nat, text.length = 2 * n → (∀ c ∈ text, IsGridLetter c) →
      ∃ out, playfairLoop (step : Int) keyMatrix (initializePositionLookup keyMatrix) text =
        some out := by
  induction n with
  | zero =>
    intro text hlen _
    have : text = [] := List.length_eq_zero.mp (by omega)
    subst this
    exact ⟨[], rfl⟩
  | succ n ih =>
    intro text hlen hl
    match text, hlen, hl with
    | a :: b :: rest, hlen, hl =>
      have ha := mem_of_validKeyMatrix keyMatrix hv a (hl a (by simp))
      have hb := mem_of_validKeyMatrix keyMatrix hv b (hl b (by simp))
      obtain ⟨i1, h1, e1⟩ := List.getElem_of_mem ha
      obtain ⟨i2, h2, e2⟩ := List.getElem_of_mem hb
      have h1' : i1 < 25 := by rw [← hv.1]; exact h1
      have h2' : i2 < 25 := by rw [← hv.1]; exact h2
      have g1 : keyMatrix.getD i1 0 = a := by
        rw [List.getD_eq_getElem?_getD, List.getElem?_eq_getElem h1, Option.getD_some, e1]
      have g2 : keyMatrix.getD i2 0 = b := by
        rw [List.getD_eq_getElem?_getD, List.getElem?_eq_getElem h2, Option.getD_some, e2]
      have hp := playfairPair_eq keyMatrix hv step i1 i2 h1' h2'
      rw [g1, g2] at hp
      obtain ⟨out, ho⟩ := ih rest (by simp at hlen; omega) (fun c hc => hl c (by simp [hc]))
      exact ⟨_, by rw [playfairLoop, hp, ho]⟩

/-- C38: the Playfair lookup table agrees with the linear search. For every key matrix that
satisfies the key-matrix invariant: for every text with at least one letter,
`playfairEncryptOptimized` (position table of `initializePositionLookup`) and the original
`encrypt` (`findPosition` scan) return the same ciphertext; and for every even-length text of
letters `A`-`Z` without `J`, `playfairDecryptOptimized` and the original `decrypt` return the
same text. -/
theorem playfair_lookup_agrees (keyMatrix : List Nat) (hv : ValidKeyMatrix keyMatrix) :
    (∀ text : List Nat, (∃ c ∈ text, isalpha c = true) →
        ∃ ct, playfairEncryptOptimized text keyMatrix = some ct ∧
          playfairEncrypt text keyMatrix = some ct) ∧
      (∀ ct : List Nat, ct.length % 2 = 0 → (∀ c ∈ ct, IsGridLetter c) →
        ∃ pt, playfairDecryptOptimized ct keyMatrix = some pt ∧
          playfairDecrypt ct keyMatrix = some pt) := by
  constructor
  · intro text h
    obtain ⟨prepared, hp, heven, _, hl⟩ := prepareTextOptimized_some text h
    obtain ⟨ct, hct⟩ := playfairLoop_some 1 keyMatrix hv (prepared.length / 2) prepared
      (by omega) hl
    rw [Nat.cast_one] at hct
    refine ⟨ct, ?_, ?_⟩
    · unfold playfairEncryptOptimized
      rw [hp]
      exact hct
    · unfold playfairEncrypt
      rw [show prepareText text = some prepared from hp]
      simp only
      rw [playfairSearchLoop_eq 1 keyMatrix hv prepared.length prepared le_rfl hl]
      exact hct
  · intro ct heven hl
    obtain ⟨pt, hpt⟩ := playfairLoop_some 4 keyMatrix hv (ct.length / 2) ct (by omega) hl
    rw [Nat.cast_ofNat] at hpt
    refine ⟨pt, hpt, ?_⟩
    unfold playfairDecrypt
    rw [playfairSearchLoop_eq 4 keyMatrix hv ct.length ct le_rfl hl]
    exact hpt

/-- C38, instances: with the key matrix of `"MONARCHY"`, both encryptors turn `"INSTRUMENTS"`
into `"GATLMZCLRQXA"` and both decryptors turn it back into `"INSTRUMENTSX"`. -/
theorem playfair_lookup_agrees_witness :
    ValidKeyMatrix (generateKeyMatrixOptimized (bytes "MONARCHY")) ∧
      playfairEncrypt (bytes "INSTRUMENTS") (generateKeyMatrixOptimized (bytes "MONARCHY")) =
        some (bytes "GATLMZCLRQXA") ∧
      playfairDecrypt (bytes "GATLMZCLRQXA") (generateKeyMatrixOptimized (bytes "MONARCHY")) =
        some (bytes "INSTRUMENTSX") ∧
      (∃ c ∈ bytes "INSTRUMENTS", isalpha c = true) ∧
      (∃ ct, playfairEncryptOptimized (bytes "INSTRUMENTS")
            (generateKeyMatrixOptimized (bytes "MONARCHY")) = some ct ∧
          playfairEncrypt (bytes "INSTRUMENTS")
            (generateKeyMatrixOptimized (bytes "MONARCHY")) = some ct) ∧
      (bytes "GATLMZCLRQXA").length % 2 = 0 ∧ (∀ c ∈ bytes "GATLMZCLRQXA", IsGridLetter c) ∧
      ∃ pt, playfairDecryptOptimized (bytes "GATLMZCLRQXA")
            (generateKeyMatrixOptimized (bytes "MONARCHY")) = some pt ∧
          playfairDecrypt (bytes "GATLMZCLRQXA")
            (generateKeyMatrixOptimized (bytes "MONARCHY")) = some pt :=
  ⟨generateKeyMatrixOptimized_valid _, by decide, by decide, by decide,
    (playfair_lookup_agrees (generateKeyMatrixOptimized (bytes "MONARCHY"))
      (generateKeyMatrixOptimized_valid _)).1 (bytes "INSTRUMENTS") (by decide),
    by decide, by simp only [IsGridLetter]; decide,
    (playfair_lookup_agrees (generateKeyMatrixOptimized (bytes "MONARCHY"))
      (generateKeyMatrixOptimized_valid _)).2 (bytes "GATLMZCLRQXA") (by decide)
      (by simp only [IsGridLetter]; decide)⟩

/-! ## Rail fence: decryption of an arbitrary string -/

/-- The encryption loop commutes with a renaming of the characters. -/
theorem railfenceEncLoop_map (key : Int) (f : Nat → Nat) (text : List Nat) :
    ∀ (rail : List (List Nat)) (row direction : Int),
      railfenceEncLoop key (text.map f) (rail.map (List.map f)) row direction =
        (railfenceEncLoop key text rail row direction).map (List.map f) := by
  induction text with
  | nil => intro rail row direction; rfl
  | cons ch rest ih =>
    intro rail row direction
    simp only [List.map_cons]
    unfold railfenceEncLoop
    simp only
    rw [← ih]
    congr 1
    rw [List.map_set]
    congr 1
    simp only [List.getD_eq_getElem?_getD, List.getElem?_map, List.map_append, List.map_cons,
      List.map_nil]
    cases rail[row.toNat]? <;> simp

/-- Every string is the ciphertext of a rearrangement of itself. -/
theorem railfenceEncrypt_surjective (c : List Nat) (key : Int) (hk : 2 ≤ key) :
    ∃ t, railfenceEncryptOptimized t key = c ∧ List.Perm t c := by
  by_cases hc : c = []
  · subst hc
    refine ⟨[], ?_, List.Perm.refl _⟩
    unfold railfenceEncryptOptimized
    simp
  · have hk1 : ¬ key ≤ 1 := by omega
    have hinv := railInv_start key hk
    have hn : 0 < c.length := List.length_pos.mpr hc
    generalize hPdef :
      (railfenceEncLoop key (List.range c.length) (List.replicate key.toNat []) 0 1).flatten = P
    have hperm : List.Perm P (List.range c.length) := by
      have := railfenceEncLoop_perm key hk (List.range c.length) (List.replicate key.toNat []) 0 1
        hinv (by simp)
      rw [hPdef] at this
      simpa using this
    have hnodup : P.Nodup := hperm.nodup_iff.mpr (List.nodup_range _)
    have hlen : P.length = c.length := by rw [hperm.length_eq, List.length_range]
    refine ⟨(List.range c.length).map (fun i => c.getD (P.indexOf i) 0), ?_, ?_⟩
    · unfold railfenceEncryptOptimized
      have hne : ((List.range c.length).map (fun i => c.getD (P.indexOf i) 0)).isEmpty = false := by
        cases h : (List.range c.length).map (fun i => c.getD (P.indexOf i) 0) with
        | nil =>
          have hl : ((List.range c.length).map (fun i => c.getD (P.indexOf i) 0)).length =
              c.length := by simp
          rw [h, List.length_nil] at hl
          omega
        | cons a l => rfl
      simp only [hk1, if_false, hne, Bool.false_eq_true]
      have hrep : List.replicate key.toNat ([] : List Nat) =
          (List.replicate key.toNat []).map (List.map (fun i => c.getD (P.indexOf i) 0)) := by
        simp
      rw [hrep, railfenceEncLoop_map, ← List.map_flatten, hPdef]
      apply List.ext_getElem
      · simp [hlen]
      · intro j h1 h2
        have hj : j < P.length := by simpa using h1
        rw [List.getElem_map, List.indexOf_getElem hnodup j hj, List.getD_eq_getElem?_getD,
          List.getElem?_eq_getElem h2, Option.getD_some]
    · have h1 : List.Perm (P.map (fun i => c.getD (P.indexOf i) 0))
          ((List.range c.length).map (fun i => c.getD (P.indexOf i) 0)) := hperm.map _
      have h2 : P.map (fun i => c.getD (P.indexOf i) 0) = c := by
        apply List.ext_getElem
        · simp [hlen]
        · intro j h1 h2
          have hj : j < P.length := by simpa using h1
          rw [List.getElem_map, List.indexOf_getElem hnodup j hj, List.getD_eq_getElem?_getD,
            List.getElem?_eq_getElem h2, Option.getD_some]
      rw [h2] at h1
      exact h1.symm

/-- Slicing the concatenation of the rails by their lengths passes every bound check. -/
theorem railFillChecked_flatten (rs : List (List Nat)) : ∀ (pre suf : List Nat),
    railFillChecked (pre ++ rs.flatten ++ suf) (rs.map List.length) pre.length = some rs := by
  induction rs with
  | nil => intro pre suf; rfl
  | cons r rs ih =>
    intro pre suf
    simp only [List.map_cons, railFillChecked]
    have hle : pre.length + r.length ≤ (pre ++ (r :: rs).flatten ++ suf).length := by
      simp only [List.flatten_cons, List.length_append]; omega
    rw [if_pos hle]
    have h1 : List.take r.length (List.drop pre.length (pre ++ (r :: rs).flatten ++ suf)) = r := by
      simp only [List.flatten_cons, List.append_assoc, List.drop_left, List.take_left]
    rw [h1]
    have h2 : pre ++ (r :: rs).flatten ++ suf = (pre ++ r) ++ rs.flatten ++ suf := by
      simp only [List.flatten_cons, List.append_assoc]
    have h3 : pre.length + r.length = (pre ++ r).length := by simp
    rw [h2, h3, ih (pre ++ r) suf]

/-- The reading loop passes its bound check at every position when the unread parts of the
rails are the shares of a text. -/
theorem railReadChecked_eq (key : Int) (hk : 2 ≤ key) (rail : List (List Nat))
    (text : List Nat) :
    ∀ (railPos : List Nat) (row direction : Int) (acc : List Nat),
      RailInv key row direction → railPos.length = key.toNat →
      (∀ i, i < key.toNat →
        (rail.getD i []).drop (railPos.getD i 0) = railShare key text row direction i) →
      railReadChecked key rail text.length railPos row direction acc = some (acc ++ text) := by
  induction text with
  | nil => intro railPos row direction acc _ _ _; simp [railReadChecked]
  | cons ch rest ih =>
    intro railPos row direction acc hinv hlen hshare
    have hr : row.toNat < key.toNat := by
      unfold RailInv at hinv; omega
    have h0 := hshare row.toNat hr
    unfold railShare at h0
    rw [if_pos rfl] at h0
    obtain ⟨g1, g2, g3⟩ := drop_eq_cons _ _ _ _ h0
    simp only [List.length_cons]
    unfold railReadChecked
    simp only [if_pos g1, g2]
    rw [ih _ _ _ _ (railInv_step key row direction hk hinv) (by simp [hlen])]
    · simp
    · intro i hi
      rw [getD_set_pos _ _ _ _ (by omega)]
      have hi' := hshare i hi
      unfold railShare at hi'
      split_ifs with h
      · subst h
        exact g3
      · rw [if_neg h] at hi'
        simpa using hi'

/-- On a ciphertext of the encryptor no bound check of the decryptor fails, and the plaintext
comes back. -/
theorem railfenceDecryptChecked_encrypt (t : List Nat) (key : Int) (hk : 2 ≤ key) :
    railfenceDecryptChecked (railfenceEncryptOptimized t key) key = some t := by
  by_cases ht : t = []
  · subst ht
    unfold railfenceEncryptOptimized railfenceDecryptChecked
    simp [show ¬ key ≤ 1 by omega]
  · have hte : t.isEmpty = false := by cases t <;> simp_all
    have hk1 : ¬ key ≤ 1 := by omega
    have hinv := railInv_start key hk
    have hE : railfenceEncryptOptimized t key =
        (railfenceEncLoop key t (List.replicate key.toNat []) 0 1).flatten := by
      unfold railfenceEncryptOptimized
      simp [hk1, hte]
    generalize hEdef : railfenceEncLoop key t (List.replicate key.toNat []) 0 1 = E at hE
    have hElen : E.flatten.length = t.length := by
      rw [← hEdef, railfenceEncLoop_flatten_length key hk t _ _ _ hinv (by simp)]
      simp
    have hcne : E.flatten.isEmpty = false := by
      cases h : E.flatten with
      | nil => rw [h] at hElen; cases t <;> simp_all
      | cons a l => rfl
    rw [hE]
    unfold railfenceDecryptChecked
    simp only [hk1, if_false, hcne, Bool.false_eq_true]
    rw [hElen]
    have hlens : railLengthsLoop key t.length (List.replicate key.toNat 0) 0 1 =
        E.map List.length := by
      have := railLengthsLoop_eq key t (List.replicate key.toNat []) 0 1
      rw [hEdef] at this
      rw [← this]
      simp
    rw [hlens]
    have hfill : railFillChecked E.flatten (E.map List.length) 0 = some E := by
      have := railFillChecked_flatten E [] []
      simpa using this
    rw [hfill]
    have := railReadChecked_eq key hk E t (List.replicate key.toNat 0) 0 1 [] hinv (by simp)
      (by
        intro i hi
        rw [← hEdef, railfenceEncLoop_getD key hk t _ _ _ i hinv (by simp)]
        simp [List.getD_eq_getElem?_getD, hi])
    simpa using this

/-- The rail lengths counted by the decryptor add up to the length of the ciphertext. -/
theorem railLengthsLoop_sum (c : List Nat) (key : Int) (hk : 2 ≤ key) :
    (railLengthsLoop key c.length (List.replicate key.toNat 0) 0 1).sum = c.length := by
  have h1 := railLengthsLoop_eq key c (List.replicate key.toNat []) 0 1
  have h2 := railfenceEncLoop_flatten_length key hk c (List.replicate key.toNat []) 0 1
    (railInv_start key hk) (by simp)
  have h3 : (List.replicate key.toNat ([] : List Nat)).map List.length =
      List.replicate key.toNat 0 := by simp
  rw [h3] at h1
  rw [h1, ← List.length_flatten, h2]
  simp

/-- C33: rail fence decryption fabricates and drops nothing. For every `key ≥ 2` and every
byte string `c` (not only outputs of the encryptor): the rail lengths counted in the first pass
add up to `|c|`; no bound check of `railfenceDecryptOptimized` fails (the run in which a failed
check is reported returns the output of the function); and the output is a permutation of `c`,
of length `|c|`. -/
theorem railfence_decrypt_total (c : List Nat) (key : Int) (hk : 2 ≤ key) :
    (railLengthsLoop key c.length (List.replicate key.toNat 0) 0 1).sum = c.length ∧
      railfenceDecryptChecked c key = some (railfenceDecryptOptimized c key) ∧
      List.Perm (railfenceDecryptOptimized c key) c ∧
      (railfenceDecryptOptimized c key).length = c.length := by
  obtain ⟨t, ht, hperm⟩ := railfenceEncrypt_surjective c key hk
  have hd : railfenceDecryptOptimized c key = t := by
    rw [← ht]
    exact railfence_decrypt_encrypt t key hk
  have hch : railfenceDecryptChecked c key = some t := by
    rw [← ht]
    exact railfenceDecryptChecked_encrypt t key hk
  rw [hd]
  exact ⟨railLengthsLoop_sum c key hk, hch, hperm, hperm.length_eq⟩

/-- C33, instance: the string `"HELLOWORLD"` is decrypted with key 3 to its rearrangement
`"HLLOEWDOLR"`, and the counted rail lengths are 3, 5 and 2. -/
theorem railfence_decrypt_total_witness :
    (2 : Int) ≤ 3 ∧
      railLengthsLoop 3 (bytes "HELLOWORLD").length (List.replicate (3 : Int).toNat 0) 0 1 =
        [3, 5, 2] ∧
      railfenceDecryptOptimized (bytes "HELLOWORLD") 3 = bytes "HLLOEWDOLR" ∧
      ((railLengthsLoop 3 (bytes "HELLOWORLD").length (List.replicate (3 : Int).toNat 0) 0 1).sum =
          (bytes "HELLOWORLD").length ∧
        railfenceDecryptChecked (bytes "HELLOWORLD") 3 =
          some (railfenceDecryptOptimized (bytes "HELLOWORLD") 3) ∧
        List.Perm (railfenceDecryptOptimized (bytes "HELLOWORLD") 3) (bytes "HELLOWORLD") ∧
        (railfenceDecryptOptimized (bytes "HELLOWORLD") 3).length =
          (bytes "HELLOWORLD").length) :=
  ⟨by decide, by decide, by decide, railfence_decrypt_total (bytes "HELLOWORLD") 3 (by decide)⟩

end CipherMechanisms
